import Mathlib

/-!
# Verification of `cpu_simulator.c`

A shallow embedding of the multitasking CPU simulator: the instruction engine
(`execute_instruction`), the per-task dispatch loop (`execute_task`), the task
registry (`add_task`, `initialize_cpu`) and the round-robin `scheduler`.

Modelling conventions.

* `int` values are mathematical integers; every `int` arithmetic result is reduced
  to the 32-bit two's complement range by `wrap_int`.  A store into a `char` cell
  keeps the low 8 bits, sign-extended (`wrap_char`, `char` being signed).
* Behaviour that C leaves undefined is a *fault*, modelled by `none`: an access
  outside the register file or outside the stack array, a read of a `sscanf`
  output buffer that was never written, a token that does not fit its
  10-byte buffer, a read of `program` outside the array, and `strcmp` on the
  `NULL` sentinel.
* A program is the list of instruction texts before the `NULL` sentinel; the
  sentinel is the position just past the end of the list.
* The execution context of a dispatch polls `preempt_flag` once per loop
  iteration.  The number of polls that still see the flag clear is the
  parameter `slice` of `execute_task`; the scheduler takes it from an
  oracle `Nat → Nat` indexed by the number of dispatches made so far, since the
  source bounds a dispatch by wall-clock time only.

The arithmetic demonstrations `Adder.cpp`, `BoothsAlgorithm.cpp` and
`NonRestoringDivision.cpp` and the process scheduler of `os_simulator.c` are
embedded in namespaces of their own, after the simulator's definitions.
-/

namespace CpuSimulator

/-! ## Constants -/

abbrev NUM_REGISTERS : Nat := 8
abbrev STACK_SIZE : Nat := 256
abbrev HEAP_SIZE : Nat := 1024
abbrev MAX_TASKS : Nat := 5

/-! ## Data model -/

/-- The `CPU` structure: register file, program counter, stack pointer, stack and heap. -/
structure CPU where
  registers : Fin NUM_REGISTERS → Int
  pc : Int
  sp : Int
  stack : Fin STACK_SIZE → Int
  heap : Fin HEAP_SIZE → Int

/-- The `Task` structure.  The `pthread_t` handle carries no data of the simulation
and is left out; the two `int` flags only ever hold 0 or 1. -/
structure Task where
  id : Int
  priority : Int
  cpu_state : CPU
  is_complete : Bool
  program : List String
  preempt_flag : Bool

/-! ## Machine integers -/

/-- Reduction of an integer to the range of a 32-bit `int`. -/
def wrap_int (x : Int) : Int := (x + 2147483648) % 4294967296 - 2147483648

/-- Conversion of an `int` to a (signed) `char`: the low 8 bits, sign-extended. -/
def wrap_char (x : Int) : Int := (x + 128) % 256 - 128

/-! ## Text scanning (`sscanf`, `atoi`, `strcmp`) -/

/-- The characters of a C string: everything before the first NUL. -/
def c_str (s : String) : List Char := s.data.takeWhile (fun c => c.toNat != 0)

/-- The `isspace` test of the C locale. -/
def isspace (c : Char) : Bool :=
  c.toNat == 32 || (9 ≤ c.toNat && c.toNat ≤ 13)

/-- Number of bytes a token occupies in a `char` buffer. -/
def byte_length (tok : List Char) : Nat := (tok.map Char.utf8Size).sum

/-- One `%s` conversion: skip white space, then take the maximal run of
non-space characters.  Returns the token (`none` at end of input) and the
remaining input. -/
def scan_s (input : List Char) : Option (List Char) × List Char :=
  let input := input.dropWhile isspace
  let tok := input.takeWhile (fun c => !isspace c)
  let rest := input.dropWhile (fun c => !isspace c)
  if tok.isEmpty then (none, rest) else (some tok, rest)

/-- The four output buffers of `sscanf(instruction, "%s %s %s %s", op, arg1, arg2, arg3)`;
`none` is a buffer that was not written. -/
structure Scanned where
  op : Option (List Char)
  arg1 : Option (List Char)
  arg2 : Option (List Char)
  arg3 : Option (List Char)

/-- A token fits a `char[10]` buffer when it has at most 9 bytes. -/
def fits (tok : Option (List Char)) : Bool :=
  match tok with
  | none => true
  | some t => byte_length t < 10

/-- The call `sscanf(instruction, "%s %s %s %s", op, arg1, arg2, arg3)`.
A conversion after a failed one is not attempted.  The result is `none`
(a fault) when a token overflows its buffer. -/
def sscanf4 (instruction : List Char) : Option Scanned :=
  let r0 := scan_s instruction
  let r1 := scan_s r0.2
  let r2 := scan_s r1.2
  let r3 := scan_s r2.2
  if fits r0.1 && fits r1.1 && fits r2.1 && fits r3.1 then
    some { op := r0.1, arg1 := r1.1, arg2 := r2.1, arg3 := r3.1 }
  else none

/-- The digits part of `atoi`: accumulate decimal digits, stop at the first non-digit. -/
def atoi_digits : List Char → Int → Int
  | [], acc => acc
  | c :: cs, acc =>
    if 48 ≤ c.toNat ∧ c.toNat ≤ 57 then atoi_digits cs (acc * 10 + ((c.toNat : Int) - 48))
    else acc

/-- The function `atoi` on a token (no leading white space; at most 9 bytes, so
the value always fits an `int`). -/
def atoi (s : List Char) : Int :=
  match s with
  | [] => 0
  | c :: cs =>
    if c.toNat = 45 then - atoi_digits cs 0
    else if c.toNat = 43 then atoi_digits cs 0
    else atoi_digits (c :: cs) 0

/-- The expression `arg[1] - '0'` used as an index into `registers`:
`none` when the buffer was not written or the index is outside `0..7`.
The byte `arg[1]` is the second character when the first one is a single byte;
it is the terminating NUL for a one-character token. -/
def reg_index (arg : Option (List Char)) : Option (Fin NUM_REGISTERS) :=
  match arg with
  | some (c0 :: c1 :: _) =>
    if h : c0.utf8Size = 1 ∧ 48 ≤ c1.toNat ∧ c1.toNat - 48 < NUM_REGISTERS then
      some ⟨c1.toNat - 48, h.2.2⟩
    else none
  | _ => none

/-- An index into `stack`; `none` outside `0..STACK_SIZE-1`. -/
def stack_index (i : Int) : Option (Fin STACK_SIZE) :=
  if h : 0 ≤ i ∧ i < 256 then some ⟨i.toNat, by show i.toNat < 256; omega⟩ else none

/-! ## The instruction engine -/

/-- The function `execute_instruction(cpu, instruction, &cpu->pc)`.

A register index is checked where it is computed (`arg[1] - '0'`).  The source uses
the index of `PUSH` and `POP` only when the guard on `sp` holds, so the model is
more cautious than the source in one case: a `PUSH` or `POP` whose operand is not
`R0`..`R7`, executed when the stack is full (resp. empty), is a fault here although
the source does not index `registers` on that path. -/
def execute_instruction (cpu : CPU) (instruction : String) : Option CPU := do
  let toks ← sscanf4 (c_str instruction)
  let op ← toks.op
  let cpu1 ←
    if op = "LOAD".data then do
      let r ← reg_index toks.arg1
      let arg2 ← toks.arg2
      let value := atoi arg2
      pure { cpu with registers := Function.update cpu.registers r value }
    else if op = "ADD".data then do
      let reg1 ← reg_index toks.arg1
      let reg2 ← reg_index toks.arg2
      pure { cpu with registers :=
        Function.update cpu.registers reg1 (wrap_int (cpu.registers reg1 + cpu.registers reg2)) }
    else if op = "SUB".data then do
      let reg1 ← reg_index toks.arg1
      let reg2 ← reg_index toks.arg2
      pure { cpu with registers :=
        Function.update cpu.registers reg1 (wrap_int (cpu.registers reg1 - cpu.registers reg2)) }
    else if op = "MUL".data then do
      let reg1 ← reg_index toks.arg1
      let reg2 ← reg_index toks.arg2
      pure { cpu with registers :=
        Function.update cpu.registers reg1 (wrap_int (cpu.registers reg1 * cpu.registers reg2)) }
    else if op = "PUSH".data then do
      let r ← reg_index toks.arg1
      if 0 ≤ cpu.sp then do
        let i ← stack_index cpu.sp
        pure { cpu with
          stack := Function.update cpu.stack i (wrap_char (cpu.registers r)),
          sp := wrap_int (cpu.sp - 1) }
      else pure cpu
    else if op = "POP".data then do
      let r ← reg_index toks.arg1
      if cpu.sp < (STACK_SIZE : Int) - 1 then do
        let sp1 := wrap_int (cpu.sp + 1)
        let i ← stack_index sp1
        pure { cpu with
          sp := sp1,
          registers := Function.update cpu.registers r (cpu.stack i) }
      else pure cpu
    else if op = "HALT".data then pure cpu
    else pure cpu
  pure { cpu1 with pc := wrap_int (cpu1.pc + 1) }

/-! ## The task registry -/

/-- The function `initialize_cpu`. -/
def initialize_cpu : CPU :=
  { pc := 0
    sp := (STACK_SIZE : Int) - 1
    registers := fun _ => 0
    stack := fun _ => 0
    heap := fun _ => 0 }

/-- The function `add_task`.  The registry is the list of the first `task_count`
entries of `task_queue`, so `task_count` is its length and
`task_queue[task_count++] = new_task` appends. -/
def add_task (priority : Int) (program : List String) (task_queue : List Task) : List Task :=
  if task_queue.length ≥ MAX_TASKS then task_queue
  else
    task_queue ++ [{ id := (task_queue.length : Int)
                     priority := priority
                     is_complete := false
                     program := program
                     preempt_flag := false
                     cpu_state := initialize_cpu }]

/-! ## The dispatch loop -/

/-- Outcome of reading `program[pc]`. -/
inductive Fetched where
  | sentinel
  | instr (text : String)

/-- The read `task->program[pc]`: `none` (a fault) outside the array, the sentinel
at the position just past the last instruction. -/
def fetch (program : List String) (pc : Int) : Option Fetched :=
  if pc < 0 then none
  else
    match program.get? pc.toNat with
    | some text => some (Fetched.instr text)
    | none => if pc.toNat = program.length then some Fetched.sentinel else none

/-- The function `execute_task`.  `slice` is the number of polls of `preempt_flag`
that still find it as the scheduler left it before the dispatch; at the next poll
the scheduler's store `preempt_flag = 1` is visible. -/
def execute_task : Nat → Task → Option Task
  | slice, task =>
    match fetch task.program task.cpu_state.pc with
    | none => none
    | some Fetched.sentinel => some task
    | some (Fetched.instr text) =>
      if task.preempt_flag then some task
      else
        match slice with
        | 0 => some { task with preempt_flag := true }
        | slice + 1 =>
          match execute_instruction task.cpu_state text with
          | none => none
          | some cpu =>
            match fetch task.program cpu.pc with
            | none => none
            | some Fetched.sentinel => none
            | some (Fetched.instr next) =>
              if c_str next = "HALT".data then
                some { task with cpu_state := cpu, is_complete := true }
              else execute_task slice { task with cpu_state := cpu }

/-! ## The scheduler -/

/-- One pass of the `for` loop of `scheduler` over the tasks from index `i` on.
`k` counts the dispatches made so far and selects the slice of each dispatch.
Returns the tasks after the pass and, for every dispatch in order, the index `i`
and the id printed by the "Scheduling Task" line; the length of that list is
`active_tasks`. -/
def sweep (slice : Nat → Nat) :
    Nat → Nat → List Task → Option (List Task × List (Nat × Int))
  | _, _, [] => some ([], [])
  | k, i, task :: rest =>
    if task.is_complete then
      match sweep slice k (i + 1) rest with
      | none => none
      | some (rest1, log) => some (task :: rest1, log)
    else
      match execute_task (slice k) { task with preempt_flag := false } with
      | none => none
      | some task1 =>
        match sweep slice (k + 1) (i + 1) rest with
        | none => none
        | some (rest1, log) => some ({ task1 with preempt_flag := true } :: rest1, (i, task.id) :: log)

/-- Result of running the scheduler with a bound on the number of sweeps:
`done` when the loop reached its `break`, `fault` when a dispatch ran into
undefined behaviour, `timeout` when the bound was used up first. -/
inductive Run (α : Type) where
  | done (a : α)
  | fault
  | timeout
  deriving DecidableEq

/-- The `while (1)` loop of `scheduler`, with `fuel` bounding the number of
sweeps.  Returns the final task queue and, for every sweep made, the list of
dispatches it made. -/
def scheduler_loop (slice : Nat → Nat) :
    Nat → Nat → List Task → List (List (Nat × Int)) →
      Run (List Task × List (List (Nat × Int)))
  | 0, _, _, _ => Run.timeout
  | fuel + 1, k, task_queue, trace =>
    match sweep slice k 0 task_queue with
    | none => Run.fault
    | some (task_queue1, log) =>
      if log.length = 0 then Run.done (task_queue1, trace ++ [log])
      else scheduler_loop slice fuel (k + log.length) task_queue1 (trace ++ [log])

/-- The function `scheduler`. -/
def scheduler (slice : Nat → Nat) (fuel : Nat) (task_queue : List Task) :
    Run (List Task × List (List (Nat × Int))) :=
  scheduler_loop slice fuel 0 task_queue []

/-- The three programs of `main`. -/
def program1 : List String :=
  ["LOAD R0, 10", "LOAD R1, 20", "ADD R2, R0, R1", "PUSH R2", "POP R3", "HALT"]

def program2 : List String :=
  ["LOAD R0, 50", "LOAD R1, 5", "SUB R2, R0, R1", "HALT"]

def program3 : List String :=
  ["LOAD R0, 100", "LOAD R1, 4", "MUL R2, R0, R1", "HALT"]

/-- The task queue of `main` before `scheduler()` is called. -/
def main_queue : List Task :=
  add_task 2 program3 (add_task 1 program2 (add_task 3 program1 []))

/-! ## Instruction texts and auxiliary definitions used in the statements -/

/-- The text of register operand `Rr`. -/
def reg_text (r : Fin NUM_REGISTERS) : List Char := [Char.ofNat 82, Char.ofNat (48 + r.val)]

/-- The instruction text `OP Rd, Rs` of a two-operand instruction. -/
def two_operand (op : String) (d s : Fin NUM_REGISTERS) : String :=
  ⟨op.data ++ [Char.ofNat 32] ++ reg_text d ++ [Char.ofNat 44, Char.ofNat 32] ++ reg_text s⟩

/-- The instruction text `OP Rr` of a one-operand instruction. -/
def one_operand (op : String) (r : Fin NUM_REGISTERS) : String :=
  ⟨op.data ++ [Char.ofNat 32] ++ reg_text r⟩

/-- Execution of a sequence of instructions by successive calls of
`execute_instruction`. -/
def run_instructions : CPU → List String → Option CPU
  | cpu, [] => some cpu
  | cpu, text :: rest =>
    match execute_instruction cpu text with
    | none => none
    | some cpu1 => run_instructions cpu1 rest

/-- A decoded instruction: what `execute_instruction` extracts from the text.
`nop` stands for `HALT` and for every unknown opcode. -/
inductive Instr where
  | load (r : Fin NUM_REGISTERS) (value : Int)
  | add (reg1 reg2 : Fin NUM_REGISTERS)
  | sub (reg1 reg2 : Fin NUM_REGISTERS)
  | mul (reg1 reg2 : Fin NUM_REGISTERS)
  | push (r : Fin NUM_REGISTERS)
  | pop (r : Fin NUM_REGISTERS)
  | nop
  deriving DecidableEq

/-- The decoding part of `execute_instruction`: the tokens are scanned and the
operands that the opcode reads are extracted.  `none` exactly when scanning or
operand extraction faults. -/
def decode (instruction : String) : Option Instr :=
  match sscanf4 (c_str instruction) with
  | none => none
  | some toks =>
    match toks.op with
    | none => none
    | some op =>
      if op = "LOAD".data then
        match reg_index toks.arg1, toks.arg2 with
        | some r, some arg2 => some (Instr.load r (atoi arg2))
        | _, _ => none
      else if op = "ADD".data then
        match reg_index toks.arg1, reg_index toks.arg2 with
        | some reg1, some reg2 => some (Instr.add reg1 reg2)
        | _, _ => none
      else if op = "SUB".data then
        match reg_index toks.arg1, reg_index toks.arg2 with
        | some reg1, some reg2 => some (Instr.sub reg1 reg2)
        | _, _ => none
      else if op = "MUL".data then
        match reg_index toks.arg1, reg_index toks.arg2 with
        | some reg1, some reg2 => some (Instr.mul reg1 reg2)
        | _, _ => none
      else if op = "PUSH".data then (reg_index toks.arg1).map Instr.push
      else if op = "POP".data then (reg_index toks.arg1).map Instr.pop
      else some Instr.nop

/-- The state change part of `execute_instruction` on a decoded instruction,
without the final increment of `pc`. -/
def Instr.effect (cpu : CPU) : Instr → Option CPU
  | Instr.load r value => some { cpu with registers := Function.update cpu.registers r value }
  | Instr.add reg1 reg2 =>
    some { cpu with
      registers :=
        Function.update cpu.registers reg1 (wrap_int (cpu.registers reg1 + cpu.registers reg2)) }
  | Instr.sub reg1 reg2 =>
    some { cpu with
      registers :=
        Function.update cpu.registers reg1 (wrap_int (cpu.registers reg1 - cpu.registers reg2)) }
  | Instr.mul reg1 reg2 =>
    some { cpu with
      registers :=
        Function.update cpu.registers reg1 (wrap_int (cpu.registers reg1 * cpu.registers reg2)) }
  | Instr.push r =>
    if 0 ≤ cpu.sp then
      (stack_index cpu.sp).map fun i =>
        { cpu with
          stack := Function.update cpu.stack i (wrap_char (cpu.registers r)),
          sp := wrap_int (cpu.sp - 1) }
    else some cpu
  | Instr.pop r =>
    if cpu.sp < (STACK_SIZE : Int) - 1 then
      (stack_index (wrap_int (cpu.sp + 1))).map fun i =>
        { cpu with
          sp := wrap_int (cpu.sp + 1),
          registers := Function.update cpu.registers r (cpu.stack i) }
    else some cpu
  | Instr.nop => some cpu

/-- Static well-formedness of an instruction text: it has an opcode token, its
first four tokens have at most 9 bytes each, and the operands read by its
opcode are present with register operands of the form `R0`..`R7`
(`LOAD`: a register and an immediate; `ADD`, `SUB`, `MUL`: two registers;
`PUSH`, `POP`: one register; any other opcode: nothing). -/
def well_formed (instruction : String) : Bool := (decode instruction).isSome

/-- A program whose instructions are all well-formed, that has at least one
instruction before its last one, whose last instruction is exactly `HALT`, and
whose indices fit an `int`. -/
def program_ok (program : List String) : Bool :=
  program.all well_formed && decide (2 ≤ program.length) &&
    decide (program.length < 2147483648) &&
    (match program.getLast? with
     | some text => decide (c_str text = "HALT".data)
     | none => false)

/-- The observable part of a CPU state: the eight registers, `pc` and `sp`. -/
def CPU.view (c : CPU) : List Int × Int × Int :=
  ([c.registers 0, c.registers 1, c.registers 2, c.registers 3,
    c.registers 4, c.registers 5, c.registers 6, c.registers 7], c.pc, c.sp)

/-- The observable part of a task: its CPU view and `is_complete`. -/
def Task.view (t : Task) : (List Int × Int × Int) × Bool :=
  (t.cpu_state.view, t.is_complete)

/-- A task with its priority erased. -/
def Task.erase_priority (t : Task) : Task := { t with priority := 0 }

/-- Application of a function to the result of a run. -/
def Run.map {α β : Type} (f : α → β) : Run α → Run β
  | Run.done a => Run.done (f a)
  | Run.fault => Run.fault
  | Run.timeout => Run.timeout

/-- What is observable of a scheduler result when priorities are disregarded. -/
def observe (r : List Task × List (List (Nat × Int))) :
    List Task × List (List (Nat × Int)) :=
  (r.1.map Task.erase_priority, r.2)

/-- The stack pointer of a state lies in `-1 .. STACK_SIZE-1`. -/
def sp_in_range (cpu : CPU) : Prop := -1 ≤ cpu.sp ∧ cpu.sp ≤ 255

/-- Invariant of a task of a well-formed program while it is scheduled: the stack
pointer is in range and, as long as the task is incomplete, `pc` points at an
instruction that is not the last one. -/
def task_ok (t : Task) : Prop :=
  program_ok t.program = true ∧ sp_in_range t.cpu_state ∧
    (t.is_complete = false →
      0 ≤ t.cpu_state.pc ∧ t.cpu_state.pc + 1 < (t.program.length : Int))

/-- Number of instructions an incomplete task still has in front of it. -/
def remaining (t : Task) : Nat :=
  if t.is_complete then 0 else t.program.length - t.cpu_state.pc.toNat

/-- The sum of `remaining` over a registry. -/
def total_remaining (q : List Task) : Nat := (q.map remaining).sum

/-- A task that is incomplete and whose `pc` points at an instruction. -/
def unfinished (t : Task) : Prop :=
  t.is_complete = false ∧ ∃ text, fetch t.program t.cpu_state.pc = some (Fetched.instr text)

/-- The task with the given program as `add_task` admits it into the empty registry. -/
def fresh_task (program : List String) : Task :=
  { id := 0, priority := 0, cpu_state := initialize_cpu, is_complete := false,
    program := program, preempt_flag := false }

/-! ## Concrete registries used as inputs -/

/-- A registry filled to capacity by five admissions. -/
def full_queue : List Task :=
  add_task 5 program1 (add_task 4 program2 (add_task 2 program3 (add_task 1 program2
    (add_task 3 program1 []))))

/-- The task queue of `main` with the priorities 3, 1, 2 replaced by 7, 7, 0. -/
def main_queue_other_priorities : List Task :=
  add_task 0 program3 (add_task 7 program2 (add_task 7 program1 []))

/-- A registry whose first task is already complete and whose second is not. -/
def half_done_queue : List Task :=
  [{ fresh_task program2 with is_complete := true }, { fresh_task program3 with id := 1 }]

/-- The registry of `main` with the second program replaced by the one-instruction
program `HALT`. -/
def halt_only_queue : List Task :=
  add_task 2 program3 (add_task 1 ["HALT"] (add_task 3 program1 []))

/-- The registry of `main` with the second program replaced by a program whose first
instruction names a register outside the register file. -/
def bad_register_queue : List Task :=
  add_task 2 program3 (add_task 1 ["LOAD R9, 1", "HALT"] (add_task 3 program1 []))

/-! ## Instructions of the opcode table as texts -/

/-- The character of a decimal digit. -/
def digit_char (d : Fin 10) : Char := Char.ofNat (48 + d.val)

/-- The text of a decimal integer literal: an optional minus sign followed by
its digits, most significant first. -/
def imm_text (negative : Bool) (digits : List (Fin 10)) : List Char :=
  (if negative then [Char.ofNat 45] else []) ++ digits.map digit_char

/-- The integer denoted by a decimal literal: the positional value of its digits
in base 10, negated under a minus sign. -/
def imm_value (negative : Bool) (digits : List (Fin 10)) : Int :=
  if negative then -((Nat.ofDigits 10 (digits.reverse.map Fin.val) : Nat) : Int)
  else ((Nat.ofDigits 10 (digits.reverse.map Fin.val) : Nat) : Int)

/-- The instruction text `LOAD Rd, imm`. -/
def load_text (d : Fin NUM_REGISTERS) (imm : List Char) : String :=
  ⟨"LOAD".data ++ [Char.ofNat 32] ++ reg_text d ++ [Char.ofNat 44, Char.ofNat 32] ++ imm⟩

/-- The instruction text `OP Rd, Ra, Rb`, the three-operand form written in `main`. -/
def three_operand (op : String) (d a b : Fin NUM_REGISTERS) : String :=
  ⟨op.data ++ [Char.ofNat 32] ++ reg_text d ++ [Char.ofNat 44, Char.ofNat 32] ++ reg_text a ++
    [Char.ofNat 44, Char.ofNat 32] ++ reg_text b⟩

/-- The three arithmetic opcodes. -/
inductive ArithOp where
  | add
  | sub
  | mul
  deriving DecidableEq

/-- The mnemonic of an arithmetic opcode. -/
def ArithOp.name : ArithOp → String
  | ArithOp.add => "ADD"
  | ArithOp.sub => "SUB"
  | ArithOp.mul => "MUL"

/-- The decoded form of an arithmetic instruction on registers `reg1`, `reg2`. -/
def ArithOp.instr (op : ArithOp) (reg1 reg2 : Fin NUM_REGISTERS) : Instr :=
  match op with
  | ArithOp.add => Instr.add reg1 reg2
  | ArithOp.sub => Instr.sub reg1 reg2
  | ArithOp.mul => Instr.mul reg1 reg2

/-- An instruction drawn from the opcode table, with register operands `R0`..`R7`
and a decimal literal as immediate.  Arithmetic instructions come in the
two-operand form of the table and in the three-operand form written in `main`. -/
inductive TableInstr where
  | load (d : Fin NUM_REGISTERS) (negative : Bool) (digits : List (Fin 10))
  | arith (op : ArithOp) (d s : Fin NUM_REGISTERS)
  | arith3 (op : ArithOp) (d a b : Fin NUM_REGISTERS)
  | push (s : Fin NUM_REGISTERS)
  | pop (d : Fin NUM_REGISTERS)
  | halt

/-- The text of a table instruction. -/
def TableInstr.text : TableInstr → String
  | TableInstr.load d negative digits => load_text d (imm_text negative digits)
  | TableInstr.arith op d s => two_operand op.name d s
  | TableInstr.arith3 op d a b => three_operand op.name d a b
  | TableInstr.push s => one_operand "PUSH" s
  | TableInstr.pop d => one_operand "POP" d
  | TableInstr.halt => "HALT"

/-- The immediate of a `LOAD` has at least one digit and at most 9 characters;
the other instructions have no immediate. -/
def TableInstr.imm_fits : TableInstr → Prop
  | TableInstr.load _ negative digits => digits ≠ [] ∧ (imm_text negative digits).length ≤ 9
  | _ => True

/-- The registers that `execute_instruction` accesses for a table instruction:
those named by the first operand and, for arithmetic, the second operand. -/
def TableInstr.accessed : TableInstr → List Nat
  | TableInstr.load d _ _ => [d.val]
  | TableInstr.arith _ d s => [d.val, s.val]
  | TableInstr.arith3 _ d a _ => [d.val, a.val]
  | TableInstr.push s => [s.val]
  | TableInstr.pop d => [d.val]
  | TableInstr.halt => []

/-- The values used as subscripts of `registers` by a decoded instruction. -/
def Instr.indices : Instr → List Nat
  | Instr.load r _ => [r.val]
  | Instr.add reg1 reg2 => [reg1.val, reg2.val]
  | Instr.sub reg1 reg2 => [reg1.val, reg2.val]
  | Instr.mul reg1 reg2 => [reg1.val, reg2.val]
  | Instr.push r => [r.val]
  | Instr.pop r => [r.val]
  | Instr.nop => []

/-- The tokens scanned by the four `%s` conversions of `sscanf4`, before the check
that they fit their buffers. -/
def scan4 (instruction : List Char) : Scanned :=
  let r0 := scan_s instruction
  let r1 := scan_s r0.2
  let r2 := scan_s r1.2
  let r3 := scan_s r2.2
  { op := r0.1, arg1 := r1.1, arg2 := r2.1, arg3 := r3.1 }

/-- The register indices `arg[1] - '0'` that the branch of `execute_instruction`
selected by the opcode computes, in the order of the source: `reg_index` for
`LOAD`, `PUSH`, `POP`; `reg1`, `reg2` for `ADD`, `SUB`, `MUL`; none for `HALT` and
unknown opcodes.  An entry `none` is an index outside `0..7` (or an operand buffer
that was not written). -/
def register_reads (instruction : String) : List (Option (Fin NUM_REGISTERS)) :=
  let toks := scan4 (c_str instruction)
  match toks.op with
  | none => []
  | some op =>
    if op = "LOAD".data then [reg_index toks.arg1]
    else if op = "ADD".data then [reg_index toks.arg1, reg_index toks.arg2]
    else if op = "SUB".data then [reg_index toks.arg1, reg_index toks.arg2]
    else if op = "MUL".data then [reg_index toks.arg1, reg_index toks.arg2]
    else if op = "PUSH".data then [reg_index toks.arg1]
    else if op = "POP".data then [reg_index toks.arg1]
    else []

/-- A character that can stand inside a token of an instruction text: not NUL,
not white space, a single byte. -/
def plain (c : Char) : Prop := c.toNat ≠ 0 ∧ isspace c = false ∧ c.utf8Size = 1

instance plain_decidable : DecidablePred plain := fun c => by
  unfold plain; infer_instance

/-- The opcode mnemonics of the table. -/
def opcode_table : List (List Char) :=
  ["LOAD".data, "ADD".data, "SUB".data, "MUL".data, "PUSH".data, "POP".data, "HALT".data]

/-- The scheduler returned normally. -/
def Run.isDone {α : Type} : Run α → Bool
  | Run.done _ => true
  | _ => false

/-- What the body of the `for` loop of `scheduler` does to one task: a complete
task is skipped; otherwise `preempt_flag` is cleared, `execute_task` runs with
`slice` polls that see the flag clear, and the flag is set before the join. -/
def dispatch (slice : Nat) (task : Task) : Option Task :=
  if task.is_complete then some task
  else
    match execute_task slice { task with preempt_flag := false } with
    | none => none
    | some task1 => some { task1 with preempt_flag := true }

/-- Successive dispatches of one task, one per sweep, with the given slices. -/
def run_slices : List Nat → Task → Option Task
  | [], task => some task
  | slice :: rest, task =>
    match dispatch slice task with
    | none => none
    | some task1 => run_slices rest task1

/-- A task as admitted with an empty program: the program is the sentinel alone,
`pc` is 0 and the task is incomplete. -/
def empty_program_task (t : Task) : Prop :=
  t.program = [] ∧ t.cpu_state.pc = 0 ∧ t.is_complete = false

/-- The registry of `main` after one more admission, of an empty program. -/
def main_queue_with_empty : List Task := add_task 1 [] main_queue

/-- A sequence of calls `add_task(priority, program)`, made in order on a registry. -/
def add_tasks : List (Int × List String) → List Task → List Task
  | [], task_queue => task_queue
  | call :: calls, task_queue => add_tasks calls (add_task call.1 call.2 task_queue)

end CpuSimulator

/-! # `Adder.cpp`

Bit vectors (`vector<bool>`) are lists of booleans, index 0 first.

`serialAdder`, `parallelAdder` and `parallelSubtractor` pass the element `Sum[i]`
(or `Difference[i]`) of a `vector<bool>` to the `bool &` parameter of `fullAdder`.
Such a call is ill-formed C++, so these functions, and `fastAdder` and
`additionSubtractionALU` which call them, have no behaviour; they are not embedded.
The conversions and `carryLookaheadAdder` are well-formed and are embedded here. -/

namespace Adder

/-- The `while (number > 0)` loop of `integerToBinary`: pushes `number % 2` and halves
`number`.  The first argument bounds the number of iterations; `number` iterations
are always enough, since `number` is halved each time. -/
def integerToBinary_loop : Nat → Int → List Bool → List Bool
  | 0, _, binary => binary
  | fuel + 1, number, binary =>
    if number > 0 then
      integerToBinary_loop fuel (number.tdiv 2) (binary ++ [decide (number.tmod 2 ≠ 0)])
    else binary

/-- The function `integerToBinary(int number)`: the bits of `number`, most
significant first after the `reverse`; empty for `number <= 0`. -/
def integerToBinary (number : Int) : List Bool :=
  (integerToBinary_loop number.toNat number []).reverse

/-- The function `binaryToInteger`: `result = (result << 1) + binary[i]` from index 0
on, in `int` arithmetic. -/
def binaryToInteger (binary : List Bool) : Int :=
  binary.foldl (fun result bit => CpuSimulator.wrap_int (result * 2 + (if bit then 1 else 0))) 0

/-- The call `v.resize(size, 0)`: truncate, or append zeros at the end. -/
def resize (v : List Bool) (size : Nat) : List Bool :=
  v.take size ++ List.replicate (size - v.length) false

/-- Step 2 of `carryLookaheadAdder`: the loop
`for (i = 0; i < size; i++) Carry[i + 1] = Generate[i] | (Propagate[i] & Carry[i]);`.
The first argument is the number of iterations left, the second the index `i`. -/
def carry_loop (Generate Propagate : List Bool) : Nat → Nat → List Bool → List Bool
  | 0, _, Carry => Carry
  | n + 1, i, Carry =>
    carry_loop Generate Propagate n (i + 1)
      (Carry.set (i + 1)
        (Generate.getD i false || (Propagate.getD i false && Carry.getD i false)))

/-- Step 3 of `carryLookaheadAdder`: the loop
`for (i = 0; i < size; i++) Sum[i] = Propagate[i] ^ Carry[i];`. -/
def sum_loop (Propagate Carry : List Bool) : Nat → Nat → List Bool → List Bool
  | 0, _, Sum => Sum
  | n + 1, i, Sum =>
    sum_loop Propagate Carry n (i + 1)
      (Sum.set i (xor (Propagate.getD i false) (Carry.getD i false)))

/-- The function `carryLookaheadAdder`.  Step 1 fills `Generate[i]` and
`Propagate[i]` from `paddedA[i]` and `paddedB[i]` alone, index by index. -/
def carryLookaheadAdder (A B : List Bool) : List Bool :=
  let size := max A.length B.length
  let paddedA := resize A size
  let paddedB := resize B size
  let Generate := List.zipWith (fun a b => a && b) paddedA paddedB
  let Propagate := List.zipWith (fun a b => xor a b) paddedA paddedB
  let Carry := carry_loop Generate Propagate size 0 (List.replicate (size + 1) false)
  let Sum := sum_loop Propagate Carry size 0 (List.replicate size false)
  if Carry.getD size false then Carry.getD size false :: Sum else Sum

end Adder

/-! # `BoothsAlgorithm.cpp` -/

namespace BoothsAlgorithm

/-- The loop `for (i = bitWidth - 1; i >= 0; i--) { binary[i] = number % 2; number /= 2; }`;
the first argument is the number of indices still to visit. -/
def fill_bits : Nat → Int → List Bool → List Bool
  | 0, _, binary => binary
  | i + 1, number, binary =>
    fill_bits i (number.tdiv 2) (binary.set i (decide (number.tmod 2 ≠ 0)))

/-- The loop "add 1" of `integerToBinary` and `binaryToInteger`:
`binary[i] = binary[i] ^ carry; carry = binary[i] & carry;` from the last index
down, where the second statement reads the bit just written. -/
def add_one : Nat → List Bool → Bool → List Bool
  | 0, binary, _ => binary
  | i + 1, binary, carry =>
    let bit := xor (binary.getD i false) carry
    add_one i (binary.set i bit) (bit && carry)

/-- The function `integerToBinary(int number, int bitWidth)`. -/
def integerToBinary (number : Int) (bitWidth : Nat) : List Bool :=
  let binary := fill_bits bitWidth (CpuSimulator.wrap_int |number|) (List.replicate bitWidth false)
  if number < 0 then add_one bitWidth (binary.map not) true else binary

/-- The function `binaryToInteger`; `none` for the empty vector, where `binary[0]`
is not defined. -/
def binaryToInteger (binary : List Bool) : Option Int :=
  match binary with
  | [] => none
  | isNegative :: _ =>
    let absBinary := if isNegative then add_one binary.length (binary.map not) true else binary
    let result := absBinary.foldl
      (fun result bit => CpuSimulator.wrap_int (result * 2 + (if bit then 1 else 0))) 0
    some (if isNegative then CpuSimulator.wrap_int (-result) else result)

/-- The loop "A = A - M" of `boothsAlgorithm`, from index `bitWidth - 1` down:
`diff = A[i] ^ (!M[i]) ^ borrow;`
`borrow = (!A[i] & (!M[i])) | (borrow & (!A[i] ^ (!M[i])));` `A[i] = diff;`. -/
def subtract_loop (M : List Bool) : Nat → List Bool → Bool → List Bool
  | 0, A, _ => A
  | i + 1, A, borrow =>
    let a := A.getD i false
    let m := M.getD i false
    let diff := xor (xor a (!m)) borrow
    let borrow1 := ((!a) && (!m)) || (borrow && xor (!a) (!m))
    subtract_loop M i (A.set i diff) borrow1

/-- The loop "A = A + M" of `boothsAlgorithm`, from index `bitWidth - 1` down:
`sum = A[i] ^ M[i] ^ carry;` `carry = (A[i] & M[i]) | (carry & (A[i] ^ M[i]));`
`A[i] = sum;`. -/
def add_loop (M : List Bool) : Nat → List Bool → Bool → List Bool
  | 0, A, _ => A
  | i + 1, A, carry =>
    let a := A.getD i false
    let m := M.getD i false
    let sum := xor (xor a m) carry
    let carry1 := (a && m) || (carry && xor a m)
    add_loop M i (A.set i sum) carry1

/-- The `while (count > 0)` loop of `boothsAlgorithm`; returns `A` and `Q`. -/
def booth_loop (M : List Bool) (bitWidth : Nat) :
    Nat → List Bool → List Bool → Bool → List Bool × List Bool
  | 0, A, Q, _ => (A, Q)
  | count + 1, A, Q, QMinus1 =>
    let q0 := Q.getLastD false
    let A1 :=
      if q0 = true ∧ QMinus1 = false then subtract_loop M bitWidth A false
      else if q0 = false ∧ QMinus1 = true then add_loop M bitWidth A false
      else A
    let Q1 := A1.getLastD false :: Q.dropLast
    let A2 := (A1.getD 0 false :: A1).dropLast
    booth_loop M bitWidth count A2 Q1 q0

/-- The function `boothsAlgorithm`: the vector `A` followed by `Q`. -/
def boothsAlgorithm (multiplicand multiplier : Int) (bitWidth : Nat) : List Bool :=
  let A := List.replicate bitWidth false
  let Q := integerToBinary multiplier bitWidth
  let M := integerToBinary multiplicand bitWidth
  let r := booth_loop M bitWidth bitWidth A Q false
  r.1 ++ r.2

end BoothsAlgorithm

/-! # `NonRestoringDivision.cpp`

Its `integerToBinary` and `binaryToInteger` are the same text as those of
`BoothsAlgorithm.cpp`, and so are the two loops "A - M" and "A + M". -/

namespace NonRestoringDivision

/-- The function `integerToBinary(int number, int bitWidth)`. -/
def integerToBinary (number : Int) (bitWidth : Nat) : List Bool :=
  let binary := BoothsAlgorithm.fill_bits bitWidth (CpuSimulator.wrap_int |number|)
    (List.replicate bitWidth false)
  if number < 0 then BoothsAlgorithm.add_one bitWidth (binary.map not) true else binary

/-- The function `binaryToInteger`; `none` for the empty vector. -/
def binaryToInteger (binary : List Bool) : Option Int :=
  match binary with
  | [] => none
  | isNegative :: _ =>
    let absBinary :=
      if isNegative then BoothsAlgorithm.add_one binary.length (binary.map not) true else binary
    let result := absBinary.foldl
      (fun result bit => CpuSimulator.wrap_int (result * 2 + (if bit then 1 else 0))) 0
    some (if isNegative then CpuSimulator.wrap_int (-result) else result)

/-- The `while (count > 0)` loop of `nonRestoringDivision`; returns `A` and `Q`.
`A.insert(A.begin(), Q.front())` puts the bit in front of `A`, which grows by one
element per iteration; the loops over `i < bitWidth` then work on its first
`bitWidth` elements. -/
def division_loop (M : List Bool) (bitWidth : Nat) :
    Nat → List Bool → List Bool → List Bool × List Bool
  | 0, A, Q => (A, Q)
  | count + 1, A, Q =>
    let A1 := Q.headD false :: A
    let Q1 := Q.tail ++ [false]
    let A2 :=
      if A1.getD 0 false = false then BoothsAlgorithm.subtract_loop M bitWidth A1 false
      else BoothsAlgorithm.add_loop M bitWidth A1 false
    let Q2 := Q1.set (Q1.length - 1) (decide (A2.getD 0 false = false))
    division_loop M bitWidth count A2 Q2

/-- The function `nonRestoringDivision`: the pair (`A`, `Q`), remainder and quotient. -/
def nonRestoringDivision (dividend divisor : Int) (bitWidth : Nat) : List Bool × List Bool :=
  let A := List.replicate bitWidth false
  let Q := integerToBinary dividend bitWidth
  let M := integerToBinary divisor bitWidth
  division_loop M bitWidth bitWidth A Q

end NonRestoringDivision

/-! # `os_simulator.c`: the process table and the round-robin scheduler

`schedule_processes` runs in the thread of `main`; the program creates no other
thread, so the mutex is never contended and `sleep` only lets time pass. -/

namespace OsSimulator

abbrev MAX_PROCESSES : Nat := 5
abbrev TIME_SLICE : Int := 2

/-- The enumeration `ProcessState`. -/
inductive ProcessState where
  | NEW
  | READY
  | RUNNING
  | WAITING
  | TERMINATED
  deriving DecidableEq

/-- The `Process` structure; the `pthread_t` handle is never used and is left out.
`name` holds the characters stored in the `char[50]` buffer. -/
structure Process where
  id : Int
  name : List Char
  state : ProcessState
  priority : Int
  burst_time : Int
  deriving DecidableEq

/-- The function `create_process`.  The table is the list of the first
`process_count` entries of `process_table`.  The result is `none` (a fault) when
`strcpy` writes past the 50 bytes of `name`. -/
def create_process (name : String) (priority burst_time : Int)
    (process_table : List Process) : Option (List Process) :=
  if process_table.length ≥ MAX_PROCESSES then some process_table
  else if CpuSimulator.byte_length (CpuSimulator.c_str name) < 50 then
    some (process_table ++ [{ id := (process_table.length : Int)
                              name := CpuSimulator.c_str name
                              state := ProcessState.NEW
                              priority := priority
                              burst_time := burst_time }])
  else none

/-- A sequence of calls `create_process(name, priority, burst_time)`, in order. -/
def create_processes : List (String × Int × Int) → List Process → Option (List Process)
  | [], process_table => some process_table
  | call :: calls, process_table =>
    match create_process call.1 call.2.1 call.2.2 process_table with
    | none => none
    | some process_table1 => create_processes calls process_table1

/-- The block run for a process that is not `TERMINATED`: the state passes through
`RUNNING`, `TIME_SLICE` is subtracted from the burst time (an `int` subtraction), and
the state becomes `TERMINATED` when the result is `<= 0`, `READY` otherwise. -/
def run_slice (p : Process) : Process :=
  let burst_time := CpuSimulator.wrap_int (p.burst_time - TIME_SLICE)
  { p with
    burst_time := burst_time,
    state := if burst_time ≤ 0 then ProcessState.TERMINATED else ProcessState.READY }

/-- One pass of the `for` loop of `schedule_processes` over the processes from index
`i` on.  Returns the table after the pass and the indices of the processes that were
run, in the order of their "Running Process" lines; the length of that list is
`active_processes`. -/
def sweep : Nat → List Process → List Process × List Nat
  | _, [] => ([], [])
  | i, p :: rest =>
    if p.state ≠ ProcessState.TERMINATED then
      let r := sweep (i + 1) rest
      (run_slice p :: r.1, i :: r.2)
    else
      let r := sweep (i + 1) rest
      (p :: r.1, r.2)

/-- The `while (1)` loop of `schedule_processes`, with `fuel` bounding the number of
sweeps; `none` when the bound is used up before the `break`.  Returns the final
table and, for every sweep made, the list of the indices it ran. -/
def schedule_loop :
    Nat → List Process → List (List Nat) → Option (List Process × List (List Nat))
  | 0, _, _ => none
  | fuel + 1, process_table, trace =>
    let r := sweep 0 process_table
    if r.2.length = 0 then some (r.1, trace ++ [r.2])
    else schedule_loop fuel r.1 (trace ++ [r.2])

/-- The function `schedule_processes`. -/
def schedule_processes (fuel : Nat) (process_table : List Process) :
    Option (List Process × List (List Nat)) :=
  schedule_loop fuel process_table []

/-- Number of slices in which process `i` was run, read off the trace. -/
def slices_run (i : Nat) (trace : List (List Nat)) : Nat :=
  (trace.map (fun log => log.count i)).sum

/-- The three calls of `create_process` made by `main`. -/
def main_calls : List (String × Int × Int) :=
  [("Process1", 3, 6), ("Process2", 2, 4), ("Process3", 1, 5)]

/-- The process table of `main` when `schedule_processes` is called. -/
def main_table : List Process :=
  [{ id := 0, name := "Process1".data, state := ProcessState.NEW, priority := 3,
     burst_time := 6 },
   { id := 1, name := "Process2".data, state := ProcessState.NEW, priority := 2,
     burst_time := 4 },
   { id := 2, name := "Process3".data, state := ProcessState.NEW, priority := 1,
     burst_time := 5 }]

/-- One call of `create_process` with the burst time `INT_MIN`. -/
def min_burst_calls : List (String × Int × Int) := [("Process1", 1, -2147483648)]

/-- The process table after the call of `min_burst_calls`. -/
def min_burst_table : List Process :=
  [{ id := 0, name := "Process1".data, state := ProcessState.NEW, priority := 1,
     burst_time := -2147483648 }]

/-- Number of slices still to be run for a burst time `b` of a process that is not
terminated: the number of subtractions of `TIME_SLICE`, each that of an `int`, until
the burst time is `<= 0`.  Used to measure the progress of the scheduler. -/
def slices_needed (b : Int) : Nat :=
  if 0 < b ∧ b ≤ 2147483647 then ((b + 1) / 2).toNat
  else if CpuSimulator.wrap_int (b - TIME_SLICE) ≤ 0 then 1
  else 1 + ((CpuSimulator.wrap_int (b - TIME_SLICE) + 1) / 2).toNat

/-- Number of slices a process still has in front of it. -/
def remaining (p : Process) : Nat :=
  if p.state = ProcessState.TERMINATED then 0 else slices_needed p.burst_time

end OsSimulator

namespace CpuSimulator

/-! ## Basic facts -/

theorem execute_instruction_eq (cpu : CPU) (text : String) :
    execute_instruction cpu text =
      (decode text).bind fun ins =>
        (ins.effect cpu).map fun c => { c with pc := wrap_int (c.pc + 1) } := by
  unfold execute_instruction decode
  cases h : sscanf4 (c_str text) with
  | none => rfl
  | some toks =>
    cases hop : toks.op with
    | none => simp [hop]
    | some op =>
      simp only [hop, Option.bind_eq_bind, Option.some_bind, Option.pure_def]
      by_cases h1 : op = "LOAD".data
      · simp only [if_pos h1]
        cases reg_index toks.arg1 <;> cases toks.arg2 <;> rfl
      simp only [if_neg h1]
      by_cases h2 : op = "ADD".data
      · simp only [if_pos h2]
        cases reg_index toks.arg1 <;> cases reg_index toks.arg2 <;> rfl
      simp only [if_neg h2]
      by_cases h3 : op = "SUB".data
      · simp only [if_pos h3]
        cases reg_index toks.arg1 <;> cases reg_index toks.arg2 <;> rfl
      simp only [if_neg h3]
      by_cases h4 : op = "MUL".data
      · simp only [if_pos h4]
        cases reg_index toks.arg1 <;> cases reg_index toks.arg2 <;> rfl
      simp only [if_neg h4]
      by_cases h5 : op = "PUSH".data
      · simp only [if_pos h5]
        cases reg_index toks.arg1 with
        | none => rfl
        | some r =>
          simp only [Option.some_bind, Option.map_some', Instr.effect]
          by_cases hs : 0 ≤ cpu.sp
          · simp only [if_pos hs]
            cases stack_index cpu.sp <;> rfl
          · simp only [if_neg hs]; rfl
      simp only [if_neg h5]
      by_cases h6 : op = "POP".data
      · simp only [if_pos h6]
        cases reg_index toks.arg1 with
        | none => rfl
        | some r =>
          simp only [Option.some_bind, Option.map_some', Instr.effect]
          by_cases hs : cpu.sp < (STACK_SIZE : Int) - 1
          · simp only [if_pos hs]
            cases stack_index (wrap_int (cpu.sp + 1)) <;> rfl
          · simp only [if_neg hs]; rfl
      simp only [if_neg h6]
      by_cases h7 : op = "HALT".data
      · simp only [if_pos h7]; rfl
      · simp only [if_neg h7]; rfl

theorem decode_two_operand :
    ∀ d s : Fin NUM_REGISTERS,
      decode (two_operand "ADD" d s) = some (Instr.add d s) ∧
      decode (two_operand "SUB" d s) = some (Instr.sub d s) ∧
      decode (two_operand "MUL" d s) = some (Instr.mul d s) := by
  decide!

theorem decode_one_operand :
    ∀ r : Fin NUM_REGISTERS,
      decode (one_operand "PUSH" r) = some (Instr.push r) ∧
      decode (one_operand "POP" r) = some (Instr.pop r) := by
  decide!

theorem wrap_int_eq (x : Int) (h1 : -2147483648 ≤ x) (h2 : x < 2147483648) : wrap_int x = x := by
  unfold wrap_int; omega

theorem stack_index_eq_some (i : Int) (h1 : 0 ≤ i) (h2 : i < 256) :
    ∃ j, stack_index i = some j := by
  unfold stack_index
  rw [dif_pos ⟨h1, h2⟩]
  exact ⟨_, rfl⟩

theorem stack_index_range (i : Int) (j : Fin STACK_SIZE) (h : stack_index i = some j) :
    0 ≤ i ∧ i < 256 := by
  unfold stack_index at h
  by_cases hi : 0 ≤ i ∧ i < 256
  · exact hi
  · rw [dif_neg hi] at h; cases h

theorem effect_sp_in_range (cpu c : CPU) (ins : Instr) (h : ins.effect cpu = some c)
    (hr : sp_in_range cpu) : sp_in_range c := by
  unfold sp_in_range at *
  cases ins with
  | push r =>
    simp only [Instr.effect] at h
    by_cases hs : 0 ≤ cpu.sp
    · rw [if_pos hs] at h
      cases hj : stack_index cpu.sp with
      | none => rw [hj] at h; cases h
      | some j =>
        rw [hj] at h
        simp only [Option.map_some', Option.some.injEq] at h
        subst h
        show -1 ≤ wrap_int (cpu.sp - 1) ∧ wrap_int (cpu.sp - 1) ≤ 255
        rw [wrap_int_eq _ (by omega) (by omega)]
        omega
    · rw [if_neg hs] at h
      cases h; exact hr
  | pop r =>
    simp only [Instr.effect] at h
    by_cases hs : cpu.sp < (STACK_SIZE : Int) - 1
    · rw [if_pos hs] at h
      cases hj : stack_index (wrap_int (cpu.sp + 1)) with
      | none => rw [hj] at h; cases h
      | some j =>
        rw [hj] at h
        simp only [Option.map_some', Option.some.injEq] at h
        subst h
        show -1 ≤ wrap_int (cpu.sp + 1) ∧ wrap_int (cpu.sp + 1) ≤ 255
        have := stack_index_range _ _ hj
        omega
    · rw [if_neg hs] at h
      cases h; exact hr
  | load r v => simp only [Instr.effect, Option.some.injEq] at h; subst h; exact hr
  | add a b => simp only [Instr.effect, Option.some.injEq] at h; subst h; exact hr
  | sub a b => simp only [Instr.effect, Option.some.injEq] at h; subst h; exact hr
  | mul a b => simp only [Instr.effect, Option.some.injEq] at h; subst h; exact hr
  | nop => simp only [Instr.effect, Option.some.injEq] at h; subst h; exact hr

theorem effect_defined (cpu : CPU) (ins : Instr) (hr : sp_in_range cpu) :
    ∃ c, ins.effect cpu = some c ∧ c.pc = cpu.pc := by
  unfold sp_in_range at hr
  cases ins with
  | push r =>
    simp only [Instr.effect]
    by_cases hs : 0 ≤ cpu.sp
    · rw [if_pos hs]
      obtain ⟨j, hj⟩ := stack_index_eq_some cpu.sp hs (by omega)
      rw [hj]; exact ⟨_, rfl, rfl⟩
    · rw [if_neg hs]; exact ⟨_, rfl, rfl⟩
  | pop r =>
    simp only [Instr.effect]
    by_cases hs : cpu.sp < (STACK_SIZE : Int) - 1
    · rw [if_pos hs]
      have hS : (STACK_SIZE : Int) = 256 := rfl
      have hw : wrap_int (cpu.sp + 1) = cpu.sp + 1 := wrap_int_eq _ (by omega) (by omega)
      obtain ⟨j, hj⟩ := stack_index_eq_some (wrap_int (cpu.sp + 1)) (by omega) (by omega)
      rw [hj]; exact ⟨_, rfl, rfl⟩
    · rw [if_neg hs]; exact ⟨_, rfl, rfl⟩
  | load r v => exact ⟨_, rfl, rfl⟩
  | add a b => exact ⟨_, rfl, rfl⟩
  | sub a b => exact ⟨_, rfl, rfl⟩
  | mul a b => exact ⟨_, rfl, rfl⟩
  | nop => exact ⟨_, rfl, rfl⟩

theorem execute_instruction_sp_in_range (cpu c : CPU) (text : String)
    (h : execute_instruction cpu text = some c) (hr : sp_in_range cpu) : sp_in_range c := by
  rw [execute_instruction_eq] at h
  cases hd : decode text with
  | none => rw [hd] at h; cases h
  | some ins =>
    rw [hd, Option.some_bind] at h
    cases he : ins.effect cpu with
    | none => rw [he] at h; cases h
    | some c0 =>
      rw [he] at h
      simp only [Option.map_some', Option.some.injEq] at h
      subst h
      exact effect_sp_in_range cpu c0 ins he hr

/-- A well-formed instruction executes without fault in every state whose stack
pointer is in range, and advances `pc` by one. -/
theorem execute_instruction_defined (cpu : CPU) (text : String)
    (hw : well_formed text = true) (hr : sp_in_range cpu) :
    ∃ c, execute_instruction cpu text = some c ∧ c.pc = wrap_int (cpu.pc + 1) ∧
      sp_in_range c := by
  unfold well_formed at hw
  obtain ⟨ins, hd⟩ := Option.isSome_iff_exists.mp hw
  obtain ⟨c0, he, hpc⟩ := effect_defined cpu ins hr
  refine ⟨{ c0 with pc := wrap_int (c0.pc + 1) }, ?_, ?_, ?_⟩
  · rw [execute_instruction_eq, hd, Option.some_bind, he]; rfl
  · show wrap_int (c0.pc + 1) = _; rw [hpc]
  · exact effect_sp_in_range cpu c0 ins he hr

theorem run_instructions_sp_in_range (instrs : List String) :
    ∀ (cpu c : CPU), sp_in_range cpu → run_instructions cpu instrs = some c → sp_in_range c := by
  induction instrs with
  | nil =>
    intro cpu c hr h
    simp only [run_instructions, Option.some.injEq] at h
    subst h; exact hr
  | cons text rest ih =>
    intro cpu c hr h
    simp only [run_instructions] at h
    cases he : execute_instruction cpu text with
    | none => rw [he] at h; cases h
    | some c1 =>
      rw [he] at h
      exact ih c1 c (execute_instruction_sp_in_range cpu c1 text he hr) h

/-! ## Facts about one sweep -/

theorem sweep_cons_complete (slice : Nat → Nat) (k i : Nat) (task : Task) (rest : List Task)
    (hc : task.is_complete = true) :
    sweep slice k i (task :: rest) =
      (sweep slice k (i + 1) rest).map fun r => (task :: r.1, r.2) := by
  rw [sweep, if_pos hc]
  cases sweep slice k (i + 1) rest with
  | none => rfl
  | some r => rfl

theorem sweep_cons_incomplete (slice : Nat → Nat) (k i : Nat) (task : Task) (rest : List Task)
    (hc : task.is_complete = false) :
    sweep slice k i (task :: rest) =
      (execute_task (slice k) { task with preempt_flag := false }).bind fun task1 =>
        (sweep slice (k + 1) (i + 1) rest).map fun r =>
          ({ task1 with preempt_flag := true } :: r.1, (i, task.id) :: r.2) := by
  rw [sweep, if_neg (by rw [hc]; exact Bool.false_ne_true)]
  cases execute_task (slice k) { task with preempt_flag := false } with
  | none => rfl
  | some task1 =>
    cases sweep slice (k + 1) (i + 1) rest with
    | none => rfl
    | some r => rfl

/-- Shape of the dispatch log of a sweep that starts at index `i`: every logged
index is at least `i`, the indices are strictly increasing, the logged indices are
exactly those of the incomplete tasks, each with the id of its task, and a task
that was complete is left as it was. -/
theorem sweep_log (slice : Nat → Nat) :
    ∀ (q : List Task) (k i : Nat) (q1 : List Task) (log : List (Nat × Int)),
      sweep slice k i q = some (q1, log) →
        (∀ e ∈ log, i ≤ e.1) ∧
        (log.map Prod.fst).Pairwise (fun a b => a < b) ∧
        (∀ n, n ∈ log.map Prod.fst ↔
          ∃ j t, n = i + j ∧ q.get? j = some t ∧ t.is_complete = false) ∧
        (∀ e ∈ log, ∃ t, q.get? (e.1 - i) = some t ∧ e.2 = t.id) ∧
        (∀ j t, q.get? j = some t → t.is_complete = true → q1.get? j = some t) := by
  intro q
  induction q with
  | nil =>
    intro k i q1 log h
    simp only [sweep, Option.some.injEq, Prod.mk.injEq] at h
    obtain ⟨h1, h2⟩ := h
    subst h1; subst h2
    simp
  | cons task rest ih =>
    intro k i q1 log h
    cases hc : task.is_complete with
    | true =>
      rw [sweep_cons_complete slice k i task rest hc] at h
      cases hr : sweep slice k (i + 1) rest with
      | none => rw [hr] at h; cases h
      | some r =>
        obtain ⟨r1, rlog⟩ := r
        rw [hr] at h
        simp only [Option.map_some', Option.some.injEq, Prod.mk.injEq] at h
        obtain ⟨h1, h2⟩ := h
        subst h1; subst h2
        obtain ⟨a, b, c, d, e⟩ := ih k (i + 1) r1 rlog hr
        refine ⟨fun e he => by have := a e he; omega, b, ?_, ?_, ?_⟩
        · intro n
          rw [c n]
          constructor
          · rintro ⟨j, t, hn, hj, ht⟩
            exact ⟨j + 1, t, by omega, by simpa using hj, ht⟩
          · rintro ⟨j, t, hn, hj, ht⟩
            cases j with
            | zero =>
              simp only [List.get?_cons_zero, Option.some.injEq] at hj
              subst hj; rw [hc] at ht; cases ht
            | succ j => exact ⟨j, t, by omega, by simpa using hj, ht⟩
        · intro x hx
          obtain ⟨t, ht, hid⟩ := d x hx
          have hge := a x hx
          refine ⟨t, ?_, hid⟩
          have : x.1 - i = (x.1 - (i + 1)) + 1 := by omega
          rw [this]; simpa using ht
        · intro j t hj ht
          cases j with
          | zero => simpa using hj
          | succ j =>
            simp only [List.get?_cons_succ] at hj ⊢
            exact e j t hj ht
    | false =>
      rw [sweep_cons_incomplete slice k i task rest hc] at h
      cases hx : execute_task (slice k) { task with preempt_flag := false } with
      | none => rw [hx] at h; cases h
      | some task1 =>
        rw [hx, Option.some_bind] at h
        cases hr : sweep slice (k + 1) (i + 1) rest with
        | none => rw [hr] at h; cases h
        | some r =>
          obtain ⟨r1, rlog⟩ := r
          rw [hr] at h
          simp only [Option.map_some', Option.some.injEq, Prod.mk.injEq] at h
          obtain ⟨h1, h2⟩ := h
          subst h1; subst h2
          obtain ⟨a, b, c, d, e⟩ := ih (k + 1) (i + 1) r1 rlog hr
          refine ⟨?_, ?_, ?_, ?_, ?_⟩
          · intro x hx
            rcases List.mem_cons.mp hx with h0 | h0
            · subst h0; exact Nat.le_refl _
            · have := a x h0; omega
          · simp only [List.map_cons, List.pairwise_cons]
            refine ⟨?_, b⟩
            intro n hn
            obtain ⟨x, hx, hxn⟩ := List.mem_map.mp hn
            have := a x hx
            omega
          · intro n
            simp only [List.map_cons, List.mem_cons]
            rw [c n]
            constructor
            · rintro (hn | ⟨j, t, hn, hj, ht⟩)
              · exact ⟨0, task, by omega, by simp, hc⟩
              · exact ⟨j + 1, t, by omega, by simpa using hj, ht⟩
            · rintro ⟨j, t, hn, hj, ht⟩
              cases j with
              | zero => left; omega
              | succ j => right; exact ⟨j, t, by omega, by simpa using hj, ht⟩
          · intro x hx
            rcases List.mem_cons.mp hx with h0 | h0
            · subst h0; exact ⟨task, by simp, rfl⟩
            · obtain ⟨t, ht, hid⟩ := d x h0
              have hge := a x h0
              refine ⟨t, ?_, hid⟩
              have : x.1 - i = (x.1 - (i + 1)) + 1 := by omega
              rw [this]; simpa using ht
          · intro j t hj ht
            cases j with
            | zero =>
              simp only [List.get?_cons_zero, Option.some.injEq] at hj
              subst hj; rw [hc] at ht; cases ht
            | succ j =>
              simp only [List.get?_cons_succ] at hj ⊢
              exact e j t hj ht

/-! ## The priority field is never read -/

theorem execute_task_priority (p : Int) :
    ∀ (n : Nat) (t : Task),
      execute_task n { t with priority := p } =
        (execute_task n t).map fun t1 => { t1 with priority := p } := by
  intro n
  induction n with
  | zero =>
    intro t
    rcases t with ⟨id, pr, cs, ic, prog, pf⟩
    rw [execute_task, execute_task]
    dsimp only
    cases fetch prog cs.pc with
    | none => rfl
    | some f =>
      cases f with
      | sentinel => rfl
      | instr text => cases pf <;> rfl
  | succ n ih =>
    intro t
    rcases t with ⟨id, pr, cs, ic, prog, pf⟩
    rw [execute_task, execute_task]
    dsimp only
    cases fetch prog cs.pc with
    | none => rfl
    | some f =>
      cases f with
      | sentinel => rfl
      | instr text =>
        cases pf with
        | true => rfl
        | false =>
          dsimp only
          cases execute_instruction cs text with
          | none => rfl
          | some cpu =>
            dsimp only
            cases fetch prog cpu.pc with
            | none => rfl
            | some f1 =>
              cases f1 with
              | sentinel => rfl
              | instr next =>
                dsimp only
                by_cases hh : c_str next = "HALT".data
                · rw [if_pos hh, if_pos hh]; rfl
                · rw [if_neg hh, if_neg hh]
                  exact ih ⟨id, pr, cpu, ic, prog, false⟩

theorem sweep_erase_priority (slice : Nat → Nat) :
    ∀ (q : List Task) (k i : Nat),
      sweep slice k i (q.map Task.erase_priority) =
        (sweep slice k i q).map fun r => (r.1.map Task.erase_priority, r.2) := by
  intro q
  induction q with
  | nil => intro k i; rfl
  | cons task rest ih =>
    intro k i
    rw [List.map_cons]
    cases hc : task.is_complete with
    | true =>
      rw [sweep_cons_complete slice k i task rest hc,
        sweep_cons_complete slice k i task.erase_priority _ hc, ih]
      cases sweep slice k (i + 1) rest with
      | none => rfl
      | some r => rfl
    | false =>
      rw [sweep_cons_incomplete slice k i task rest hc,
        sweep_cons_incomplete slice k i task.erase_priority _ hc, ih]
      have hx := execute_task_priority 0 (slice k) { task with preempt_flag := false }
      have hx1 : execute_task (slice k) { task.erase_priority with preempt_flag := false } =
          (execute_task (slice k) { task with preempt_flag := false }).map
            fun t1 => { t1 with priority := 0 } := hx
      rw [hx1]
      cases execute_task (slice k) { task with preempt_flag := false } with
      | none => rfl
      | some task1 =>
        cases sweep slice (k + 1) (i + 1) rest with
        | none => rfl
        | some r => rfl

theorem scheduler_loop_erase_priority (slice : Nat → Nat) :
    ∀ (fuel k : Nat) (q : List Task) (trace : List (List (Nat × Int))),
      scheduler_loop slice fuel k (q.map Task.erase_priority) trace =
        (scheduler_loop slice fuel k q trace).map observe := by
  intro fuel
  induction fuel with
  | zero => intro k q trace; rfl
  | succ fuel ih =>
    intro k q trace
    rw [scheduler_loop, scheduler_loop, sweep_erase_priority]
    cases sweep slice k 0 q with
    | none => rfl
    | some r =>
      obtain ⟨q1, log⟩ := r
      dsimp only [Option.map_some']
      by_cases hl : log.length = 0
      · rw [if_pos hl, if_pos hl]; rfl
      · rw [if_neg hl, if_neg hl]
        exact ih _ q1 _

/-! ## Progress of a dispatch and termination of the scheduler -/

theorem program_ok_spec (program : List String) (h : program_ok program = true) :
    (∀ text ∈ program, well_formed text = true) ∧ 2 ≤ program.length ∧
      program.length < 2147483648 ∧
      ∃ text, program.getLast? = some text ∧ c_str text = "HALT".data := by
  unfold program_ok at h
  simp only [Bool.and_eq_true, List.all_eq_true, decide_eq_true_eq] at h
  obtain ⟨⟨⟨h1, h2⟩, h3⟩, h4⟩ := h
  refine ⟨h1, h2, h3, ?_⟩
  cases hl : program.getLast? with
  | none => rw [hl] at h4; cases h4
  | some text =>
    rw [hl] at h4
    exact ⟨text, rfl, by simpa using h4⟩

theorem fetch_instr (program : List String) (pc : Int) (h0 : 0 ≤ pc)
    (h1 : pc < (program.length : Int)) :
    ∃ text, program.get? pc.toNat = some text ∧ text ∈ program ∧
      fetch program pc = some (Fetched.instr text) := by
  have hlt : pc.toNat < program.length := by omega
  refine ⟨program.get ⟨pc.toNat, hlt⟩, List.get?_eq_get hlt, List.get_mem _ _ _, ?_⟩
  unfold fetch
  rw [if_neg (by omega), List.get?_eq_get hlt]

theorem last_instruction_eq (program : List String) (j : Nat) (text last : String)
    (hj : program.get? j = some text) (hl : program.getLast? = some last)
    (hlen : j + 1 = program.length) : text = last := by
  rw [List.getLast?_eq_getElem?] at hl
  have : program.length - 1 = j := by omega
  rw [this] at hl
  rw [List.get?_eq_getElem?] at hj
  rw [hj] at hl
  exact Option.some.inj hl

theorem remaining_pos (t : Task) (hok : task_ok t) (hc : t.is_complete = false) :
    remaining t = t.program.length - t.cpu_state.pc.toNat ∧ 2 ≤ remaining t := by
  obtain ⟨_, _, hpc⟩ := hok
  obtain ⟨h0, h1⟩ := hpc hc
  unfold remaining
  rw [hc]
  simp only [Bool.false_eq_true, if_false, true_and]
  omega

/-- A dispatch of an incomplete task of a well-formed program returns; the task
stays within the invariant and, when the slice allows at least one instruction,
strictly fewer instructions remain. -/
theorem execute_task_progress :
    ∀ (n : Nat) (t : Task), task_ok t → t.is_complete = false → t.preempt_flag = false →
      ∃ t1, execute_task n t = some t1 ∧ task_ok t1 ∧
        remaining t1 ≤ remaining t ∧ (0 < n → remaining t1 < remaining t) := by
  intro n
  induction n with
  | zero =>
    intro t hok hc hf
    obtain ⟨hprog, hsp, hpc⟩ := hok
    obtain ⟨h0, h1⟩ := hpc hc
    obtain ⟨text, _, _, hfetch⟩ := fetch_instr t.program t.cpu_state.pc h0 (by omega)
    refine ⟨{ t with preempt_flag := true }, ?_, ⟨hprog, hsp, hpc⟩, Nat.le_refl _, ?_⟩
    · rw [execute_task, hfetch]
      simp only [hf, Bool.false_eq_true, if_false]
    · intro h; omega
  | succ n ih =>
    intro t hok hc hf
    rcases t with ⟨id, pr, cs, ic, prog, pf⟩
    dsimp only at hc hf
    subst hc; subst hf
    have hrem := remaining_pos _ hok rfl
    obtain ⟨hprog, hsp, hpc⟩ := hok
    obtain ⟨h0, h1⟩ := hpc rfl
    dsimp only at hprog hsp h0 h1 hrem
    obtain ⟨hwf, hlen2, hlenmax, last, hlast, hhalt⟩ := program_ok_spec prog hprog
    obtain ⟨text, _, hmem, hfetch⟩ := fetch_instr prog cs.pc h0 (by omega)
    obtain ⟨cpu, hexec, hcpupc, hcpusp⟩ :=
      execute_instruction_defined cs text (hwf text hmem) hsp
    have hpc1 : cpu.pc = cs.pc + 1 := by
      rw [hcpupc]; exact wrap_int_eq _ (by omega) (by omega)
    obtain ⟨next, hnext, _, hfetch1⟩ := fetch_instr prog cpu.pc (by omega) (by omega)
    by_cases hh : c_str next = "HALT".data
    · refine ⟨⟨id, pr, cpu, true, prog, false⟩, ?_, ?_, ?_, ?_⟩
      · rw [execute_task]
        simp only [hfetch, Bool.false_eq_true, if_false, hexec, hfetch1, if_pos hh]
      · exact ⟨hprog, hcpusp, fun h => by cases h⟩
      · unfold remaining; simp
      · intro _
        have : remaining ⟨id, pr, cpu, true, prog, false⟩ = 0 := by
          unfold remaining; simp
        omega
    · have hnotlast : cpu.pc.toNat + 1 ≠ prog.length := by
        intro hl
        exact hh (by rw [last_instruction_eq prog cpu.pc.toNat next last hnext hlast hl]; exact hhalt)
      have hok2 : task_ok ⟨id, pr, cpu, false, prog, false⟩ :=
        ⟨hprog, hcpusp, fun _ => ⟨by show 0 ≤ cpu.pc; omega,
          by show cpu.pc + 1 < (prog.length : Int); omega⟩⟩
      obtain ⟨t1, hrun, hok1, hle, _⟩ := ih ⟨id, pr, cpu, false, prog, false⟩ hok2 rfl rfl
      have hrem2 := remaining_pos ⟨id, pr, cpu, false, prog, false⟩ hok2 rfl
      dsimp only at hrem2
      have hlt : remaining ⟨id, pr, cpu, false, prog, false⟩ <
          remaining ⟨id, pr, cs, false, prog, false⟩ := by
        rw [hrem2.1, hrem.1]
        omega
      refine ⟨t1, ?_, hok1, by omega, fun _ => by omega⟩
      rw [execute_task]
      simp only [hfetch, Bool.false_eq_true, if_false, hexec, hfetch1, if_neg hh]
      exact hrun

theorem remaining_of_complete (t : Task) (hc : t.is_complete = true) : remaining t = 0 := by
  unfold remaining; rw [if_pos hc]

/-- A sweep over tasks of well-formed programs, every slice allowing at least one
instruction, returns; the invariant is kept, every dispatch lowers the total of
remaining instructions, and a sweep that dispatches nothing found every task
complete. -/
theorem sweep_progress (slice : Nat → Nat) (hs : ∀ k, 0 < slice k) :
    ∀ (q : List Task) (k i : Nat), (∀ t ∈ q, task_ok t) →
      ∃ q1 log, sweep slice k i q = some (q1, log) ∧ (∀ t ∈ q1, task_ok t) ∧
        total_remaining q1 + log.length ≤ total_remaining q ∧
        q1.length = q.length ∧
        (log.length = 0 → ∀ t ∈ q1, t.is_complete = true) := by
  intro q
  induction q with
  | nil =>
    intro k i _
    exact ⟨[], [], rfl, fun t ht => absurd ht (List.not_mem_nil t), Nat.le_refl _, rfl,
      fun _ t ht => absurd ht (List.not_mem_nil t)⟩
  | cons task rest ih =>
    intro k i hok
    have hokt : task_ok task := hok task (List.mem_cons_self _ _)
    have hokr : ∀ t ∈ rest, task_ok t := fun t ht => hok t (List.mem_cons_of_mem _ ht)
    cases hc : task.is_complete with
    | true =>
      obtain ⟨r1, rlog, hr, hok1, hle, hlen, hall⟩ := ih k (i + 1) hokr
      refine ⟨task :: r1, rlog, ?_, ?_, ?_, ?_, ?_⟩
      · rw [sweep_cons_complete slice k i task rest hc, hr]; rfl
      · intro t ht
        rcases List.mem_cons.mp ht with h0 | h0
        · rw [h0]; exact hokt
        · exact hok1 t h0
      · unfold total_remaining at *
        simp only [List.map_cons, List.sum_cons]
        omega
      · simp only [List.length_cons, hlen]
      · intro hl t ht
        rcases List.mem_cons.mp ht with h0 | h0
        · rw [h0]; exact hc
        · exact hall hl t h0
    | false =>
      have hok0 : task_ok { task with preempt_flag := false } := hokt
      obtain ⟨t1, hrun, hok1, _, hlt⟩ :=
        execute_task_progress (slice k) { task with preempt_flag := false } hok0 hc rfl
      have hlt1 : remaining t1 < remaining task := by
        have h := hlt (hs k)
        have e : remaining { task with preempt_flag := false } = remaining task := rfl
        omega
      obtain ⟨r1, rlog, hr, hokr1, hle, hlen, _⟩ := ih (k + 1) (i + 1) hokr
      refine ⟨{ t1 with preempt_flag := true } :: r1, (i, task.id) :: rlog, ?_, ?_, ?_, ?_, ?_⟩
      · rw [sweep_cons_incomplete slice k i task rest hc, hrun, Option.some_bind, hr]; rfl
      · intro t ht
        rcases List.mem_cons.mp ht with h0 | h0
        · rw [h0]; exact hok1
        · exact hokr1 t h0
      · have e : remaining { t1 with preempt_flag := true } = remaining t1 := rfl
        unfold total_remaining at *
        simp only [List.map_cons, List.sum_cons, List.length_cons, e]
        omega
      · simp only [List.length_cons, hlen]
      · intro hl
        simp only [List.length_cons] at hl
        omega

/-- The scheduler loop terminates on tasks of well-formed programs when every
slice allows at least one instruction, with every task complete. -/
theorem scheduler_loop_terminates (slice : Nat → Nat) (hs : ∀ k, 0 < slice k) :
    ∀ (n : Nat) (q : List Task) (k : Nat) (trace : List (List (Nat × Int))),
      total_remaining q ≤ n → (∀ t ∈ q, task_ok t) →
        ∃ fuel q1 tr, scheduler_loop slice fuel k q trace = Run.done (q1, tr) ∧
          q1.length = q.length ∧ ∀ t ∈ q1, t.is_complete = true := by
  intro n
  induction n with
  | zero =>
    intro q k trace hn hok
    obtain ⟨q1, log, hsw, _, hle, hlen, hall⟩ := sweep_progress slice hs q k 0 hok
    have hl : log.length = 0 := by omega
    refine ⟨1, q1, trace ++ [log], ?_, hlen, hall hl⟩
    rw [scheduler_loop, hsw]
    simp only [hl, if_true]
  | succ n ih =>
    intro q k trace hn hok
    obtain ⟨q1, log, hsw, hok1, hle, hlen, hall⟩ := sweep_progress slice hs q k 0 hok
    by_cases hl : log.length = 0
    · refine ⟨1, q1, trace ++ [log], ?_, hlen, hall hl⟩
      rw [scheduler_loop, hsw]
      simp only [hl, if_true]
    · obtain ⟨fuel, q2, tr, hrun, hlen2, hall2⟩ :=
        ih q1 (k + log.length) (trace ++ [log]) (by omega) hok1
      refine ⟨fuel + 1, q2, tr, ?_, by omega, hall2⟩
      rw [scheduler_loop, hsw]
      simp only [hl, if_false]
      exact hrun

theorem task_ok_fresh (id priority : Int) (program : List String)
    (h : program_ok program = true) :
    task_ok { id := id, priority := priority, cpu_state := initialize_cpu, is_complete := false,
              program := program, preempt_flag := false } := by
  obtain ⟨_, hlen2, _, _⟩ := program_ok_spec program h
  refine ⟨h, ?_, fun _ => ⟨?_, ?_⟩⟩
  · show -1 ≤ initialize_cpu.sp ∧ initialize_cpu.sp ≤ 255
    exact ⟨by decide, by decide⟩
  · exact Int.le_refl 0
  · show (0 : Int) + 1 < (program.length : Int)
    omega

/-- Three admissions into the empty registry of well-formed programs terminate. -/
theorem three_tasks_terminate (p1 p2 p3 : Int) (prog1 prog2 prog3 : List String)
    (slice : Nat → Nat) (h1 : program_ok prog1 = true) (h2 : program_ok prog2 = true)
    (h3 : program_ok prog3 = true) (hs : ∀ k, 0 < slice k) :
    ∃ fuel tasks trace,
      scheduler slice fuel (add_task p3 prog3 (add_task p2 prog2 (add_task p1 prog1 []))) =
        Run.done (tasks, trace) ∧
      tasks.length = 3 ∧ ∀ t ∈ tasks, t.is_complete = true := by
  have hq : ∀ t ∈ add_task p3 prog3 (add_task p2 prog2 (add_task p1 prog1 [])), task_ok t := by
    intro t ht
    have hq3 : add_task p3 prog3 (add_task p2 prog2 (add_task p1 prog1 [])) =
        [{ id := 0, priority := p1, cpu_state := initialize_cpu, is_complete := false,
           program := prog1, preempt_flag := false },
         { id := 1, priority := p2, cpu_state := initialize_cpu, is_complete := false,
           program := prog2, preempt_flag := false },
         { id := 2, priority := p3, cpu_state := initialize_cpu, is_complete := false,
           program := prog3, preempt_flag := false }] := rfl
    rw [hq3] at ht
    simp only [List.mem_cons, List.mem_singleton, List.not_mem_nil, or_false] at ht
    rcases ht with h | h | h
    · rw [h]; exact task_ok_fresh _ _ _ h1
    · rw [h]; exact task_ok_fresh _ _ _ h2
    · rw [h]; exact task_ok_fresh _ _ _ h3
  obtain ⟨fuel, q1, tr, hrun, hlen, hall⟩ :=
    scheduler_loop_terminates slice hs _ _ 0 [] (Nat.le_refl _) hq
  exact ⟨fuel, q1, tr, hrun, by rw [hlen]; rfl, hall⟩

/-! ## Runs that do not terminate normally -/

theorem scheduler_fault_of_sweep_none (slice : Nat → Nat) (q : List Task)
    (h : sweep slice 0 0 q = none) : ¬ ∃ fuel r, scheduler slice fuel q = Run.done r := by
  rintro ⟨fuel, r, hr⟩
  unfold scheduler at hr
  cases fuel with
  | zero => simp only [scheduler_loop] at hr; cases hr
  | succ fuel =>
    rw [scheduler_loop, h] at hr
    cases hr

theorem execute_task_zero (t : Task) (hu : unfinished t) (hf : t.preempt_flag = false) :
    execute_task 0 t = some { t with preempt_flag := true } := by
  obtain ⟨_, text, hfetch⟩ := hu
  rw [execute_task, hfetch]
  simp only [hf, Bool.false_eq_true, if_false]

/-- With slices that allow no instruction, a sweep dispatches every unfinished task
and leaves it unfinished. -/
theorem sweep_zero (slice : Nat → Nat) (hs : ∀ k, slice k = 0) :
    ∀ (q : List Task) (k i : Nat), (∀ t ∈ q, unfinished t) →
      ∃ q1 log, sweep slice k i q = some (q1, log) ∧ (∀ t ∈ q1, unfinished t) ∧
        log.length = q.length ∧ q1.length = q.length := by
  intro q
  induction q with
  | nil =>
    intro k i _
    exact ⟨[], [], rfl, fun t ht => absurd ht (List.not_mem_nil t), rfl, rfl⟩
  | cons task rest ih =>
    intro k i hu
    have hut : unfinished task := hu task (List.mem_cons_self _ _)
    obtain ⟨r1, rlog, hr, hur, hl1, hl2⟩ :=
      ih (k + 1) (i + 1) fun t ht => hu t (List.mem_cons_of_mem _ ht)
    have hu0 : unfinished { task with preempt_flag := false } := hut
    refine ⟨{ task with preempt_flag := true } :: r1, (i, task.id) :: rlog, ?_, ?_, ?_, ?_⟩
    · rw [sweep_cons_incomplete slice k i task rest hut.1, hs k,
        execute_task_zero _ hu0 rfl, Option.some_bind, hr]
      rfl
    · intro t ht
      rcases List.mem_cons.mp ht with h0 | h0
      · rw [h0]; exact hut
      · exact hur t h0
    · simp only [List.length_cons, hl1]
    · simp only [List.length_cons, hl2]

theorem scheduler_loop_zero (slice : Nat → Nat) (hs : ∀ k, slice k = 0) :
    ∀ (fuel : Nat) (q : List Task) (k : Nat) (trace : List (List (Nat × Int))),
      q ≠ [] → (∀ t ∈ q, unfinished t) → scheduler_loop slice fuel k q trace = Run.timeout := by
  intro fuel
  induction fuel with
  | zero => intro q k trace _ _; rfl
  | succ fuel ih =>
    intro q k trace hne hu
    obtain ⟨q1, log, hsw, hu1, hl1, hl2⟩ := sweep_zero slice hs q k 0 hu
    have hpos : 0 < q.length := List.length_pos.mpr hne
    have hne1 : q1 ≠ [] := List.length_pos.mp (by omega)
    rw [scheduler_loop, hsw]
    simp only
    rw [if_neg (by omega)]
    exact ih q1 _ _ hne1 hu1

/-! ## Scanning of tokens -/

theorem scan_s_nil : scan_s [] = (none, []) := rfl

theorem scan_s_space (sp : Char) (l : List Char) (h : isspace sp = true) :
    scan_s (sp :: l) = scan_s l := by
  unfold scan_s
  simp only [List.dropWhile_cons_of_pos h]

theorem scan_s_token_cons (w rest : List Char) (sp : Char) (hw : w ≠ [])
    (hns : ∀ c ∈ w, isspace c = false) (hsp : isspace sp = true) :
    scan_s (w ++ sp :: rest) = (some w, sp :: rest) := by
  obtain ⟨c, w1, rfl⟩ := List.exists_cons_of_ne_nil hw
  have hc : ¬ isspace c = true := by rw [hns c (List.mem_cons_self _ _)]; exact Bool.false_ne_true
  have hall : ∀ a ∈ c :: w1, (fun c => !isspace c) a = true := by
    intro a ha; simp only [hns a ha, Bool.not_false]
  have hsp1 : ¬ (fun c => !isspace c) sp = true := by simp only [hsp, Bool.not_true]; exact Bool.false_ne_true
  unfold scan_s
  simp only [List.cons_append, List.dropWhile_cons_of_neg hc]
  rw [← List.cons_append, List.takeWhile_append_of_pos hall, List.dropWhile_append_of_pos hall,
    @List.takeWhile_cons_of_neg Char (fun c => !isspace c) sp rest hsp1,
    @List.dropWhile_cons_of_neg Char (fun c => !isspace c) sp rest hsp1]
  simp

theorem scan_s_token_end (w : List Char) (hw : w ≠ [])
    (hns : ∀ c ∈ w, isspace c = false) : scan_s w = (some w, []) := by
  obtain ⟨c, w1, rfl⟩ := List.exists_cons_of_ne_nil hw
  have hc : ¬ isspace c = true := by rw [hns c (List.mem_cons_self _ _)]; exact Bool.false_ne_true
  have hall : ∀ a ∈ c :: w1, (fun c => !isspace c) a = true := by
    intro a ha; simp only [hns a ha, Bool.not_false]
  unfold scan_s
  simp only [List.dropWhile_cons_of_neg hc]
  rw [List.takeWhile_eq_self_iff.mpr hall, List.dropWhile_eq_nil_iff.mpr hall]
  simp

theorem byte_length_plain (w : List Char) (h : ∀ c ∈ w, plain c) : byte_length w = w.length := by
  unfold byte_length
  induction w with
  | nil => rfl
  | cons c w ih =>
    simp only [List.map_cons, List.sum_cons, List.length_cons]
    rw [ih fun a ha => h a (List.mem_cons_of_mem _ ha), (h c (List.mem_cons_self _ _)).2.2]
    omega

theorem c_str_plain (w : List Char) (h : ∀ c ∈ w, c.toNat ≠ 0) : c_str ⟨w⟩ = w := by
  unfold c_str
  apply List.takeWhile_eq_self_iff.mpr
  intro c hc
  simpa using h c hc

/-- Three tokens separated by single blanks are scanned into `op`, `arg1`, `arg2`;
`arg3` is not written. -/
theorem sscanf4_three (t0 t1 t2 : List Char) (h0 : t0 ≠ []) (h1 : t1 ≠ []) (h2 : t2 ≠ [])
    (p0 : ∀ c ∈ t0, isspace c = false) (p1 : ∀ c ∈ t1, isspace c = false)
    (p2 : ∀ c ∈ t2, isspace c = false)
    (f0 : byte_length t0 < 10) (f1 : byte_length t1 < 10) (f2 : byte_length t2 < 10) :
    sscanf4 (t0 ++ Char.ofNat 32 :: (t1 ++ Char.ofNat 32 :: t2)) =
      some { op := some t0, arg1 := some t1, arg2 := some t2, arg3 := none } := by
  have hsp : isspace (Char.ofNat 32) = true := by decide
  unfold sscanf4
  simp only [scan_s_token_cons t0 _ _ h0 p0 hsp, scan_s_space _ _ hsp,
    scan_s_token_cons t1 _ _ h1 p1 hsp, scan_s_token_end t2 h2 p2, scan_s_nil, fits,
    f0, f1, f2, decide_True, Bool.and_self, if_true]

/-! ## Decimal literals -/

theorem digit_char_spec :
    ∀ d : Fin 10, (digit_char d).toNat = 48 + d.val ∧ plain (digit_char d) := by
  unfold plain
  decide!

theorem minus_plain : plain (Char.ofNat 45) := by
  unfold plain
  decide!

theorem imm_text_plain (negative : Bool) (digits : List (Fin 10)) :
    ∀ c ∈ imm_text negative digits, plain c := by
  intro c hc
  unfold imm_text at hc
  rcases List.mem_append.mp hc with h | h
  · cases negative with
    | false => simp at h
    | true =>
      simp only [if_true, List.mem_singleton] at h
      rw [h]; exact minus_plain
  · obtain ⟨d, _, rfl⟩ := List.mem_map.mp h
    exact (digit_char_spec d).2

theorem atoi_digits_value (digits : List (Fin 10)) :
    ∀ acc : Int, atoi_digits (digits.map digit_char) acc =
      acc * 10 ^ digits.length + ((Nat.ofDigits 10 (digits.reverse.map Fin.val) : Nat) : Int) := by
  induction digits with
  | nil => intro acc; simp [atoi_digits]
  | cons d ds ih =>
    intro acc
    have hd := (digit_char_spec d).1
    have hlt : d.val < 10 := d.isLt
    simp only [List.map_cons, atoi_digits]
    rw [if_pos (by rw [hd]; omega), ih, hd]
    simp only [List.reverse_cons, List.map_append, List.map_cons, List.map_nil,
      Nat.ofDigits_append, Nat.ofDigits_singleton, List.length_map, List.length_reverse,
      List.length_cons]
    push_cast
    ring

/-- The value `atoi` computes for the text of a decimal literal is the integer the
literal denotes. -/
theorem atoi_imm_text (negative : Bool) (digits : List (Fin 10)) (hne : digits ≠ []) :
    atoi (imm_text negative digits) = imm_value negative digits := by
  unfold imm_text imm_value
  cases negative with
  | true =>
    have h45 : (Char.ofNat 45).toNat = 45 := by decide
    simp only [if_true, List.singleton_append, atoi, h45]
    rw [atoi_digits_value]
    simp
  | false =>
    obtain ⟨d, ds, rfl⟩ := List.exists_cons_of_ne_nil hne
    have hd := (digit_char_spec d).1
    have hlt : d.val < 10 := d.isLt
    simp only [Bool.false_eq_true, if_false, List.nil_append, List.map_cons, atoi]
    rw [if_neg (by rw [hd]; omega), if_neg (by rw [hd]; omega)]
    have := atoi_digits_value (d :: ds) 0
    simp only [List.map_cons] at this
    rw [this]
    simp

/-! ## Decoding of the instructions of the opcode table -/

theorem reg_operand_spec :
    ∀ r : Fin NUM_REGISTERS,
      reg_index (some (reg_text r)) = some r ∧
      reg_index (some (reg_text r ++ [Char.ofNat 44])) = some r ∧
      (∀ c ∈ reg_text r ++ [Char.ofNat 44], plain c) := by
  decide!

theorem load_plain : ∀ c ∈ "LOAD".data, plain c := by
  decide!

theorem decode_load (d : Fin NUM_REGISTERS) (imm : List Char) (hne : imm ≠ [])
    (hp : ∀ c ∈ imm, plain c) (hlen : imm.length ≤ 9) :
    decode (load_text d imm) = some (Instr.load d (atoi imm)) := by
  obtain ⟨_, hreg, hregp⟩ := reg_operand_spec d
  have hshape : "LOAD".data ++ [Char.ofNat 32] ++ reg_text d ++ [Char.ofNat 44, Char.ofNat 32] ++ imm
      = "LOAD".data ++ Char.ofNat 32 :: ((reg_text d ++ [Char.ofNat 44]) ++ Char.ofNat 32 :: imm) := by
    simp [List.append_assoc]
  have h32 : (Char.ofNat 32).toNat ≠ 0 := by decide
  have hnz : ∀ c ∈ "LOAD".data ++ Char.ofNat 32 ::
      ((reg_text d ++ [Char.ofNat 44]) ++ Char.ofNat 32 :: imm), c.toNat ≠ 0 := by
    intro c hc
    rcases List.mem_append.mp hc with h | h
    · exact (load_plain c h).1
    · rcases List.mem_cons.mp h with h | h
      · rw [h]; exact h32
      · rcases List.mem_append.mp h with h | h
        · exact (hregp c h).1
        · rcases List.mem_cons.mp h with h | h
          · rw [h]; exact h32
          · exact (hp c h).1
  have hscan := sscanf4_three "LOAD".data (reg_text d ++ [Char.ofNat 44]) imm (by decide)
    (by simp) hne (fun c hc => (load_plain c hc).2.1) (fun c hc => (hregp c hc).2.1)
    (fun c hc => (hp c hc).2.1) (by decide)
    (by rw [byte_length_plain _ hregp]; simp [reg_text])
    (by rw [byte_length_plain _ hp]; omega)
  unfold decode load_text
  rw [hshape, c_str_plain _ hnz, hscan]
  simp only [if_true, hreg]

theorem decode_three_operand :
    ∀ d a b : Fin NUM_REGISTERS,
      decode (three_operand "ADD" d a b) = some (Instr.add d a) ∧
      decode (three_operand "SUB" d a b) = some (Instr.sub d a) ∧
      decode (three_operand "MUL" d a b) = some (Instr.mul d a) := by
  decide!

theorem decode_halt : decode "HALT" = some Instr.nop := by
  decide!

theorem imm_text_ne_nil (negative : Bool) (digits : List (Fin 10)) (hne : digits ≠ []) :
    imm_text negative digits ≠ [] := by
  unfold imm_text
  intro h
  have := (List.append_eq_nil.mp h).2
  exact hne (List.map_eq_nil_iff.mp this)

theorem imm_value_range (negative : Bool) (digits : List (Fin 10))
    (hlen : (imm_text negative digits).length ≤ 9) :
    -2147483648 < imm_value negative digits ∧ imm_value negative digits < 2147483648 := by
  have hl : digits.length ≤ 9 := by
    unfold imm_text at hlen
    simp only [List.length_append, List.length_map] at hlen
    omega
  have hlt : Nat.ofDigits 10 (digits.reverse.map Fin.val) < 10 ^ 9 := by
    have h1 := @Nat.ofDigits_lt_base_pow_length 10 (digits.reverse.map Fin.val) (by decide)
      (by
        intro x hx
        obtain ⟨d, _, rfl⟩ := List.mem_map.mp hx
        exact d.isLt)
    have h2 : 10 ^ (digits.reverse.map Fin.val).length ≤ 10 ^ 9 :=
      Nat.pow_le_pow_right (by decide) (by simpa using hl)
    omega
  unfold imm_value
  cases negative <;> simp only [Bool.false_eq_true, if_false, if_true] <;> omega

/-- Every instruction of the opcode table decodes, to the instruction on the
registers it names. -/
theorem decode_table (i : TableInstr) (h : i.imm_fits) :
    ∃ ins, decode i.text = some ins ∧ ins.indices = i.accessed := by
  cases i with
  | load d negative digits =>
    obtain ⟨hne, hlen⟩ := h
    exact ⟨_, decode_load d _ (imm_text_ne_nil negative digits hne)
      (imm_text_plain negative digits) hlen, rfl⟩
  | arith op d s =>
    obtain ⟨ha, hs, hm⟩ := decode_two_operand d s
    cases op
    · exact ⟨_, ha, rfl⟩
    · exact ⟨_, hs, rfl⟩
    · exact ⟨_, hm, rfl⟩
  | arith3 op d a b =>
    obtain ⟨ha, hs, hm⟩ := decode_three_operand d a b
    cases op
    · exact ⟨_, ha, rfl⟩
    · exact ⟨_, hs, rfl⟩
    · exact ⟨_, hm, rfl⟩
  | push s => exact ⟨_, (decode_one_operand s).1, rfl⟩
  | pop d => exact ⟨_, (decode_one_operand d).2, rfl⟩
  | halt => exact ⟨_, decode_halt, rfl⟩

theorem accessed_lt (i : TableInstr) : ∀ n ∈ i.accessed, n < NUM_REGISTERS := by
  intro n hn
  cases i <;> simp only [TableInstr.accessed, List.mem_cons, List.mem_singleton,
    List.not_mem_nil, or_false] at hn
  all_goals first
    | (rcases hn with h | h <;> rw [h] <;> exact Fin.isLt _)
    | (rw [hn]; exact Fin.isLt _)

/-! ## Effect of one instruction on `pc` and of an unknown opcode -/

theorem wrap_int_succ (pc : Int) (h1 : -2147483648 ≤ pc) (h2 : pc < 2147483647) :
    wrap_int (pc + 1) = pc + 1 :=
  wrap_int_eq _ (by omega) (by omega)

/-- A call of `execute_instruction` that returns has incremented `pc`. -/
theorem execute_instruction_pc (cpu c : CPU) (text : String)
    (h : execute_instruction cpu text = some c) : c.pc = wrap_int (cpu.pc + 1) := by
  rw [execute_instruction_eq] at h
  cases hd : decode text with
  | none => rw [hd] at h; cases h
  | some ins =>
    rw [hd, Option.some_bind] at h
    cases he : ins.effect cpu with
    | none => rw [he] at h; cases h
    | some c0 =>
      rw [he] at h
      simp only [Option.map_some', Option.some.injEq] at h
      subst h
      have hpc : c0.pc = cpu.pc := by
        cases ins with
        | push r =>
          simp only [Instr.effect] at he
          by_cases hs : 0 ≤ cpu.sp
          · rw [if_pos hs] at he
            cases hj : stack_index cpu.sp with
            | none => rw [hj] at he; cases he
            | some j =>
              rw [hj] at he
              simp only [Option.map_some', Option.some.injEq] at he
              subst he; rfl
          · rw [if_neg hs] at he; cases he; rfl
        | pop r =>
          simp only [Instr.effect] at he
          by_cases hs : cpu.sp < (STACK_SIZE : Int) - 1
          · rw [if_pos hs] at he
            cases hj : stack_index (wrap_int (cpu.sp + 1)) with
            | none => rw [hj] at he; cases he
            | some j =>
              rw [hj] at he
              simp only [Option.map_some', Option.some.injEq] at he
              subst he; rfl
          · rw [if_neg hs] at he; cases he; rfl
        | load r v => simp only [Instr.effect, Option.some.injEq] at he; subst he; rfl
        | add a b => simp only [Instr.effect, Option.some.injEq] at he; subst he; rfl
        | sub a b => simp only [Instr.effect, Option.some.injEq] at he; subst he; rfl
        | mul a b => simp only [Instr.effect, Option.some.injEq] at he; subst he; rfl
        | nop => simp only [Instr.effect, Option.some.injEq] at he; subst he; rfl
      show wrap_int (c0.pc + 1) = _
      rw [hpc]

/-- A text whose scan succeeds with an opcode token outside the opcode table
decodes to `nop`. -/
theorem decode_unknown (text : String) (toks : Scanned) (op : List Char)
    (hs : sscanf4 (c_str text) = some toks) (ho : toks.op = some op)
    (hn : op ∉ opcode_table) : decode text = some Instr.nop := by
  have hmem : ∀ x ∈ opcode_table, op ≠ x := fun x hx h => hn (h ▸ hx)
  unfold opcode_table at hmem
  unfold decode
  rw [hs]
  simp only [ho]
  rw [if_neg (hmem _ (by simp)), if_neg (hmem _ (by simp)), if_neg (hmem _ (by simp)),
    if_neg (hmem _ (by simp)), if_neg (hmem _ (by simp)), if_neg (hmem _ (by simp))]

/-! ## Dispatches consist of whole instructions; completion is never reset -/

theorem fetch_instr_mem (program : List String) (pc : Int) (text : String)
    (h : fetch program pc = some (Fetched.instr text)) : text ∈ program := by
  unfold fetch at h
  by_cases hpc : pc < 0
  · rw [if_pos hpc] at h; cases h
  · rw [if_neg hpc] at h
    cases hg : program.get? pc.toNat with
    | none =>
      rw [hg] at h
      dsimp only at h
      by_cases hl : pc.toNat = program.length
      · rw [if_pos hl] at h; cases h
      · rw [if_neg hl] at h; cases h
    | some x =>
      rw [hg] at h
      simp only [Option.some.injEq, Fetched.instr.injEq] at h
      subst h
      exact List.get?_mem hg

/-- The CPU state after a dispatch is the state reached by a whole number of calls
of `execute_instruction`, at most `slice` of them, on instructions of the program;
a task that was complete stays complete, and the program, id and priority are kept. -/
theorem execute_task_whole_instructions :
    ∀ (n : Nat) (t t1 : Task), execute_task n t = some t1 →
      (∃ texts : List String, texts.length ≤ n ∧ (∀ x ∈ texts, x ∈ t.program) ∧
        run_instructions t.cpu_state texts = some t1.cpu_state) ∧
      (t.is_complete = true → t1.is_complete = true) ∧
      t1.program = t.program ∧ t1.id = t.id ∧ t1.priority = t.priority := by
  intro n
  induction n with
  | zero =>
    intro t t1 h
    rcases t with ⟨id, pr, cs, ic, prog, pf⟩
    rw [execute_task] at h
    dsimp only at h
    cases hf : fetch prog cs.pc with
    | none => rw [hf] at h; cases h
    | some f =>
      rw [hf] at h
      cases f with
      | sentinel =>
        simp only [Option.some.injEq] at h
        subst h
        exact ⟨⟨[], Nat.le_refl _, fun x hx => absurd hx (List.not_mem_nil x), rfl⟩,
          fun hc => hc, rfl, rfl, rfl⟩
      | instr text =>
        cases pf with
        | true =>
          simp only [if_true, Option.some.injEq] at h
          subst h
          exact ⟨⟨[], Nat.le_refl _, fun x hx => absurd hx (List.not_mem_nil x), rfl⟩,
            fun hc => hc, rfl, rfl, rfl⟩
        | false =>
          simp only [Bool.false_eq_true, if_false, Option.some.injEq] at h
          subst h
          exact ⟨⟨[], Nat.le_refl _, fun x hx => absurd hx (List.not_mem_nil x), rfl⟩,
            fun hc => hc, rfl, rfl, rfl⟩
  | succ n ih =>
    intro t t1 h
    rcases t with ⟨id, pr, cs, ic, prog, pf⟩
    rw [execute_task] at h
    dsimp only at h
    cases hf : fetch prog cs.pc with
    | none => rw [hf] at h; cases h
    | some f =>
      rw [hf] at h
      cases f with
      | sentinel =>
        simp only [Option.some.injEq] at h
        subst h
        exact ⟨⟨[], Nat.zero_le _, fun x hx => absurd hx (List.not_mem_nil x), rfl⟩,
          fun hc => hc, rfl, rfl, rfl⟩
      | instr text =>
        have hmem := fetch_instr_mem prog cs.pc text hf
        cases pf with
        | true =>
          simp only [if_true, Option.some.injEq] at h
          subst h
          exact ⟨⟨[], Nat.zero_le _, fun x hx => absurd hx (List.not_mem_nil x), rfl⟩,
            fun hc => hc, rfl, rfl, rfl⟩
        | false =>
          simp only [Bool.false_eq_true, if_false] at h
          cases hx : execute_instruction cs text with
          | none => rw [hx] at h; cases h
          | some cpu =>
            rw [hx] at h
            dsimp only at h
            cases hf1 : fetch prog cpu.pc with
            | none => rw [hf1] at h; cases h
            | some f1 =>
              rw [hf1] at h
              cases f1 with
              | sentinel => cases h
              | instr next =>
                dsimp only at h
                by_cases hh : c_str next = "HALT".data
                · rw [if_pos hh] at h
                  simp only [Option.some.injEq] at h
                  subst h
                  refine ⟨⟨[text], by simp, ?_, ?_⟩, fun _ => rfl, rfl, rfl, rfl⟩
                  · intro x hxm
                    rw [List.mem_singleton.mp hxm]; exact hmem
                  · simp only [run_instructions, hx]
                · rw [if_neg hh] at h
                  obtain ⟨⟨texts, hlen, hall, hrun⟩, hmono, hprog, hid, hpr⟩ :=
                    ih ⟨id, pr, cpu, ic, prog, false⟩ t1 h
                  refine ⟨⟨text :: texts, by simp only [List.length_cons]; omega, ?_, ?_⟩,
                    hmono, hprog, hid, hpr⟩
                  · intro x hxm
                    rcases List.mem_cons.mp hxm with h0 | h0
                    · rw [h0]; exact hmem
                    · exact hall x h0
                  · simp only [run_instructions, hx]
                    exact hrun

/-! ## Sweeps that dispatch nothing and the return of the scheduler -/

theorem sweep_length (slice : Nat → Nat) :
    ∀ (q : List Task) (k i : Nat) (q1 : List Task) (log : List (Nat × Int)),
      sweep slice k i q = some (q1, log) → q1.length = q.length := by
  intro q
  induction q with
  | nil =>
    intro k i q1 log h
    simp only [sweep, Option.some.injEq, Prod.mk.injEq] at h
    rw [← h.1]
  | cons task rest ih =>
    intro k i q1 log h
    cases hc : task.is_complete with
    | true =>
      rw [sweep_cons_complete slice k i task rest hc] at h
      cases hr : sweep slice k (i + 1) rest with
      | none => rw [hr] at h; cases h
      | some r =>
        obtain ⟨r1, rlog⟩ := r
        rw [hr] at h
        simp only [Option.map_some', Option.some.injEq, Prod.mk.injEq] at h
        rw [← h.1, List.length_cons, List.length_cons, ih k (i + 1) r1 rlog hr]
    | false =>
      rw [sweep_cons_incomplete slice k i task rest hc] at h
      cases hx : execute_task (slice k) { task with preempt_flag := false } with
      | none => rw [hx] at h; cases h
      | some task1 =>
        rw [hx, Option.some_bind] at h
        cases hr : sweep slice (k + 1) (i + 1) rest with
        | none => rw [hr] at h; cases h
        | some r =>
          obtain ⟨r1, rlog⟩ := r
          rw [hr] at h
          simp only [Option.map_some', Option.some.injEq, Prod.mk.injEq] at h
          rw [← h.1, List.length_cons, List.length_cons, ih (k + 1) (i + 1) r1 rlog hr]

/-- A sweep over a registry of complete tasks dispatches nothing and changes nothing. -/
theorem sweep_all_complete (slice : Nat → Nat) :
    ∀ (q : List Task) (k i : Nat), (∀ t ∈ q, t.is_complete = true) →
      sweep slice k i q = some (q, []) := by
  intro q
  induction q with
  | nil => intro k i _; rfl
  | cons task rest ih =>
    intro k i h
    rw [sweep_cons_complete slice k i task rest (h task (List.mem_cons_self _ _)),
      ih k (i + 1) fun t ht => h t (List.mem_cons_of_mem _ ht)]
    rfl

/-- A sweep that dispatched nothing found every task complete and changed nothing. -/
theorem sweep_empty_log (slice : Nat → Nat) :
    ∀ (q : List Task) (k i : Nat) (q1 : List Task),
      sweep slice k i q = some (q1, []) → q1 = q ∧ ∀ t ∈ q, t.is_complete = true := by
  intro q
  induction q with
  | nil =>
    intro k i q1 h
    simp only [sweep, Option.some.injEq, Prod.mk.injEq] at h
    exact ⟨h.1.symm, fun t ht => absurd ht (List.not_mem_nil t)⟩
  | cons task rest ih =>
    intro k i q1 h
    cases hc : task.is_complete with
    | true =>
      rw [sweep_cons_complete slice k i task rest hc] at h
      cases hr : sweep slice k (i + 1) rest with
      | none => rw [hr] at h; cases h
      | some r =>
        obtain ⟨r1, rlog⟩ := r
        rw [hr] at h
        simp only [Option.map_some', Option.some.injEq, Prod.mk.injEq] at h
        obtain ⟨h1, h2⟩ := h
        subst h2
        obtain ⟨e1, e2⟩ := ih k (i + 1) r1 hr
        refine ⟨by rw [← h1, e1], ?_⟩
        intro t ht
        rcases List.mem_cons.mp ht with h0 | h0
        · rw [h0]; exact hc
        · exact e2 t h0
    | false =>
      rw [sweep_cons_incomplete slice k i task rest hc] at h
      cases hx : execute_task (slice k) { task with preempt_flag := false } with
      | none => rw [hx] at h; cases h
      | some task1 =>
        rw [hx, Option.some_bind] at h
        cases hr : sweep slice (k + 1) (i + 1) rest with
        | none => rw [hr] at h; cases h
        | some r =>
          rw [hr] at h
          simp only [Option.map_some', Option.some.injEq, Prod.mk.injEq] at h
          cases h.2

/-- What holds when the scheduler loop returns: the length of the registry is
kept, every task is complete, tasks that were complete are unchanged, and the trace
is extended by sweeps that dispatched something followed by one that dispatched
nothing. -/
theorem scheduler_loop_done (slice : Nat → Nat) :
    ∀ (fuel k : Nat) (q : List Task) (trace : List (List (Nat × Int))) (q1 : List Task)
      (tr : List (List (Nat × Int))),
      scheduler_loop slice fuel k q trace = Run.done (q1, tr) →
        q1.length = q.length ∧ (∀ t ∈ q1, t.is_complete = true) ∧
        (∀ j t, q.get? j = some t → t.is_complete = true → q1.get? j = some t) ∧
        ∃ sweeps, tr = trace ++ sweeps ++ [[]] ∧ ∀ log ∈ sweeps, log ≠ [] := by
  intro fuel
  induction fuel with
  | zero =>
    intro k q trace q1 tr h
    simp only [scheduler_loop] at h
    cases h
  | succ fuel ih =>
    intro k q trace q1 tr h
    rw [scheduler_loop] at h
    cases hs : sweep slice k 0 q with
    | none => rw [hs] at h; cases h
    | some r =>
      obtain ⟨qa, log⟩ := r
      rw [hs] at h
      dsimp only at h
      have hlen := sweep_length slice q k 0 qa log hs
      have hkeep := (sweep_log slice q k 0 qa log hs).2.2.2.2
      by_cases hl : log.length = 0
      · rw [if_pos hl] at h
        have hnil : log = [] := List.length_eq_zero.mp hl
        subst hnil
        simp only [Run.done.injEq, Prod.mk.injEq] at h
        obtain ⟨h1, h2⟩ := h
        subst h1; subst h2
        obtain ⟨e1, e2⟩ := sweep_empty_log slice q k 0 qa hs
        subst e1
        exact ⟨rfl, e2, fun j t hj _ => hj, [], by simp, fun l hl => absurd hl (List.not_mem_nil l)⟩
      · rw [if_neg hl] at h
        obtain ⟨a, b, c, sweeps, hd, he⟩ := ih (k + log.length) qa (trace ++ [log]) q1 tr h
        refine ⟨by rw [a, hlen], b, ?_, log :: sweeps, ?_, ?_⟩
        · intro j t hj hc
          exact c j t (hkeep j t hj hc) hc
        · rw [hd]; simp
        · intro l hlm
          rcases List.mem_cons.mp hlm with h0 | h0
          · rw [h0]; intro hnil; exact hl (by rw [hnil]; rfl)
          · exact he l h0

theorem run_isDone_iff {α : Type} (r : Run α) : r.isDone = true ↔ ∃ a, r = Run.done a := by
  cases r with
  | done a => exact ⟨fun _ => ⟨a, rfl⟩, fun _ => rfl⟩
  | fault => exact ⟨fun h => (by cases h), fun ⟨a, h⟩ => (by cases h)⟩
  | timeout => exact ⟨fun h => (by cases h), fun ⟨a, h⟩ => (by cases h)⟩

theorem add_task_keeps (priority : Int) (program : List String) (task_queue : List Task)
    (j : Nat) (t : Task) (hj : task_queue.get? j = some t) :
    (add_task priority program task_queue).get? j = some t := by
  unfold add_task
  by_cases hfull : task_queue.length ≥ MAX_TASKS
  · rw [if_pos hfull]; exact hj
  · rw [if_neg hfull]
    have hlt : j < task_queue.length := by
      rw [List.get?_eq_getElem?] at hj
      exact (List.getElem?_eq_some_iff.mp hj).1
    rw [List.get?_eq_getElem?, List.getElem?_append_left hlt, ← List.get?_eq_getElem?]
    exact hj

/-! ## Register indices computed by `execute_instruction` -/

theorem sscanf4_eq_scan4 (l : List Char) (toks : Scanned) (h : sscanf4 l = some toks) :
    toks = scan4 l := by
  unfold sscanf4 at h
  dsimp only at h
  split at h
  · exact (Option.some.inj h).symm
  · cases h

/-- The indices listed by `register_reads` are those of the instruction that
`execute_instruction` decodes. -/
theorem register_reads_of_decode (text : String) (ins : Instr) (h : decode text = some ins) :
    register_reads text = ins.indices.map fun n =>
      if hn : n < NUM_REGISTERS then some ⟨n, hn⟩ else none := by
  unfold decode at h
  cases hs : sscanf4 (c_str text) with
  | none => rw [hs] at h; cases h
  | some toks =>
    rw [hs] at h
    have hscan := sscanf4_eq_scan4 _ _ hs
    unfold register_reads
    rw [← hscan]
    cases ho : toks.op with
    | none => simp only [ho] at h; cases h
    | some op =>
      simp only [ho] at h ⊢
      by_cases h1 : op = "LOAD".data
      · rw [if_pos h1] at h ⊢
        cases hr : reg_index toks.arg1 with
        | none => rw [hr] at h; cases h
        | some r =>
          cases ha : toks.arg2 with
          | none => rw [hr, ha] at h; cases h
          | some a =>
            rw [hr, ha] at h
            cases h
            simp [Instr.indices]
      rw [if_neg h1] at h ⊢
      by_cases h2 : op = "ADD".data
      · rw [if_pos h2] at h ⊢
        cases hr : reg_index toks.arg1 with
        | none => rw [hr] at h; cases h
        | some r =>
          cases ha : reg_index toks.arg2 with
          | none => rw [hr, ha] at h; cases h
          | some a =>
            rw [hr, ha] at h
            cases h
            simp [Instr.indices]
      rw [if_neg h2] at h ⊢
      by_cases h3 : op = "SUB".data
      · rw [if_pos h3] at h ⊢
        cases hr : reg_index toks.arg1 with
        | none => rw [hr] at h; cases h
        | some r =>
          cases ha : reg_index toks.arg2 with
          | none => rw [hr, ha] at h; cases h
          | some a =>
            rw [hr, ha] at h
            cases h
            simp [Instr.indices]
      rw [if_neg h3] at h ⊢
      by_cases h4 : op = "MUL".data
      · rw [if_pos h4] at h ⊢
        cases hr : reg_index toks.arg1 with
        | none => rw [hr] at h; cases h
        | some r =>
          cases ha : reg_index toks.arg2 with
          | none => rw [hr, ha] at h; cases h
          | some a =>
            rw [hr, ha] at h
            cases h
            simp [Instr.indices]
      rw [if_neg h4] at h ⊢
      by_cases h5 : op = "PUSH".data
      · rw [if_pos h5] at h ⊢
        cases hr : reg_index toks.arg1 with
        | none => rw [hr] at h; cases h
        | some r =>
          rw [hr] at h
          cases h
          simp [Instr.indices]
      rw [if_neg h5] at h ⊢
      by_cases h6 : op = "POP".data
      · rw [if_pos h6] at h ⊢
        cases hr : reg_index toks.arg1 with
        | none => rw [hr] at h; cases h
        | some r =>
          rw [hr] at h
          cases h
          simp [Instr.indices]
      rw [if_neg h6] at h ⊢
      cases h
      simp [Instr.indices]

theorem scan4_first_two (t0 t1 rest : List Char) (h0 : t0 ≠ []) (h1 : t1 ≠ [])
    (p0 : ∀ c ∈ t0, isspace c = false) (p1 : ∀ c ∈ t1, isspace c = false) :
    (scan4 (t0 ++ Char.ofNat 32 :: (t1 ++ Char.ofNat 32 :: rest))).op = some t0 ∧
    (scan4 (t0 ++ Char.ofNat 32 :: (t1 ++ Char.ofNat 32 :: rest))).arg1 = some t1 := by
  have hsp : isspace (Char.ofNat 32) = true := by decide
  unfold scan4
  simp only [scan_s_token_cons t0 _ _ h0 p0 hsp, scan_s_space _ _ hsp,
    scan_s_token_cons t1 _ _ h1 p1 hsp, and_self]

theorem register_reads_load (d : Fin NUM_REGISTERS) (imm : List Char)
    (hp : ∀ c ∈ imm, plain c) : register_reads (load_text d imm) = [some d] := by
  obtain ⟨_, hreg, hregp⟩ := reg_operand_spec d
  have hshape : "LOAD".data ++ [Char.ofNat 32] ++ reg_text d ++ [Char.ofNat 44, Char.ofNat 32] ++ imm
      = "LOAD".data ++ Char.ofNat 32 :: ((reg_text d ++ [Char.ofNat 44]) ++ Char.ofNat 32 :: imm) := by
    simp [List.append_assoc]
  have h32 : (Char.ofNat 32).toNat ≠ 0 := by decide
  have hnz : ∀ c ∈ "LOAD".data ++ Char.ofNat 32 ::
      ((reg_text d ++ [Char.ofNat 44]) ++ Char.ofNat 32 :: imm), c.toNat ≠ 0 := by
    intro c hc
    rcases List.mem_append.mp hc with h | h
    · exact (load_plain c h).1
    · rcases List.mem_cons.mp h with h | h
      · rw [h]; exact h32
      · rcases List.mem_append.mp h with h | h
        · exact (hregp c h).1
        · rcases List.mem_cons.mp h with h | h
          · rw [h]; exact h32
          · exact (hp c h).1
  obtain ⟨hop, harg⟩ := scan4_first_two "LOAD".data (reg_text d ++ [Char.ofNat 44]) imm
    (by decide) (by simp) (fun c hc => (load_plain c hc).2.1) (fun c hc => (hregp c hc).2.1)
  unfold register_reads load_text
  rw [hshape, c_str_plain _ hnz]
  simp only [hop, harg, if_true, hreg]

theorem register_reads_fixed :
    (∀ d s : Fin NUM_REGISTERS,
      register_reads (two_operand "ADD" d s) = [some d, some s] ∧
      register_reads (two_operand "SUB" d s) = [some d, some s] ∧
      register_reads (two_operand "MUL" d s) = [some d, some s]) ∧
    (∀ r : Fin NUM_REGISTERS,
      register_reads (one_operand "PUSH" r) = [some r] ∧
      register_reads (one_operand "POP" r) = [some r]) ∧
    register_reads "HALT" = [] := by
  decide!

theorem register_reads_three_operand :
    ∀ d a b : Fin NUM_REGISTERS,
      register_reads (three_operand "ADD" d a b) = [some d, some a] ∧
      register_reads (three_operand "SUB" d a b) = [some d, some a] ∧
      register_reads (three_operand "MUL" d a b) = [some d, some a] := by
  decide!

/-- For every instruction of the opcode table, the register indices computed are
those of the registers named by the operands that are read. -/
theorem register_reads_table (i : TableInstr) :
    register_reads i.text = i.accessed.map fun n =>
      if hn : n < NUM_REGISTERS then some ⟨n, hn⟩ else none := by
  cases i with
  | load d negative digits =>
    simp only [TableInstr.text, TableInstr.accessed, List.map_cons, List.map_nil,
      register_reads_load d _ (imm_text_plain negative digits), Fin.is_lt, dite_true, Fin.eta]
  | arith op d s =>
    obtain ⟨ha, hs, hm⟩ := register_reads_fixed.1 d s
    cases op <;>
      simp only [TableInstr.text, ArithOp.name, TableInstr.accessed, List.map_cons, List.map_nil,
        ha, hs, hm, Fin.is_lt, dite_true, Fin.eta]
  | arith3 op d a b =>
    obtain ⟨ha, hs, hm⟩ := register_reads_three_operand d a b
    cases op <;>
      simp only [TableInstr.text, ArithOp.name, TableInstr.accessed, List.map_cons, List.map_nil,
        ha, hs, hm, Fin.is_lt, dite_true, Fin.eta]
  | push s =>
    simp only [TableInstr.text, TableInstr.accessed, List.map_cons, List.map_nil,
      (register_reads_fixed.2.1 s).1, Fin.is_lt, dite_true, Fin.eta]
  | pop d =>
    simp only [TableInstr.text, TableInstr.accessed, List.map_cons, List.map_nil,
      (register_reads_fixed.2.1 d).2, Fin.is_lt, dite_true, Fin.eta]
  | halt =>
    simp only [TableInstr.text, TableInstr.accessed, List.map_nil, register_reads_fixed.2.2]

/-! ## Tasks with an empty program -/

theorem execute_task_empty (n : Nat) (t : Task) (hp : t.program = [])
    (hpc : t.cpu_state.pc = 0) : execute_task n t = some t := by
  have hf : fetch t.program t.cpu_state.pc = some Fetched.sentinel := by
    rw [hp, hpc]; rfl
  rw [execute_task, hf]

theorem dispatch_eq_sweep (slice : Nat → Nat) (k i : Nat) (task : Task)
    (hc : task.is_complete = false) :
    sweep slice k i [task] = (dispatch (slice k) task).map fun t1 => ([t1], [(i, task.id)]) := by
  rw [sweep_cons_incomplete slice k i task [] hc]
  unfold dispatch
  rw [if_neg (by rw [hc]; exact Bool.false_ne_true)]
  cases execute_task (slice k) { task with preempt_flag := false } with
  | none => rfl
  | some t1 => rfl

/-- A sweep over a registry that holds a task with an empty program dispatches
something and leaves a task with an empty program in the registry. -/
theorem sweep_empty_program (slice : Nat → Nat) :
    ∀ (q : List Task) (k i : Nat) (q1 : List Task) (log : List (Nat × Int)),
      sweep slice k i q = some (q1, log) → (∃ t ∈ q, empty_program_task t) →
        log ≠ [] ∧ ∃ t ∈ q1, empty_program_task t := by
  intro q
  induction q with
  | nil =>
    intro k i q1 log _ h
    obtain ⟨t, ht, _⟩ := h
    exact absurd ht (List.not_mem_nil t)
  | cons task rest ih =>
    intro k i q1 log h he
    obtain ⟨t, ht, hp, hpc, hic⟩ := he
    cases hc : task.is_complete with
    | true =>
      rw [sweep_cons_complete slice k i task rest hc] at h
      cases hr : sweep slice k (i + 1) rest with
      | none => rw [hr] at h; cases h
      | some r =>
        obtain ⟨ra, rl⟩ := r
        rw [hr] at h
        simp only [Option.map_some', Option.some.injEq, Prod.mk.injEq] at h
        obtain ⟨h1, h2⟩ := h
        subst h1; subst h2
        have hin : t ∈ rest := by
          rcases List.mem_cons.mp ht with h0 | h0
          · subst h0; rw [hc] at hic; cases hic
          · exact h0
        obtain ⟨hl, t1, ht1, he1⟩ := ih k (i + 1) ra rl hr ⟨t, hin, hp, hpc, hic⟩
        exact ⟨hl, t1, List.mem_cons_of_mem _ ht1, he1⟩
    | false =>
      rw [sweep_cons_incomplete slice k i task rest hc] at h
      cases hx : execute_task (slice k) { task with preempt_flag := false } with
      | none => rw [hx] at h; cases h
      | some task1 =>
        rw [hx, Option.some_bind] at h
        cases hr : sweep slice (k + 1) (i + 1) rest with
        | none => rw [hr] at h; cases h
        | some r =>
          obtain ⟨ra, rl⟩ := r
          rw [hr] at h
          simp only [Option.map_some', Option.some.injEq, Prod.mk.injEq] at h
          obtain ⟨h1, h2⟩ := h
          subst h1; subst h2
          refine ⟨List.cons_ne_nil _ _, ?_⟩
          rcases List.mem_cons.mp ht with h0 | h0
          · subst h0
            have hx1 := execute_task_empty (slice k) { t with preempt_flag := false } hp hpc
            rw [hx1] at hx
            simp only [Option.some.injEq] at hx
            subst hx
            exact ⟨_, List.mem_cons_self _ _, hp, hpc, hic⟩
          · obtain ⟨_, t1, ht1, he1⟩ := ih (k + 1) (i + 1) ra rl hr ⟨t, h0, hp, hpc, hic⟩
            exact ⟨t1, List.mem_cons_of_mem _ ht1, he1⟩

/-- With a task with an empty program in the registry, the loop of `scheduler` never
reaches its `break`, whatever the number of sweeps. -/
theorem scheduler_loop_empty_program (slice : Nat → Nat) :
    ∀ (fuel k : Nat) (q : List Task) (trace : List (List (Nat × Int))),
      (∃ t ∈ q, empty_program_task t) →
        (scheduler_loop slice fuel k q trace).isDone = false := by
  intro fuel
  induction fuel with
  | zero =>
    intro k q trace _
    rfl
  | succ fuel ih =>
    intro k q trace he
    rw [scheduler_loop]
    cases hs : sweep slice k 0 q with
    | none => rfl
    | some r =>
      obtain ⟨qa, log⟩ := r
      obtain ⟨hl, he1⟩ := sweep_empty_program slice q k 0 qa log hs he
      dsimp only
      rw [if_neg (fun h0 => hl (List.length_eq_zero.mp h0))]
      exact ih _ qa _ he1

/-! ## Execution up to the look-ahead that finds `HALT` -/

theorem fetch_of_get (program : List String) (j : Nat) (pc : Int) (text : String)
    (hg : program.get? j = some text) (hpc : pc = (j : Int)) :
    fetch program pc = some (Fetched.instr text) := by
  unfold fetch
  have hj : pc.toNat = j := by omega
  rw [if_neg (by omega), hj, hg]

theorem drop_of_get (program : List String) (j : Nat) (text : String)
    (hg : program.get? j = some text) : program.drop j = text :: program.drop (j + 1) := by
  rw [List.get?_eq_getElem?] at hg
  obtain ⟨hlt, hval⟩ := List.getElem?_eq_some_iff.mp hg
  rw [List.drop_eq_getElem_cons hlt, hval]

theorem get_of_lt_get (program : List String) (j k : Nat) (text : String)
    (hg : program.get? k = some text) (hjk : j ≤ k) : ∃ x, program.get? j = some x := by
  rw [List.get?_eq_getElem?] at hg
  obtain ⟨hlt, _⟩ := List.getElem?_eq_some_iff.mp hg
  exact ⟨program.get ⟨j, by omega⟩, List.get?_eq_get (by omega)⟩

/-- A task at `pc = p` whose program holds `HALT` at index `p + d + 1` and no `HALT`
at the indices strictly between: a dispatch that is not interrupted during its first
`d + 1` instructions executes exactly the instructions at `p .. p + d` and marks the
task complete; if it returns, `pc` is `p + d + 1`. -/
theorem execute_task_until_halt (halt : String) (hhalt : c_str halt = "HALT".data) :
    ∀ (d p N : Nat) (t : Task), t.preempt_flag = false → t.cpu_state.pc = (p : Int) →
      p + d + 1 ≤ 2147483647 → t.program.get? (p + d + 1) = some halt →
      (∀ j text, p < j → j < p + d + 1 → t.program.get? j = some text →
        c_str text ≠ "HALT".data) →
      d + 1 ≤ N →
        execute_task N t =
          (run_instructions t.cpu_state ((t.program.drop p).take (d + 1))).map
            (fun c => { t with cpu_state := c, is_complete := true }) ∧
        ∀ t1, execute_task N t = some t1 → t1.cpu_state.pc = ((p + d + 1 : Nat) : Int) := by
  intro d
  induction d with
  | zero =>
    intro p N t hf hpc hmax hget _ hN
    rcases t with ⟨id, pr, cs, ic, prog, pf⟩
    dsimp only at hf hpc hget
    subst hf
    obtain ⟨N1, rfl⟩ : ∃ N1, N = N1 + 1 := ⟨N - 1, by omega⟩
    obtain ⟨text, htext⟩ := get_of_lt_get prog p (p + 0 + 1) halt hget (by omega)
    have hfetch := fetch_of_get prog p cs.pc text htext hpc
    have hdrop : (prog.drop p).take (0 + 1) = [text] := by
      rw [drop_of_get prog p text htext]; rfl
    rw [hdrop, execute_task]
    dsimp only
    cases hexec : execute_instruction cs text with
    | none =>
      simp only [hfetch, Bool.false_eq_true, if_false, hexec, run_instructions, Option.map_none']
      exact ⟨trivial, fun t1 h => by cases h⟩
    | some cpu =>
      have hcpupc : cpu.pc = ((p + 0 + 1 : Nat) : Int) := by
        rw [execute_instruction_pc cs cpu text hexec, hpc]
        rw [wrap_int_eq _ (by omega) (by omega)]
        push_cast; omega
      have hfetch1 := fetch_of_get prog (p + 0 + 1) cpu.pc halt hget hcpupc
      simp only [hfetch, Bool.false_eq_true, if_false, hexec, hfetch1, if_pos hhalt,
        run_instructions, Option.map_some', true_and]
      intro t1 h
      simp only [Option.some.injEq] at h
      subst h
      exact hcpupc
  | succ d ih =>
    intro p N t hf hpc hmax hget hfirst hN
    rcases t with ⟨id, pr, cs, ic, prog, pf⟩
    dsimp only at hf hpc hget hfirst
    subst hf
    obtain ⟨N1, rfl⟩ : ∃ N1, N = N1 + 1 := ⟨N - 1, by omega⟩
    obtain ⟨text, htext⟩ := get_of_lt_get prog p (p + (d + 1) + 1) halt hget (by omega)
    obtain ⟨next, hnext⟩ := get_of_lt_get prog (p + 1) (p + (d + 1) + 1) halt hget (by omega)
    have hnh : c_str next ≠ "HALT".data := hfirst (p + 1) next (by omega) (by omega) hnext
    have hfetch := fetch_of_get prog p cs.pc text htext hpc
    have hdrop : (prog.drop p).take (d + 1 + 1) = text :: (prog.drop (p + 1)).take (d + 1) := by
      rw [drop_of_get prog p text htext]; rfl
    rw [hdrop, execute_task]
    dsimp only
    cases hexec : execute_instruction cs text with
    | none =>
      simp only [hfetch, Bool.false_eq_true, if_false, hexec, run_instructions, Option.map_none']
      exact ⟨trivial, fun t1 h => by cases h⟩
    | some cpu =>
      have hcpupc : cpu.pc = ((p + 1 : Nat) : Int) := by
        rw [execute_instruction_pc cs cpu text hexec, hpc]
        rw [wrap_int_eq _ (by omega) (by omega)]
        push_cast; omega
      have hfetch1 := fetch_of_get prog (p + 1) cpu.pc next hnext hcpupc
      have hrec := ih (p + 1) N1 ⟨id, pr, cpu, ic, prog, false⟩ rfl hcpupc (by omega)
        (by rw [← hget]; congr 1; omega)
        (fun j x h1 h2 hx => hfirst j x (by omega) (by omega) hx) (by omega)
      dsimp only at hrec
      simp only [hfetch, Bool.false_eq_true, if_false, hexec, hfetch1, if_neg hnh,
        run_instructions]
      refine ⟨hrec.1, fun t1 h => ?_⟩
      rw [hrec.2 t1 h]
      congr 1; omega

theorem run_instructions_defined (instrs : List String) :
    ∀ (cpu : CPU), sp_in_range cpu → (∀ x ∈ instrs, well_formed x = true) →
      ∃ c, run_instructions cpu instrs = some c := by
  induction instrs with
  | nil => intro cpu _ _; exact ⟨cpu, rfl⟩
  | cons text rest ih =>
    intro cpu hr hw
    obtain ⟨c1, hc1, _, hr1⟩ :=
      execute_instruction_defined cpu text (hw text (List.mem_cons_self _ _)) hr
    obtain ⟨c, hc⟩ := ih c1 hr1 (fun x hx => hw x (List.mem_cons_of_mem _ hx))
    exact ⟨c, by simp only [run_instructions, hc1, hc]⟩

theorem stack_index_val (i : Int) (j : Fin STACK_SIZE) (h : stack_index i = some j) :
    (j.val : Int) = i := by
  unfold stack_index at h
  by_cases hi : 0 ≤ i ∧ i < 256
  · rw [dif_pos hi] at h
    simp only [Option.some.injEq] at h
    subst h
    show ((i.toNat : Nat) : Int) = i
    omega
  · rw [dif_neg hi] at h; cases h

/-! ## Cutting a dispatch into slices -/

theorem execute_task_fetch_none (n : Nat) (t : Task)
    (hf : fetch t.program t.cpu_state.pc = none) : execute_task n t = none := by
  rw [execute_task, hf]

theorem execute_task_sentinel (n : Nat) (t : Task)
    (hf : fetch t.program t.cpu_state.pc = some Fetched.sentinel) :
    execute_task n t = some t := by
  rw [execute_task, hf]

/-- One iteration of the loop of `execute_task` with the flag clear. -/
theorem execute_task_succ (n : Nat) (id pr : Int) (cs : CPU) (ic : Bool)
    (prog : List String) (text : String)
    (hf : fetch prog cs.pc = some (Fetched.instr text)) :
    execute_task (n + 1) ⟨id, pr, cs, ic, prog, false⟩ =
      match execute_instruction cs text with
      | none => none
      | some cpu =>
        match fetch prog cpu.pc with
        | none => none
        | some Fetched.sentinel => none
        | some (Fetched.instr next) =>
          if c_str next = "HALT".data then some ⟨id, pr, cpu, true, prog, false⟩
          else execute_task n ⟨id, pr, cpu, ic, prog, false⟩ := by
  rw [execute_task]
  simp only [hf, Bool.false_eq_true, if_false]

/-- A dispatch with `n + m` polls is a dispatch with `n` polls followed, if that one
was preempted, by a dispatch with `m` polls from the state it left. -/
theorem execute_task_compose (m : Nat) :
    ∀ (n : Nat) (t : Task), t.preempt_flag = false →
      execute_task (n + m) t =
        (execute_task n t).bind fun t1 =>
          if t1.preempt_flag then execute_task m { t1 with preempt_flag := false }
          else some t1 := by
  intro n
  induction n with
  | zero =>
    intro t hf
    rcases t with ⟨id, pr, cs, ic, prog, pf⟩
    dsimp only at hf
    subst hf
    rw [Nat.zero_add]
    cases hfe : fetch prog cs.pc with
    | none =>
      rw [execute_task_fetch_none m _ hfe, execute_task_fetch_none 0 _ hfe]; rfl
    | some f =>
      cases f with
      | sentinel =>
        rw [execute_task_sentinel m _ hfe, execute_task_sentinel 0 _ hfe]; rfl
      | instr text =>
        have h0 : execute_task 0 ⟨id, pr, cs, ic, prog, false⟩ =
            some ⟨id, pr, cs, ic, prog, true⟩ := by
          rw [execute_task]
          simp only [hfe, Bool.false_eq_true, if_false]
        rw [h0]; rfl
  | succ n ih =>
    intro t hf
    rcases t with ⟨id, pr, cs, ic, prog, pf⟩
    dsimp only at hf
    subst hf
    rw [Nat.add_right_comm n 1 m]
    cases hfe : fetch prog cs.pc with
    | none =>
      rw [execute_task_fetch_none (n + m + 1) _ hfe, execute_task_fetch_none (n + 1) _ hfe]; rfl
    | some f =>
      cases f with
      | sentinel =>
        rw [execute_task_sentinel (n + m + 1) _ hfe, execute_task_sentinel (n + 1) _ hfe]; rfl
      | instr text =>
        rw [execute_task_succ (n + m) id pr cs ic prog text hfe,
          execute_task_succ n id pr cs ic prog text hfe]
        cases execute_instruction cs text with
        | none => rfl
        | some cpu =>
          dsimp only
          cases fetch prog cpu.pc with
          | none => rfl
          | some f1 =>
            cases f1 with
            | sentinel => rfl
            | instr next =>
              dsimp only
              by_cases hh : c_str next = "HALT".data
              · rw [if_pos hh, if_pos hh]; rfl
              · rw [if_neg hh, if_neg hh]
                exact ih ⟨id, pr, cpu, ic, prog, false⟩ rfl

/-- A dispatch that returns with the flag observed has left `is_complete` as it was. -/
theorem execute_task_preempted :
    ∀ (n : Nat) (t t1 : Task), t.preempt_flag = false → execute_task n t = some t1 →
      t1.preempt_flag = true → t1.is_complete = t.is_complete := by
  intro n
  induction n with
  | zero =>
    intro t t1 hf h hp
    rcases t with ⟨id, pr, cs, ic, prog, pf⟩
    dsimp only at hf
    subst hf
    cases hfe : fetch prog cs.pc with
    | none => rw [execute_task_fetch_none 0 _ hfe] at h; cases h
    | some f =>
      cases f with
      | sentinel =>
        rw [execute_task_sentinel 0 _ hfe] at h
        simp only [Option.some.injEq] at h
        subst h; cases hp
      | instr text =>
        rw [execute_task] at h
        simp only [hfe, Bool.false_eq_true, if_false, Option.some.injEq] at h
        subst h; rfl
  | succ n ih =>
    intro t t1 hf h hp
    rcases t with ⟨id, pr, cs, ic, prog, pf⟩
    dsimp only at hf
    subst hf
    cases hfe : fetch prog cs.pc with
    | none => rw [execute_task_fetch_none (n + 1) _ hfe] at h; cases h
    | some f =>
      cases f with
      | sentinel =>
        rw [execute_task_sentinel (n + 1) _ hfe] at h
        simp only [Option.some.injEq] at h
        subst h; cases hp
      | instr text =>
        rw [execute_task_succ n id pr cs ic prog text hfe] at h
        cases hexec : execute_instruction cs text with
        | none => rw [hexec] at h; cases h
        | some cpu =>
          rw [hexec] at h
          dsimp only at h
          cases hf1 : fetch prog cpu.pc with
          | none => rw [hf1] at h; cases h
          | some f1 =>
            rw [hf1] at h
            cases f1 with
            | sentinel => cases h
            | instr next =>
              dsimp only at h
              by_cases hh : c_str next = "HALT".data
              · rw [if_pos hh] at h
                simp only [Option.some.injEq] at h
                subst h; cases hp
              · rw [if_neg hh] at h
                exact ih ⟨id, pr, cpu, ic, prog, false⟩ t1 rfl h hp

/-- A dispatch that returns without having observed the flag left the loop by itself:
the task is complete or `pc` is at the sentinel. -/
theorem execute_task_natural_end :
    ∀ (n : Nat) (t u : Task), t.preempt_flag = false → execute_task n t = some u →
      u.preempt_flag = false →
        u.is_complete = true ∨ fetch u.program u.cpu_state.pc = some Fetched.sentinel := by
  intro n
  induction n with
  | zero =>
    intro t u hf h hp
    rcases t with ⟨id, pr, cs, ic, prog, pf⟩
    dsimp only at hf
    subst hf
    cases hfe : fetch prog cs.pc with
    | none => rw [execute_task_fetch_none 0 _ hfe] at h; cases h
    | some f =>
      cases f with
      | sentinel =>
        rw [execute_task_sentinel 0 _ hfe] at h
        simp only [Option.some.injEq] at h
        subst h; exact Or.inr hfe
      | instr text =>
        rw [execute_task] at h
        simp only [hfe, Bool.false_eq_true, if_false, Option.some.injEq] at h
        subst h; cases hp
  | succ n ih =>
    intro t u hf h hp
    rcases t with ⟨id, pr, cs, ic, prog, pf⟩
    dsimp only at hf
    subst hf
    cases hfe : fetch prog cs.pc with
    | none => rw [execute_task_fetch_none (n + 1) _ hfe] at h; cases h
    | some f =>
      cases f with
      | sentinel =>
        rw [execute_task_sentinel (n + 1) _ hfe] at h
        simp only [Option.some.injEq] at h
        subst h; exact Or.inr hfe
      | instr text =>
        rw [execute_task_succ n id pr cs ic prog text hfe] at h
        cases hexec : execute_instruction cs text with
        | none => rw [hexec] at h; cases h
        | some cpu =>
          rw [hexec] at h
          dsimp only at h
          cases hf1 : fetch prog cpu.pc with
          | none => rw [hf1] at h; cases h
          | some f1 =>
            rw [hf1] at h
            cases f1 with
            | sentinel => cases h
            | instr next =>
              dsimp only at h
              by_cases hh : c_str next = "HALT".data
              · rw [if_pos hh] at h
                simp only [Option.some.injEq] at h
                subst h; exact Or.inl rfl
              · rw [if_neg hh] at h
                exact ih ⟨id, pr, cpu, ic, prog, false⟩ u rfl h hp

/-- Dispatches of a task that is complete or whose `pc` is at the sentinel change
neither its CPU state nor `is_complete`. -/
theorem run_slices_finished (u : Task)
    (hu : u.is_complete = true ∨ fetch u.program u.cpu_state.pc = some Fetched.sentinel) :
    ∀ (ns : List Nat) (flag : Bool),
      ∃ t1, run_slices ns { u with preempt_flag := flag } = some t1 ∧
        t1.cpu_state = u.cpu_state ∧ t1.is_complete = u.is_complete := by
  intro ns
  induction ns with
  | nil => intro flag; exact ⟨_, rfl, rfl, rfl⟩
  | cons n rest ih =>
    intro flag
    rcases u with ⟨id, pr, cs, ic, prog, pf⟩
    cases ic with
    | true =>
      have hd : dispatch n ⟨id, pr, cs, true, prog, flag⟩ = some ⟨id, pr, cs, true, prog, flag⟩ := by
        unfold dispatch; rfl
      have hrs : run_slices (n :: rest) ⟨id, pr, cs, true, prog, flag⟩ =
          run_slices rest ⟨id, pr, cs, true, prog, flag⟩ := by
        rw [run_slices, hd]
      rw [hrs]
      exact ih flag
    | false =>
      have hs : fetch prog cs.pc = some Fetched.sentinel := by
        rcases hu with h | h
        · cases h
        · exact h
      have hd : dispatch n ⟨id, pr, cs, false, prog, flag⟩ =
          some ⟨id, pr, cs, false, prog, true⟩ := by
        unfold dispatch
        rw [if_neg Bool.false_ne_true]
        dsimp only
        rw [execute_task_sentinel n ⟨id, pr, cs, false, prog, false⟩ hs]
      have hrs : run_slices (n :: rest) ⟨id, pr, cs, false, prog, flag⟩ =
          run_slices rest ⟨id, pr, cs, false, prog, true⟩ := by
        rw [run_slices, hd]
      rw [hrs]
      exact ih true

/-- The dispatch of the scheduler, once `execute_task` has returned. -/
theorem dispatch_of_execute_task (n : Nat) (t t1 : Task) (hic : t.is_complete = false)
    (h : execute_task n { t with preempt_flag := false } = some t1) :
    dispatch n t = some { t1 with preempt_flag := true } := by
  unfold dispatch
  rw [if_neg (by rw [hic]; exact Bool.false_ne_true), h]

/-- Cutting a dispatch into slices: if the dispatch with `N` polls returns `u` without
having observed the flag and the slices `ns` allow at least `N` polls in total, the
dispatches with slices `ns` return, with the CPU state and `is_complete` of `u`. -/
theorem run_slices_uninterrupted :
    ∀ (ns : List Nat) (t : Task) (N : Nat) (u : Task), t.is_complete = false →
      execute_task N { t with preempt_flag := false } = some u → u.preempt_flag = false →
      N ≤ ns.sum →
        ∃ t1, run_slices ns t = some t1 ∧
          t1.cpu_state = u.cpu_state ∧ t1.is_complete = u.is_complete := by
  intro ns
  induction ns with
  | nil =>
    intro t N u hic h hp hN
    have hN0 : N = 0 := by simpa using hN
    subst hN0
    rcases t with ⟨id, pr, cs, ic, prog, pf⟩
    dsimp only at hic h
    cases hfe : fetch prog cs.pc with
    | none => rw [execute_task_fetch_none 0 _ hfe] at h; cases h
    | some f =>
      cases f with
      | sentinel =>
        rw [execute_task_sentinel 0 _ hfe] at h
        simp only [Option.some.injEq] at h
        subst h
        exact ⟨_, rfl, rfl, rfl⟩
      | instr text =>
        rw [execute_task] at h
        simp only [hfe, Bool.false_eq_true, if_false, Option.some.injEq] at h
        subst h; cases hp
  | cons n rest ih =>
    intro t N u hic h hp hN
    have hsum : (n :: rest).sum = n + rest.sum := List.sum_cons
    have hend : ∀ v : Task, execute_task n { t with preempt_flag := false } = some v →
        v.preempt_flag = false →
        ∃ t1, run_slices (n :: rest) t = some t1 ∧
          t1.cpu_state = v.cpu_state ∧ t1.is_complete = v.is_complete := by
      intro v hv hvp
      have hfin := execute_task_natural_end n _ v rfl hv hvp
      have hrs : run_slices (n :: rest) t = run_slices rest { v with preempt_flag := true } := by
        rw [run_slices, dispatch_of_execute_task n t v hic hv]
      rw [hrs]
      exact run_slices_finished v hfin rest true
    by_cases hle : N ≤ n
    · obtain ⟨m, rfl⟩ : ∃ m, n = N + m := ⟨n - N, by omega⟩
      have hrun : execute_task (N + m) { t with preempt_flag := false } = some u := by
        rw [execute_task_compose m N _ rfl, h, Option.some_bind, hp]; rfl
      exact hend u hrun hp
    · obtain ⟨m, rfl⟩ : ∃ m, N = n + m := ⟨N - n, by omega⟩
      rw [execute_task_compose m n _ rfl] at h
      cases hx : execute_task n { t with preempt_flag := false } with
      | none => rw [hx] at h; cases h
      | some t1 =>
        rw [hx, Option.some_bind] at h
        cases hp1 : t1.preempt_flag with
        | false =>
          rw [hp1] at h
          simp only [Bool.false_eq_true, if_false, Option.some.injEq] at h
          subst h
          exact hend t1 hx hp1
        | true =>
          rw [hp1, if_pos rfl] at h
          have hic1 : t1.is_complete = false := by
            rw [execute_task_preempted n _ t1 rfl hx hp1]; exact hic
          have hrs : run_slices (n :: rest) t =
              run_slices rest { t1 with preempt_flag := true } := by
            rw [run_slices, dispatch_of_execute_task n t t1 hic hx]
          rw [hrs]
          exact ih { t1 with preempt_flag := true } m u hic1 h hp (by omega)

/-! ## The registry after a sequence of admissions -/

/-- The registry invariant: at most `MAX_TASKS` tasks, the task at index `i` has
id `i`. -/
theorem add_task_invariant (priority : Int) (program : List String) (task_queue : List Task)
    (hlen : task_queue.length ≤ MAX_TASKS)
    (hid : ∀ i t, task_queue.get? i = some t → t.id = (i : Int)) :
    (add_task priority program task_queue).length ≤ MAX_TASKS ∧
    (add_task priority program task_queue).length =
      min (task_queue.length + 1) MAX_TASKS ∧
    ∀ i t, (add_task priority program task_queue).get? i = some t → t.id = (i : Int) := by
  unfold add_task
  by_cases hfull : task_queue.length ≥ MAX_TASKS
  · rw [if_pos hfull]
    exact ⟨hlen, by omega, hid⟩
  · rw [if_neg hfull]
    refine ⟨by rw [List.length_append]; simp only [List.length_singleton]; omega,
      by rw [List.length_append]; simp only [List.length_singleton]; omega, ?_⟩
    intro i t hget
    rw [List.get?_eq_getElem?] at hget
    by_cases hi : i < task_queue.length
    · rw [List.getElem?_append_left hi, ← List.get?_eq_getElem?] at hget
      exact hid i t hget
    · rw [List.getElem?_append_right (by omega)] at hget
      have hlt : i - task_queue.length < 1 := by
        by_contra hge
        rw [List.getElem?_eq_none (by simp only [List.length_singleton]; omega)] at hget
        cases hget
      have h0 : i - task_queue.length = 0 := by omega
      rw [h0] at hget
      simp only [List.getElem?_cons_zero, Option.some.injEq] at hget
      subst hget
      show (task_queue.length : Int) = (i : Int)
      omega

theorem add_tasks_invariant :
    ∀ (calls : List (Int × List String)) (task_queue : List Task),
      task_queue.length ≤ MAX_TASKS →
      (∀ i t, task_queue.get? i = some t → t.id = (i : Int)) →
        (add_tasks calls task_queue).length ≤ MAX_TASKS ∧
        (add_tasks calls task_queue).length =
          min (task_queue.length + calls.length) MAX_TASKS ∧
        ∀ i t, (add_tasks calls task_queue).get? i = some t → t.id = (i : Int) := by
  intro calls
  induction calls with
  | nil =>
    intro q hlen hid
    exact ⟨hlen, by simp only [add_tasks, List.length_nil]; omega, hid⟩
  | cons call calls ih =>
    intro q hlen hid
    obtain ⟨h1, h2, h3⟩ := add_task_invariant call.1 call.2 q hlen hid
    obtain ⟨k1, k2, k3⟩ := ih (add_task call.1 call.2 q) h1 h3
    refine ⟨k1, ?_, k3⟩
    show (add_tasks calls (add_task call.1 call.2 q)).length = _
    rw [k2, h2, List.length_cons]
    omega

/-! ## Claims -/

/-- C1 (evaluation at the failing input): the task of `main` with `program1`, admitted
alone and run to completion, ends with R2 = 10 and R3 = 10 (not 30), completed,
`sp = STACK_SIZE-1 = 255` and `pc = 5`; `ADD R2, R0, R1` adds R0 to R2 and never
reads R1.  The result is the same whether the task runs uninterrupted or is
preempted after every instruction. -/
theorem main_program1_result :
    (scheduler (fun _ => 1000) 2 (add_task 3 program1 [])).map (fun r => r.1.map Task.view)
      = Run.done [(([10, 20, 10, 10, 0, 0, 0, 0], 5, 255), true)] ∧
    (scheduler (fun _ => 1) 6 (add_task 3 program1 [])).map (fun r => r.1.map Task.view)
      = Run.done [(([10, 20, 10, 10, 0, 0, 0, 0], 5, 255), true)] := by
  decide!

/-- C2 (evaluation at the failing input): with R0 = 300 on a fresh CPU, `PUSH R0`
followed by `POP R1` leaves R1 = 44, the sign-extended low byte of 300, because a
stack cell is a `char`; `sp` is restored to 255. -/
theorem push_pop_truncates :
    (run_instructions initialize_cpu ["LOAD R0, 300", "PUSH R0", "POP R1"]).map CPU.view
      = some ([300, 44, 0, 0, 0, 0, 0, 0], 3, 255) := by
  decide!

/-- C3 (counterexample): 255 executions of `PUSH R0` from a newly initialised CPU
reach `sp = 0`, and one more `PUSH R0` moves `sp` to -1, outside `[0, STACK_SIZE-1]`,
instead of leaving it unchanged. -/
theorem sp_reaches_minus_one :
    (run_instructions initialize_cpu (List.replicate 255 "PUSH R0")).map CPU.sp = some 0 ∧
    (run_instructions initialize_cpu (List.replicate 256 "PUSH R0")).map CPU.sp = some (-1) := by
  decide!

/-- C3 (amended): in every state reached from a newly initialised CPU by executing
any sequence of instructions, `sp` lies in `[-1, STACK_SIZE-1]`; there a `PUSH` at
`sp = -1` and a `POP` at `sp = STACK_SIZE-1` execute and leave `sp` unchanged. -/
theorem sp_range_invariant (instrs : List String) (c : CPU)
    (h : run_instructions initialize_cpu instrs = some c) :
    (-1 ≤ c.sp ∧ c.sp ≤ (STACK_SIZE : Int) - 1) ∧
    (∀ r, c.sp = -1 →
      (execute_instruction c (one_operand "PUSH" r)).map CPU.sp = some c.sp) ∧
    (∀ r, c.sp = (STACK_SIZE : Int) - 1 →
      (execute_instruction c (one_operand "POP" r)).map CPU.sp = some c.sp) := by
  have hr : sp_in_range c :=
    run_instructions_sp_in_range instrs initialize_cpu c (by unfold sp_in_range; decide) h
  have hS : (STACK_SIZE : Int) = 256 := rfl
  refine ⟨?_, ?_, ?_⟩
  · unfold sp_in_range at hr; omega
  · intro r hs
    rw [execute_instruction_eq, (decode_one_operand r).1, Option.some_bind]
    simp only [Instr.effect]
    rw [if_neg (by omega)]
    rfl
  · intro r hs
    rw [execute_instruction_eq, (decode_one_operand r).2, Option.some_bind]
    simp only [Instr.effect]
    rw [if_neg (by omega)]
    rfl

theorem sp_range_invariant_witness :
    ∃ c, run_instructions initialize_cpu (List.replicate 256 "PUSH R0") = some c ∧
      ((-1 ≤ c.sp ∧ c.sp ≤ (STACK_SIZE : Int) - 1) ∧
      (∀ r, c.sp = -1 →
        (execute_instruction c (one_operand "PUSH" r)).map CPU.sp = some c.sp) ∧
      (∀ r, c.sp = (STACK_SIZE : Int) - 1 →
        (execute_instruction c (one_operand "POP" r)).map CPU.sp = some c.sp)) := by
  obtain ⟨c, hc⟩ := Option.isSome_iff_exists.mp
    (show (run_instructions initialize_cpu (List.replicate 256 "PUSH R0")).isSome = true by
      decide!)
  exact ⟨c, hc, sp_range_invariant _ c hc⟩

/-- C4 (counterexample): three admitted tasks whose programs each end in `HALT` for
which the scheduler never returns normally.  (1) One program is `HALT` alone: its
dispatch executes the `HALT` at index 0 and the look-ahead then reads the sentinel,
a fault.  (2) The programs of `main` with slices in which no instruction is
executed: every sweep leaves every task unfinished.  (3) One program starts with
`LOAD R9, 1`, a write outside the register file, a fault. -/
theorem scheduler_need_not_terminate :
    (¬ ∃ fuel r, scheduler (fun _ => 1000) fuel halt_only_queue = Run.done r) ∧
    (¬ ∃ fuel r, scheduler (fun _ => 0) fuel main_queue = Run.done r) ∧
    (¬ ∃ fuel r, scheduler (fun _ => 1000) fuel bad_register_queue = Run.done r) := by
  refine ⟨?_, ?_, ?_⟩
  · exact scheduler_fault_of_sweep_none _ _
      (Option.isNone_iff_eq_none.mp (by decide!))
  · rintro ⟨fuel, r, hr⟩
    have hu : ∀ t ∈ main_queue, unfinished t := by
      intro t ht
      have hq : main_queue = [{ fresh_task program1 with priority := 3 },
          { fresh_task program2 with id := 1, priority := 1 },
          { fresh_task program3 with id := 2, priority := 2 }] := rfl
      rw [hq] at ht
      simp only [List.mem_cons, List.mem_singleton, List.not_mem_nil, or_false] at ht
      rcases ht with h | h | h <;> rw [h] <;> exact ⟨rfl, _, rfl⟩
    have hz := scheduler_loop_zero (fun _ => 0) (fun _ => rfl) fuel main_queue 0 []
      (by intro h; cases h) hu
    unfold scheduler at hr
    rw [hz] at hr
    cases hr
  · exact scheduler_fault_of_sweep_none _ _
      (Option.isNone_iff_eq_none.mp (by decide!))

/-- C4 (amended): for every three admitted tasks whose programs are well-formed with
`HALT` as last instruction and at least one instruction before it, and for all
slices that each allow at least one instruction, the scheduler terminates and all
three tasks have `is_complete = true`; the three programs of `main` are such
programs. -/
theorem scheduler_terminates (p1 p2 p3 : Int) (prog1 prog2 prog3 : List String)
    (slice : Nat → Nat) (h1 : program_ok prog1 = true) (h2 : program_ok prog2 = true)
    (h3 : program_ok prog3 = true) (hs : ∀ k, 0 < slice k) :
    (∃ fuel tasks trace,
      scheduler slice fuel (add_task p3 prog3 (add_task p2 prog2 (add_task p1 prog1 []))) =
        Run.done (tasks, trace) ∧
      tasks.length = 3 ∧ ∀ t ∈ tasks, t.is_complete = true) ∧
    (∃ fuel tasks trace,
      scheduler slice fuel main_queue = Run.done (tasks, trace) ∧
      tasks.length = 3 ∧ ∀ t ∈ tasks, t.is_complete = true) :=
  ⟨three_tasks_terminate p1 p2 p3 prog1 prog2 prog3 slice h1 h2 h3 hs,
    three_tasks_terminate 3 1 2 program1 program2 program3 slice (by decide!) (by decide!)
      (by decide!) hs⟩

theorem scheduler_terminates_witness :
    program_ok program2 = true ∧ program_ok ["PUSH R1", "POP R2", "NOP", "HALT"] = true ∧
    program_ok program1 = true ∧ (∀ k, 0 < (fun k => k % 2 + 1) k) ∧
    ((∃ fuel tasks trace,
      scheduler (fun k => k % 2 + 1) fuel
          (add_task 5 program1
            (add_task 0 ["PUSH R1", "POP R2", "NOP", "HALT"] (add_task 9 program2 []))) =
        Run.done (tasks, trace) ∧
      tasks.length = 3 ∧ ∀ t ∈ tasks, t.is_complete = true) ∧
    (∃ fuel tasks trace,
      scheduler (fun k => k % 2 + 1) fuel main_queue = Run.done (tasks, trace) ∧
      tasks.length = 3 ∧ ∀ t ∈ tasks, t.is_complete = true)) :=
  ⟨by decide!, by decide!, by decide!, fun k => Nat.succ_pos _,
    scheduler_terminates 9 0 5 program2 ["PUSH R1", "POP R2", "NOP", "HALT"] program1
      (fun k => k % 2 + 1) (by decide!) (by decide!) (by decide!) (fun k => Nat.succ_pos _)⟩

/-- C5: a task admitted by `add_task` while the registry is below capacity is
appended with all 8 registers 0, pc 0, sp `STACK_SIZE-1`, an all-zero stack,
`is_complete` false and `preempt_flag` false, for every priority and program. -/
theorem add_task_initial_state (priority : Int) (program : List String) (task_queue : List Task)
    (h : task_queue.length < MAX_TASKS) :
    ∃ t, add_task priority program task_queue = task_queue ++ [t] ∧
      (∀ r, t.cpu_state.registers r = 0) ∧ t.cpu_state.pc = 0 ∧
      t.cpu_state.sp = (STACK_SIZE : Int) - 1 ∧ (∀ i, t.cpu_state.stack i = 0) ∧
      t.is_complete = false ∧ t.preempt_flag = false := by
  unfold add_task
  rw [if_neg (by omega)]
  exact ⟨_, rfl, fun _ => rfl, rfl, rfl, fun _ => rfl, rfl, rfl⟩

theorem add_task_initial_state_witness :
    ([] : List Task).length < MAX_TASKS ∧
    ∃ t, add_task 3 program1 [] = [] ++ [t] ∧
      (∀ r, t.cpu_state.registers r = 0) ∧ t.cpu_state.pc = 0 ∧
      t.cpu_state.sp = (STACK_SIZE : Int) - 1 ∧ (∀ i, t.cpu_state.stack i = 0) ∧
      t.is_complete = false ∧ t.preempt_flag = false :=
  ⟨by decide, add_task_initial_state 3 program1 [] (by decide)⟩

/-- C6: when the registry already holds `MAX_TASKS` tasks, `add_task` takes the
"queue full" return and the registry (its length `task_count` and every field of
every task) is unchanged. -/
theorem add_task_full (priority : Int) (program : List String) (task_queue : List Task)
    (h : task_queue.length = MAX_TASKS) :
    add_task priority program task_queue = task_queue ∧
      (add_task priority program task_queue).length = MAX_TASKS := by
  unfold add_task
  rw [if_pos (by omega)]
  exact ⟨rfl, h⟩

theorem add_task_full_witness :
    full_queue.length = MAX_TASKS ∧
      (add_task 7 program3 full_queue = full_queue ∧
        (add_task 7 program3 full_queue).length = MAX_TASKS) :=
  ⟨by decide, add_task_full 7 program3 full_queue (by decide)⟩

/-- C7: two registries that differ only in the tasks' priority values give, under
the same slices, the same scheduler outcome: the same dispatch sequence (indices
and ids, sweep by sweep) and the same final tasks up to the priority field.  In
every sweep the dispatched indices are strictly increasing and are exactly the
indices of the tasks that were incomplete, each logged with the id of its task. -/
theorem priority_does_not_affect_schedule (slice : Nat → Nat) (fuel : Nat)
    (q q' : List Task) (h : q.map Task.erase_priority = q'.map Task.erase_priority) :
    (scheduler slice fuel q).map observe = (scheduler slice fuel q').map observe ∧
    (∀ (k : Nat) (q1 : List Task) (log : List (Nat × Int)),
      sweep slice k 0 q = some (q1, log) →
        (log.map Prod.fst).Pairwise (fun a b => a < b) ∧
        (∀ n, n ∈ log.map Prod.fst ↔ ∃ t, q.get? n = some t ∧ t.is_complete = false) ∧
        (∀ e ∈ log, ∃ t, q.get? e.1 = some t ∧ e.2 = t.id)) := by
  constructor
  · unfold scheduler
    rw [← scheduler_loop_erase_priority, ← scheduler_loop_erase_priority, h]
  · intro k q1 log hs
    obtain ⟨_, b, c, d, _⟩ := sweep_log slice q k 0 q1 log hs
    refine ⟨b, ?_, ?_⟩
    · intro n
      rw [c n]
      constructor
      · rintro ⟨j, t, hn, hj, ht⟩
        exact ⟨t, by rw [hn, Nat.zero_add]; exact hj, ht⟩
      · rintro ⟨t, hj, ht⟩
        exact ⟨n, t, by omega, hj, ht⟩
    · intro e he
      obtain ⟨t, ht, hid⟩ := d e he
      exact ⟨t, by simpa using ht, hid⟩

theorem priority_does_not_affect_schedule_witness :
    main_queue.map Task.erase_priority = main_queue_other_priorities.map Task.erase_priority ∧
    ((scheduler (fun _ => 2) 4 main_queue).map observe =
        (scheduler (fun _ => 2) 4 main_queue_other_priorities).map observe ∧
      (∀ (k : Nat) (q1 : List Task) (log : List (Nat × Int)),
        sweep (fun _ => 2) k 0 main_queue = some (q1, log) →
          (log.map Prod.fst).Pairwise (fun a b => a < b) ∧
          (∀ n, n ∈ log.map Prod.fst ↔
            ∃ t, main_queue.get? n = some t ∧ t.is_complete = false) ∧
          (∀ e ∈ log, ∃ t, main_queue.get? e.1 = some t ∧ e.2 = t.id))) :=
  ⟨rfl, priority_does_not_affect_schedule (fun _ => 2) 4 main_queue main_queue_other_priorities
    rfl⟩

/-- C8: in one scheduler sweep a task whose `is_complete` is already true is not
dispatched: its index is not in the sweep's dispatch log and the task (CPU state,
`is_complete`, `preempt_flag` and all other fields) is the same after the sweep
as before it. -/
theorem sweep_skips_completed (slice : Nat → Nat) (k : Nat) (q q1 : List Task)
    (log : List (Nat × Int)) (h : sweep slice k 0 q = some (q1, log))
    (j : Nat) (t : Task) (hj : q.get? j = some t) (hc : t.is_complete = true) :
    q1.get? j = some t ∧ ∀ e ∈ log, e.1 ≠ j := by
  obtain ⟨_, _, c, _, e⟩ := sweep_log slice q k 0 q1 log h
  refine ⟨e j t hj hc, ?_⟩
  intro x hx hxj
  have hm : x.1 ∈ log.map Prod.fst := List.mem_map.mpr ⟨x, hx, rfl⟩
  obtain ⟨j1, t1, hn, hj1, ht1⟩ := (c x.1).mp hm
  have : j1 = j := by omega
  subst this
  rw [hj] at hj1
  cases hj1
  rw [hc] at ht1
  cases ht1

theorem sweep_skips_completed_witness :
    ∃ q1 log, sweep (fun _ => 2) 0 0 half_done_queue = some (q1, log) ∧
      half_done_queue.get? 0 = some { fresh_task program2 with is_complete := true } ∧
      ({ fresh_task program2 with is_complete := true } : Task).is_complete = true ∧
      (q1.get? 0 = some { fresh_task program2 with is_complete := true } ∧
        ∀ e ∈ log, e.1 ≠ 0) := by
  obtain ⟨r, hr⟩ := Option.isSome_iff_exists.mp
    (show (sweep (fun _ => 2) 0 0 half_done_queue).isSome = true by decide!)
  obtain ⟨q1, log⟩ := r
  exact ⟨q1, log, hr, rfl, rfl,
    sweep_skips_completed (fun _ => 2) 0 half_done_queue q1 log hr 0 _ rfl rfl⟩

/-- C9 (evaluation at the failing input): a `HALT` at index 0 is dispatched by
`execute_instruction` and the task is not marked completed by it: with one
instruction per slice the dispatch ends with `pc = 1` and `is_complete = false`;
run further, the engine executes the following `LOAD R0, 5` (R0 = 5 at the end).
When `HALT` is the only instruction, the look-ahead `strcmp` reads the sentinel
and the dispatch faults. -/
theorem halt_at_index_zero :
    (execute_task 1 (fresh_task ["HALT", "LOAD R0, 5", "HALT"])).map Task.view
      = some (([0, 0, 0, 0, 0, 0, 0, 0], 1, 255), false) ∧
    (execute_task 1000 (fresh_task ["HALT", "LOAD R0, 5", "HALT"])).map Task.view
      = some (([5, 0, 0, 0, 0, 0, 0, 0], 2, 255), true) ∧
    (execute_task 1000 (fresh_task ["HALT"])).map Task.view = none := by
  decide!

/-- C10: for every CPU state and registers `d`, `s` (also `d = s`), the texts
`ADD Rd, Rs`, `SUB Rd, Rs`, `MUL Rd, Rs` set register `d` to the sum, difference,
product of the old `Rd` and `Rs` as 32-bit integers and leave every other register,
`sp`, the stack and the heap unchanged. -/
theorem two_operand_arithmetic (cpu : CPU) (d s : Fin NUM_REGISTERS) :
    (∃ c, execute_instruction cpu (two_operand "ADD" d s) = some c ∧
        c.registers d = wrap_int (cpu.registers d + cpu.registers s) ∧
        (∀ r, r ≠ d → c.registers r = cpu.registers r) ∧
        c.sp = cpu.sp ∧ c.stack = cpu.stack ∧ c.heap = cpu.heap) ∧
    (∃ c, execute_instruction cpu (two_operand "SUB" d s) = some c ∧
        c.registers d = wrap_int (cpu.registers d - cpu.registers s) ∧
        (∀ r, r ≠ d → c.registers r = cpu.registers r) ∧
        c.sp = cpu.sp ∧ c.stack = cpu.stack ∧ c.heap = cpu.heap) ∧
    (∃ c, execute_instruction cpu (two_operand "MUL" d s) = some c ∧
        c.registers d = wrap_int (cpu.registers d * cpu.registers s) ∧
        (∀ r, r ≠ d → c.registers r = cpu.registers r) ∧
        c.sp = cpu.sp ∧ c.stack = cpu.stack ∧ c.heap = cpu.heap) := by
  obtain ⟨ha, hs, hm⟩ := decode_two_operand d s
  simp only [execute_instruction_eq, ha, hs, hm, Option.some_bind, Instr.effect, Option.map_some']
  exact ⟨⟨_, rfl, Function.update_same _ _ _, fun r hr => Function.update_noteq hr _ _,
      rfl, rfl, rfl⟩,
    ⟨_, rfl, Function.update_same _ _ _, fun r hr => Function.update_noteq hr _ _,
      rfl, rfl, rfl⟩,
    ⟨_, rfl, Function.update_same _ _ _, fun r hr => Function.update_noteq hr _ _,
      rfl, rfl, rfl⟩⟩

/-- C11: for every CPU state, register `d` and decimal literal `imm` (an optional
minus sign and at least one digit, at most 9 characters in all), executing
`LOAD Rd, imm` sets register `d` to the integer the literal denotes, which lies in
the 32-bit range, and leaves every other register, `sp`, the stack and the heap
unchanged. -/
theorem load_immediate (cpu : CPU) (d : Fin NUM_REGISTERS) (negative : Bool)
    (digits : List (Fin 10)) (hne : digits ≠ [])
    (hlen : (imm_text negative digits).length ≤ 9) :
    ∃ c, execute_instruction cpu (load_text d (imm_text negative digits)) = some c ∧
      c.registers d = imm_value negative digits ∧
      (∀ r, r ≠ d → c.registers r = cpu.registers r) ∧
      c.sp = cpu.sp ∧ c.stack = cpu.stack ∧ c.heap = cpu.heap ∧
      -2147483648 < imm_value negative digits ∧ imm_value negative digits < 2147483648 := by
  have hd := decode_load d _ (imm_text_ne_nil negative digits hne)
    (imm_text_plain negative digits) hlen
  obtain ⟨hlo, hhi⟩ := imm_value_range negative digits hlen
  rw [execute_instruction_eq, hd, atoi_imm_text negative digits hne]
  exact ⟨_, rfl, Function.update_same _ _ _, fun r hr => Function.update_noteq hr _ _,
    rfl, rfl, rfl, hlo, hhi⟩

theorem load_immediate_witness :
    ([4, 2] : List (Fin 10)) ≠ [] ∧ (imm_text true [4, 2]).length ≤ 9 ∧
    load_text 3 (imm_text true [4, 2]) = "LOAD R3, -42" ∧ imm_value true [4, 2] = -42 ∧
    ∃ c, execute_instruction initialize_cpu (load_text 3 (imm_text true [4, 2])) = some c ∧
      c.registers 3 = imm_value true [4, 2] ∧
      (∀ r, r ≠ 3 → c.registers r = initialize_cpu.registers r) ∧
      c.sp = initialize_cpu.sp ∧ c.stack = initialize_cpu.stack ∧
      c.heap = initialize_cpu.heap ∧
      -2147483648 < imm_value true [4, 2] ∧ imm_value true [4, 2] < 2147483648 :=
  ⟨by decide, by decide, by decide!, by decide!,
    load_immediate initialize_cpu 3 true [4, 2] (by decide) (by decide)⟩

/-- C12 (counterexample): calls of `execute_instruction` that have no defined
result, so that `pc` is not known to increase by 1: `LOAD R8, 5` writes outside the
register file; `PUSH R0` at `sp = 256` writes `stack[256]`; `POP R0` at `sp = -2`
reads `stack[-1]`. -/
theorem execute_instruction_may_fault :
    (execute_instruction initialize_cpu "LOAD R8, 5").map CPU.view = none ∧
    (execute_instruction { initialize_cpu with sp := 256 } "PUSH R0").map CPU.view = none ∧
    (execute_instruction { initialize_cpu with sp := -2 } "POP R0").map CPU.view = none := by
  decide!

/-- C12 (amended): for every CPU state whose stack pointer lies in
`[-1, STACK_SIZE-1]` and every well-formed instruction text (any opcode of the table
with the operands it reads, or an unknown opcode), one call of `execute_instruction`
returns and has incremented `pc` by 1 as an `int`: exactly `pc + 1` unless `pc` is
`INT_MAX`. -/
theorem execute_instruction_advances_pc (cpu : CPU) (text : String)
    (hw : well_formed text = true) (hr : sp_in_range cpu) :
    ∃ c, execute_instruction cpu text = some c ∧ c.pc = wrap_int (cpu.pc + 1) ∧
      (-2147483648 ≤ cpu.pc → cpu.pc < 2147483647 → c.pc = cpu.pc + 1) := by
  obtain ⟨c, hc, hpc, _⟩ := execute_instruction_defined cpu text hw hr
  exact ⟨c, hc, hpc, fun h1 h2 => by rw [hpc]; exact wrap_int_succ _ h1 h2⟩

theorem execute_instruction_advances_pc_witness :
    well_formed "POP R3" = true ∧ sp_in_range initialize_cpu ∧
    ∃ c, execute_instruction initialize_cpu "POP R3" = some c ∧
      c.pc = wrap_int (initialize_cpu.pc + 1) ∧
      (-2147483648 ≤ initialize_cpu.pc → initialize_cpu.pc < 2147483647 →
        c.pc = initialize_cpu.pc + 1) :=
  ⟨by decide!, by unfold sp_in_range; decide!,
    execute_instruction_advances_pc initialize_cpu "POP R3" (by decide!)
      (by unfold sp_in_range; decide!)⟩

/-- C13 (counterexample): the opcode token `INCREMENT_REGISTER` is not in the opcode
table, and executing `INCREMENT_REGISTER R0` has no defined result: `sscanf` writes
the 18-character token and its terminator into the 10-byte buffer `op`. -/
theorem long_unknown_opcode_faults :
    (scan_s (c_str "INCREMENT_REGISTER R0")).1 = some "INCREMENT_REGISTER".data ∧
    "INCREMENT_REGISTER".data ∉ opcode_table ∧
    (execute_instruction initialize_cpu "INCREMENT_REGISTER R0").map CPU.view = none := by
  decide!

/-- C13 (amended): for every CPU state and every instruction text whose first four
tokens fit their buffers (at most 9 bytes each) and whose opcode token is not one
of LOAD, ADD, SUB, MUL, PUSH, POP, HALT, `execute_instruction` returns with all
registers, `sp`, the stack and the heap unchanged and `pc` incremented; in a
dispatch whose flag is clear, with a next instruction present, the task then goes
on from that next instruction (or completes if it is `HALT`). -/
theorem unknown_opcode_is_nop (cpu : CPU) (text : String) (toks : Scanned) (op : List Char)
    (hs : sscanf4 (c_str text) = some toks) (ho : toks.op = some op)
    (hn : op ∉ opcode_table) :
    execute_instruction cpu text = some { cpu with pc := wrap_int (cpu.pc + 1) } ∧
    (-2147483648 ≤ cpu.pc → cpu.pc < 2147483647 → wrap_int (cpu.pc + 1) = cpu.pc + 1) ∧
    (∀ (n : Nat) (t : Task) (next : String),
      t.cpu_state = cpu → t.preempt_flag = false →
      fetch t.program cpu.pc = some (Fetched.instr text) →
      fetch t.program (wrap_int (cpu.pc + 1)) = some (Fetched.instr next) →
      execute_task (n + 1) t =
        if c_str next = "HALT".data then
          some { t with cpu_state := { cpu with pc := wrap_int (cpu.pc + 1) },
                        is_complete := true }
        else execute_task n { t with cpu_state := { cpu with pc := wrap_int (cpu.pc + 1) } }) := by
  have hd := decode_unknown text toks op hs ho hn
  have hx : execute_instruction cpu text = some { cpu with pc := wrap_int (cpu.pc + 1) } := by
    rw [execute_instruction_eq, hd]; rfl
  refine ⟨hx, fun h1 h2 => wrap_int_succ _ h1 h2, ?_⟩
  intro n t next hcpu hf hfetch hnext
  rcases t with ⟨id, pr, cs, ic, prog, pf⟩
  dsimp only at hcpu hf hfetch hnext
  subst hcpu; subst hf
  rw [execute_task]
  simp only [hfetch, Bool.false_eq_true, if_false, hx, hnext]

theorem unknown_opcode_is_nop_witness :
    sscanf4 (c_str "JUMP 12") =
      some { op := some "JUMP".data, arg1 := some "12".data, arg2 := none, arg3 := none } ∧
    "JUMP".data ∉ opcode_table ∧
    (execute_instruction initialize_cpu "JUMP 12" =
        some { initialize_cpu with pc := wrap_int (initialize_cpu.pc + 1) } ∧
      (-2147483648 ≤ initialize_cpu.pc → initialize_cpu.pc < 2147483647 →
        wrap_int (initialize_cpu.pc + 1) = initialize_cpu.pc + 1) ∧
      (∀ (n : Nat) (t : Task) (next : String),
        t.cpu_state = initialize_cpu → t.preempt_flag = false →
        fetch t.program initialize_cpu.pc = some (Fetched.instr "JUMP 12") →
        fetch t.program (wrap_int (initialize_cpu.pc + 1)) = some (Fetched.instr next) →
        execute_task (n + 1) t =
          if c_str next = "HALT".data then
            some { t with cpu_state :=
                            { initialize_cpu with pc := wrap_int (initialize_cpu.pc + 1) },
                          is_complete := true }
          else execute_task n { t with cpu_state :=
                            { initialize_cpu with pc := wrap_int (initialize_cpu.pc + 1) } })) :=
  ⟨rfl, by decide!,
    unknown_opcode_is_nop initialize_cpu "JUMP 12"
      { op := some "JUMP".data, arg1 := some "12".data, arg2 := none, arg3 := none }
      "JUMP".data rfl rfl (by decide!)⟩

/-- C14: for every CPU state with `sp < 0` and every register `s`, executing
`PUSH Rs` returns with the registers, `sp`, every stack cell and the heap unchanged
and `pc` incremented by 1 as an `int` (exactly `pc + 1` unless `pc` is `INT_MAX`). -/
theorem push_overflow (cpu : CPU) (s : Fin NUM_REGISTERS) (h : cpu.sp < 0) :
    ∃ c, execute_instruction cpu (one_operand "PUSH" s) = some c ∧
      c.registers = cpu.registers ∧ c.sp = cpu.sp ∧ c.stack = cpu.stack ∧
      c.heap = cpu.heap ∧ c.pc = wrap_int (cpu.pc + 1) ∧
      (-2147483648 ≤ cpu.pc → cpu.pc < 2147483647 → c.pc = cpu.pc + 1) := by
  refine ⟨{ cpu with pc := wrap_int (cpu.pc + 1) }, ?_, rfl, rfl, rfl, rfl, rfl,
    fun h1 h2 => wrap_int_succ _ h1 h2⟩
  rw [execute_instruction_eq, (decode_one_operand s).1, Option.some_bind]
  simp only [Instr.effect]
  rw [if_neg (by omega)]
  rfl

theorem push_overflow_witness :
    ({ initialize_cpu with sp := -1 } : CPU).sp < 0 ∧
    ∃ c, execute_instruction { initialize_cpu with sp := -1 } (one_operand "PUSH" 5) = some c ∧
      c.registers = ({ initialize_cpu with sp := -1 } : CPU).registers ∧
      c.sp = ({ initialize_cpu with sp := -1 } : CPU).sp ∧
      c.stack = ({ initialize_cpu with sp := -1 } : CPU).stack ∧
      c.heap = ({ initialize_cpu with sp := -1 } : CPU).heap ∧
      c.pc = wrap_int (({ initialize_cpu with sp := -1 } : CPU).pc + 1) ∧
      (-2147483648 ≤ ({ initialize_cpu with sp := -1 } : CPU).pc →
        ({ initialize_cpu with sp := -1 } : CPU).pc < 2147483647 →
        c.pc = ({ initialize_cpu with sp := -1 } : CPU).pc + 1) :=
  ⟨by decide, push_overflow { initialize_cpu with sp := -1 } 5 (by decide)⟩

/-- C15: for every CPU state with `sp >= STACK_SIZE-1`, in particular the state of a
newly admitted task, and every register `d`, executing `POP Rd` returns with the
registers, `sp`, every stack cell and the heap unchanged and `pc` incremented by 1
as an `int` (exactly `pc + 1` unless `pc` is `INT_MAX`). -/
theorem pop_underflow (cpu : CPU) (d : Fin NUM_REGISTERS) (h : (STACK_SIZE : Int) - 1 ≤ cpu.sp) :
    ∃ c, execute_instruction cpu (one_operand "POP" d) = some c ∧
      c.registers = cpu.registers ∧ c.sp = cpu.sp ∧ c.stack = cpu.stack ∧
      c.heap = cpu.heap ∧ c.pc = wrap_int (cpu.pc + 1) ∧
      (-2147483648 ≤ cpu.pc → cpu.pc < 2147483647 → c.pc = cpu.pc + 1) := by
  refine ⟨{ cpu with pc := wrap_int (cpu.pc + 1) }, ?_, rfl, rfl, rfl, rfl, rfl,
    fun h1 h2 => wrap_int_succ _ h1 h2⟩
  rw [execute_instruction_eq, (decode_one_operand d).2, Option.some_bind]
  simp only [Instr.effect]
  rw [if_neg (by omega)]
  rfl

theorem pop_underflow_witness :
    (STACK_SIZE : Int) - 1 ≤ initialize_cpu.sp ∧
    ∃ c, execute_instruction initialize_cpu (one_operand "POP" 2) = some c ∧
      c.registers = initialize_cpu.registers ∧ c.sp = initialize_cpu.sp ∧
      c.stack = initialize_cpu.stack ∧ c.heap = initialize_cpu.heap ∧
      c.pc = wrap_int (initialize_cpu.pc + 1) ∧
      (-2147483648 ≤ initialize_cpu.pc → initialize_cpu.pc < 2147483647 →
        c.pc = initialize_cpu.pc + 1) :=
  ⟨by decide, pop_underflow initialize_cpu 2 (by decide)⟩

/-- C16: for every task whose current instruction is not the sentinel: if
`preempt_flag` is set when the dispatch reaches this instruction boundary,
`execute_task` returns the task as it is (no instruction executed; registers, `pc`,
`sp`, stack and `is_complete` unchanged); if the flag becomes visible at this
boundary (no further poll sees it clear), only the flag differs.  The flag is
polled between instructions only: the CPU state after any dispatch is the state
after a whole number of calls of `execute_instruction`, at most `slice` many. -/
theorem preempted_dispatch (n : Nat) (t : Task) (text : String)
    (hf : fetch t.program t.cpu_state.pc = some (Fetched.instr text)) :
    (t.preempt_flag = true → execute_task n t = some t) ∧
    (t.preempt_flag = false → execute_task 0 t = some { t with preempt_flag := true }) ∧
    (∀ t1, execute_task n t = some t1 →
      ∃ texts : List String, texts.length ≤ n ∧ (∀ x ∈ texts, x ∈ t.program) ∧
        run_instructions t.cpu_state texts = some t1.cpu_state) := by
  refine ⟨?_, ?_, fun t1 h => (execute_task_whole_instructions n t t1 h).1⟩
  · intro hp
    rcases t with ⟨id, pr, cs, ic, prog, pf⟩
    dsimp only at hf hp
    subst hp
    cases n <;> rw [execute_task] <;> simp only [hf, if_true]
  · intro hp
    rcases t with ⟨id, pr, cs, ic, prog, pf⟩
    dsimp only at hf hp
    subst hp
    rw [execute_task]
    simp only [hf, Bool.false_eq_true, if_false]

theorem preempted_dispatch_witness :
    fetch ({ fresh_task program1 with preempt_flag := true } : Task).program
        ({ fresh_task program1 with preempt_flag := true } : Task).cpu_state.pc =
      some (Fetched.instr "LOAD R0, 10") ∧
    ((({ fresh_task program1 with preempt_flag := true } : Task).preempt_flag = true →
        execute_task 5 { fresh_task program1 with preempt_flag := true } =
          some { fresh_task program1 with preempt_flag := true }) ∧
      (({ fresh_task program1 with preempt_flag := true } : Task).preempt_flag = false →
        execute_task 0 { fresh_task program1 with preempt_flag := true } =
          some { { fresh_task program1 with preempt_flag := true } with preempt_flag := true }) ∧
      (∀ t1, execute_task 5 { fresh_task program1 with preempt_flag := true } = some t1 →
        ∃ texts : List String, texts.length ≤ 5 ∧
          (∀ x ∈ texts, x ∈ ({ fresh_task program1 with preempt_flag := true } : Task).program) ∧
          run_instructions ({ fresh_task program1 with preempt_flag := true } : Task).cpu_state
            texts = some t1.cpu_state)) :=
  ⟨rfl, preempted_dispatch 5 { fresh_task program1 with preempt_flag := true } "LOAD R0, 10" rfl⟩

/-- C17: whenever the scheduler returns, every task of the registry has
`is_complete = true`, the registry has kept its length, and the last sweep, and
only the last, dispatched no task.  On a registry with no tasks or with only
completed tasks the scheduler returns, after exactly one sweep (as soon as one
sweep is allowed), with every task unchanged. -/
theorem scheduler_return (slice : Nat → Nat) (q : List Task) :
    (∀ (fuel : Nat) (q1 : List Task) (tr : List (List (Nat × Int))),
      scheduler slice fuel q = Run.done (q1, tr) →
        (∀ t ∈ q1, t.is_complete = true) ∧ q1.length = q.length ∧
        (∃ sweeps, tr = sweeps ++ [[]] ∧ ∀ log ∈ sweeps, log ≠ [])) ∧
    ((∀ t ∈ q, t.is_complete = true) →
      ∀ m, scheduler slice (m + 1) q = Run.done (q, [[]])) ∧
    (∀ m, scheduler slice (m + 1) [] = Run.done ([], [[]])) := by
  have hone : ∀ (q0 : List Task), (∀ t ∈ q0, t.is_complete = true) →
      ∀ m, scheduler slice (m + 1) q0 = Run.done (q0, [[]]) := by
    intro q0 hall m
    unfold scheduler
    rw [scheduler_loop, sweep_all_complete slice q0 0 0 hall]
    rfl
  refine ⟨?_, hone q, hone [] (fun t ht => absurd ht (List.not_mem_nil t))⟩
  intro fuel q1 tr h
  unfold scheduler at h
  obtain ⟨a, b, _, sweeps, hd, he⟩ := scheduler_loop_done slice fuel 0 q [] q1 tr h
  exact ⟨b, a, sweeps, by simpa using hd, he⟩

theorem scheduler_return_witness :
    (∀ t ∈ [{ fresh_task program1 with is_complete := true }], t.is_complete = true) ∧
    (scheduler (fun _ => 2) 1 [{ fresh_task program1 with is_complete := true }] =
      Run.done ([{ fresh_task program1 with is_complete := true }], [[]])) ∧
    (scheduler (fun _ => 2) 1 [] = Run.done ([], [[]])) ∧
    ∃ q1 tr, scheduler (fun _ => 2) 5 main_queue = Run.done (q1, tr) ∧
      (∀ t ∈ q1, t.is_complete = true) ∧ q1.length = main_queue.length ∧
      (∃ sweeps, tr = sweeps ++ [[]] ∧ ∀ log ∈ sweeps, log ≠ []) := by
  have hall : ∀ t ∈ [{ fresh_task program1 with is_complete := true }],
      t.is_complete = true := by
    intro t ht
    rw [List.mem_singleton] at ht
    rw [ht]
  obtain ⟨r, hr⟩ := (run_isDone_iff _).mp
    (show (scheduler (fun _ => 2) 5 main_queue).isDone = true by decide!)
  obtain ⟨q1, tr⟩ := r
  exact ⟨hall,
    (scheduler_return (fun _ => 2) [{ fresh_task program1 with is_complete := true }]).2.1
      hall 0,
    (scheduler_return (fun _ => 2) []).2.2 0,
    q1, tr, hr, (scheduler_return (fun _ => 2) main_queue).1 5 q1 tr hr⟩

/-- C18: `is_complete` is never changed from true back to false.  `add_task` leaves
every task already in the registry as it is; a dispatch by `execute_task` of a task
that is complete returns a task that is complete; a sweep and a whole scheduler
run leave every task that was complete as it was. -/
theorem is_complete_monotonic :
    (∀ (priority : Int) (program : List String) (q : List Task) (j : Nat) (t : Task),
      q.get? j = some t → (add_task priority program q).get? j = some t) ∧
    (∀ (n : Nat) (t t1 : Task),
      execute_task n t = some t1 → t.is_complete = true → t1.is_complete = true) ∧
    (∀ (slice : Nat → Nat) (k : Nat) (q q1 : List Task) (log : List (Nat × Int)) (j : Nat)
      (t : Task), sweep slice k 0 q = some (q1, log) → q.get? j = some t →
        t.is_complete = true → q1.get? j = some t) ∧
    (∀ (slice : Nat → Nat) (fuel : Nat) (q q1 : List Task) (tr : List (List (Nat × Int)))
      (j : Nat) (t : Task), scheduler slice fuel q = Run.done (q1, tr) → q.get? j = some t →
        t.is_complete = true → q1.get? j = some t) := by
  refine ⟨add_task_keeps, ?_, ?_, ?_⟩
  · intro n t t1 h
    exact (execute_task_whole_instructions n t t1 h).2.1
  · intro slice k q q1 log j t h
    exact (sweep_log slice q k 0 q1 log h).2.2.2.2 j t
  · intro slice fuel q q1 tr j t h
    unfold scheduler at h
    exact (scheduler_loop_done slice fuel 0 q [] q1 tr h).2.2.1 j t

/-- C19: when the registry holds `n < MAX_TASKS` tasks, `add_task` makes its length
`n + 1`, stores at index `n` the new task with `id = n`, the given priority and
program (and a freshly initialised CPU, not complete, flag clear), and leaves the
tasks at the indices below `n` unchanged. -/
theorem add_task_appends (priority : Int) (program : List String) (task_queue : List Task)
    (h : task_queue.length < MAX_TASKS) :
    (add_task priority program task_queue).length = task_queue.length + 1 ∧
    (add_task priority program task_queue).get? task_queue.length =
      some { id := (task_queue.length : Int), priority := priority, cpu_state := initialize_cpu,
             is_complete := false, program := program, preempt_flag := false } ∧
    (∀ j t, task_queue.get? j = some t →
      (add_task priority program task_queue).get? j = some t) := by
  refine ⟨?_, ?_, add_task_keeps priority program task_queue⟩
  · unfold add_task
    rw [if_neg (by omega)]
    simp
  · unfold add_task
    rw [if_neg (by omega)]
    simp

theorem add_task_appends_witness :
    (add_task 1 program2 (add_task 3 program1 [])).length < MAX_TASKS ∧
    ((add_task 2 program3 (add_task 1 program2 (add_task 3 program1 []))).length =
        (add_task 1 program2 (add_task 3 program1 [])).length + 1 ∧
      (add_task 2 program3 (add_task 1 program2 (add_task 3 program1 []))).get?
          (add_task 1 program2 (add_task 3 program1 [])).length =
        some { id := ((add_task 1 program2 (add_task 3 program1 [])).length : Int),
               priority := 2, cpu_state := initialize_cpu,
               is_complete := false, program := program3, preempt_flag := false } ∧
      (∀ j t, (add_task 1 program2 (add_task 3 program1 [])).get? j = some t →
        (add_task 2 program3 (add_task 1 program2 (add_task 3 program1 []))).get? j = some t)) :=
  ⟨by decide, add_task_appends 2 program3 (add_task 1 program2 (add_task 3 program1 []))
    (by decide)⟩

/-- C20: for every instruction of the opcode table whose register operands have the
form `R0`..`R7`, every register index that `execute_instruction` computes lies in
`0..7` (no entry of `register_reads` is `none`), and the indices are those of the
registers named by the operands that are read.  When moreover the immediate of a
`LOAD` fits its buffer, the instruction decodes and executes without fault in
every state whose stack pointer is in range. -/
theorem table_instruction_indices (i : TableInstr) :
    (∀ r ∈ register_reads i.text, ∃ j : Fin NUM_REGISTERS, r = some j) ∧
    (register_reads i.text).map (Option.map Fin.val) = i.accessed.map some ∧
    (∀ n ∈ i.accessed, n < NUM_REGISTERS) ∧
    (i.imm_fits →
      ∃ ins, decode i.text = some ins ∧ ins.indices = i.accessed ∧
        ∀ cpu, sp_in_range cpu → ∃ c, execute_instruction cpu i.text = some c) := by
  have hreads := register_reads_table i
  have hlt := accessed_lt i
  refine ⟨?_, ?_, hlt, ?_⟩
  · intro r hr
    rw [hreads] at hr
    obtain ⟨n, hn, rfl⟩ := List.mem_map.mp hr
    exact ⟨⟨n, hlt n hn⟩, by rw [dif_pos (hlt n hn)]⟩
  · rw [hreads, List.map_map]
    apply List.map_congr_left
    intro n hn
    simp only [Function.comp, dif_pos (hlt n hn), Option.map_some']
  · intro h
    obtain ⟨ins, hd, hi⟩ := decode_table i h
    refine ⟨ins, hd, hi, ?_⟩
    intro cpu hr
    obtain ⟨c, hc, _⟩ := execute_instruction_defined cpu i.text
      (by unfold well_formed; rw [hd]; rfl) hr
    exact ⟨c, hc⟩

/-- C25: preemption does not change results.  Take an incomplete task and a
dispatch of `execute_task` on it that returns without having observed the preemption
flag within `N` polls (an uninterrupted dispatch).  For every list `ns` of slices,
each any number `>= 0`, that together allow at least `N` polls, the successive
dispatches of the scheduler with these slices, each resuming from the saved state,
all return, and the final CPU state (registers, `pc`, `sp`, stack, heap) and
`is_complete` are those of the uninterrupted dispatch. -/
theorem preemption_preserves_results (t : Task) (N : Nat) (ns : List Nat)
    (hic : t.is_complete = false)
    (hun : (execute_task N { t with preempt_flag := false }).map Task.preempt_flag =
      some false)
    (hsum : N ≤ ns.sum) :
    ∃ u t1, execute_task N { t with preempt_flag := false } = some u ∧
      run_slices ns t = some t1 ∧
      t1.cpu_state = u.cpu_state ∧ t1.is_complete = u.is_complete := by
  cases hx : execute_task N { t with preempt_flag := false } with
  | none => rw [hx] at hun; cases hun
  | some u =>
    rw [hx] at hun
    simp only [Option.map_some', Option.some.injEq] at hun
    obtain ⟨t1, h1, h2, h3⟩ := run_slices_uninterrupted ns t N u hic hx hun hsum
    exact ⟨u, t1, rfl, h1, h2, h3⟩

theorem preemption_preserves_results_witness :
    (fresh_task program1).is_complete = false ∧
    (execute_task 5 { fresh_task program1 with preempt_flag := false }).map
      Task.preempt_flag = some false ∧
    5 ≤ [2, 0, 1, 3].sum ∧
    ∃ u t1, execute_task 5 { fresh_task program1 with preempt_flag := false } = some u ∧
      run_slices [2, 0, 1, 3] (fresh_task program1) = some t1 ∧
      t1.cpu_state = u.cpu_state ∧ t1.is_complete = u.is_complete :=
  ⟨rfl, by decide!, by decide,
    preemption_preserves_results (fresh_task program1) 5 [2, 0, 1, 3] rfl (by decide!)
      (by decide)⟩

/-- C26 (counterexample): the predicate holds for a newly initialised CPU, but
`execute_instruction` on it with the text `LOAD R9, 1000` has no defined result:
the store `registers[9] = 1000` is outside the register file (in the layout of
`CPU`, two `int`s past `registers[7]` is `sp`). -/
theorem sp_predicate_not_preserved_by_every_text :
    (initialize_cpu.sp = 255 ∧ reg_index (c_str "R9") = none) ∧
    (execute_instruction initialize_cpu "LOAD R9, 1000").map CPU.view = none := by
  decide!

/-- C26 (amended): the predicate `-1 <= sp <= STACK_SIZE-1` holds for a newly
initialised CPU; from every state that satisfies it, `execute_instruction` on a
well-formed instruction text returns a state that satisfies it; in such a state a
`PUSH` with `sp >= 0` writes `stack[sp]` and a `POP` with `sp < STACK_SIZE-1` reads
`stack[sp+1]`, both indices in `0..STACK_SIZE-1`; and `sp = -1` is reached from the
initial state by `STACK_SIZE` pushes. -/
theorem sp_predicate_preserved (cpu : CPU) (text : String)
    (hr : sp_in_range cpu) (hw : well_formed text = true) :
    sp_in_range initialize_cpu ∧
    (∃ c, execute_instruction cpu text = some c ∧ sp_in_range c) ∧
    (∀ r, 0 ≤ cpu.sp → ∃ i : Fin STACK_SIZE, (i.val : Int) = cpu.sp ∧
      execute_instruction cpu (one_operand "PUSH" r) =
        some { cpu with
          stack := Function.update cpu.stack i (wrap_char (cpu.registers r)),
          sp := cpu.sp - 1, pc := wrap_int (cpu.pc + 1) }) ∧
    (∀ r, cpu.sp < (STACK_SIZE : Int) - 1 → ∃ i : Fin STACK_SIZE, (i.val : Int) = cpu.sp + 1 ∧
      execute_instruction cpu (one_operand "POP" r) =
        some { cpu with
          sp := cpu.sp + 1,
          registers := Function.update cpu.registers r (cpu.stack i),
          pc := wrap_int (cpu.pc + 1) }) ∧
    (run_instructions initialize_cpu (List.replicate STACK_SIZE (one_operand "PUSH" 0))).map
      CPU.sp = some (-1) := by
  have hS : (STACK_SIZE : Int) = 256 := rfl
  have hr1 := hr
  unfold sp_in_range at hr1
  refine ⟨by unfold sp_in_range; decide, ?_, ?_, ?_, by decide!⟩
  · obtain ⟨c, hc, _, hc2⟩ := execute_instruction_defined cpu text hw hr
    exact ⟨c, hc, hc2⟩
  · intro r h0
    obtain ⟨i, hi⟩ := stack_index_eq_some cpu.sp h0 (by omega)
    refine ⟨i, stack_index_val cpu.sp i hi, ?_⟩
    have hw1 : wrap_int (cpu.sp - 1) = cpu.sp - 1 := wrap_int_eq _ (by omega) (by omega)
    rw [execute_instruction_eq, (decode_one_operand r).1, Option.some_bind]
    simp only [Instr.effect, if_pos h0, hi, Option.map_some', hw1]
  · intro r h1
    have hw1 : wrap_int (cpu.sp + 1) = cpu.sp + 1 := wrap_int_eq _ (by omega) (by omega)
    obtain ⟨i, hi⟩ := stack_index_eq_some (cpu.sp + 1) (by omega) (by omega)
    refine ⟨i, stack_index_val (cpu.sp + 1) i hi, ?_⟩
    rw [execute_instruction_eq, (decode_one_operand r).2, Option.some_bind]
    simp only [Instr.effect, if_pos h1, hw1, hi, Option.map_some']

theorem sp_predicate_preserved_witness :
    sp_in_range { initialize_cpu with sp := -1 } ∧ well_formed "POP R3" = true ∧
    (sp_in_range initialize_cpu ∧
    (∃ c, execute_instruction { initialize_cpu with sp := -1 } "POP R3" = some c ∧
      sp_in_range c) ∧
    (∀ r, 0 ≤ ({ initialize_cpu with sp := -1 } : CPU).sp →
      ∃ i : Fin STACK_SIZE, (i.val : Int) = ({ initialize_cpu with sp := -1 } : CPU).sp ∧
      execute_instruction { initialize_cpu with sp := -1 } (one_operand "PUSH" r) =
        some { ({ initialize_cpu with sp := -1 } : CPU) with
          stack := Function.update ({ initialize_cpu with sp := -1 } : CPU).stack i
            (wrap_char (({ initialize_cpu with sp := -1 } : CPU).registers r)),
          sp := ({ initialize_cpu with sp := -1 } : CPU).sp - 1,
          pc := wrap_int (({ initialize_cpu with sp := -1 } : CPU).pc + 1) }) ∧
    (∀ r, ({ initialize_cpu with sp := -1 } : CPU).sp < (STACK_SIZE : Int) - 1 →
      ∃ i : Fin STACK_SIZE,
        (i.val : Int) = ({ initialize_cpu with sp := -1 } : CPU).sp + 1 ∧
      execute_instruction { initialize_cpu with sp := -1 } (one_operand "POP" r) =
        some { ({ initialize_cpu with sp := -1 } : CPU) with
          sp := ({ initialize_cpu with sp := -1 } : CPU).sp + 1,
          registers := Function.update ({ initialize_cpu with sp := -1 } : CPU).registers r
            (({ initialize_cpu with sp := -1 } : CPU).stack i),
          pc := wrap_int (({ initialize_cpu with sp := -1 } : CPU).pc + 1) }) ∧
    (run_instructions initialize_cpu (List.replicate STACK_SIZE (one_operand "PUSH" 0))).map
      CPU.sp = some (-1)) :=
  ⟨by unfold sp_in_range; decide, by decide!,
    sp_predicate_preserved { initialize_cpu with sp := -1 } "POP R3"
      (by unfold sp_in_range; decide) (by decide!)⟩

/-- C27 (counterexample): in the program `LOAD R8, 5`, `HALT` the smallest index
`k >= 1` holding `HALT` is 1 and the sentinel comes after it, but an uninterrupted
`execute_task` from `pc = 0` has no defined result: the instruction at index 0 stores
outside the register file, so the task does not stop with `pc = 1`. -/
theorem lookahead_needs_well_formed :
    (["LOAD R8, 5", "HALT"].get? 1 = some "HALT" ∧
      well_formed "LOAD R8, 5" = false) ∧
    (execute_task 5 (fresh_task ["LOAD R8, 5", "HALT"])).map Task.view = none := by
  decide!

/-- C27 (amended): completion is detected by look-ahead.  Let `k >= 1` be the
smallest index with `program[k]` equal to `HALT`, the sentinel not before it, and let
the dispatch from `pc = 0` be uninterrupted for at least `k` instructions.  Then
`execute_task` does exactly what executing the instructions at indices `0..k-1` in
order does and then marks the task complete; if those instructions are well-formed,
it returns with `pc = k` and `is_complete = 1`, the CPU state being that after the
instructions `0..k-1` (the `HALT` at index `k` is not executed). -/
theorem halt_lookahead (program : List String) (k N : Nat) (halt : String)
    (hk : 1 ≤ k) (hmax : k ≤ 2147483647)
    (hget : program.get? k = some halt) (hhalt : c_str halt = "HALT".data)
    (hfirst : ∀ j text, 1 ≤ j → j < k → program.get? j = some text →
      c_str text ≠ "HALT".data)
    (hN : k ≤ N) :
    execute_task N (fresh_task program) =
      (run_instructions initialize_cpu (program.take k)).map
        (fun c => { fresh_task program with cpu_state := c, is_complete := true }) ∧
    ((∀ text ∈ program.take k, well_formed text = true) →
      ∃ c, run_instructions initialize_cpu (program.take k) = some c ∧
        execute_task N (fresh_task program) =
          some { fresh_task program with cpu_state := c, is_complete := true } ∧
        c.pc = (k : Int)) := by
  obtain ⟨d, rfl⟩ : ∃ d, k = 0 + d + 1 := ⟨k - 1, by omega⟩
  obtain ⟨heq, hpc⟩ := execute_task_until_halt halt hhalt d 0 N (fresh_task program) rfl rfl
    hmax hget (fun j text h1 h2 hg => hfirst j text (by omega) h2 hg) (by omega)
  have hdrop : (List.drop 0 (fresh_task program).program).take (d + 1) =
      program.take (0 + d + 1) := by
    show (List.drop 0 program).take (d + 1) = _
    rw [List.drop_zero, Nat.zero_add]
  rw [hdrop] at heq
  refine ⟨heq, fun hwf => ?_⟩
  obtain ⟨c, hc⟩ := run_instructions_defined (program.take (0 + d + 1)) initialize_cpu
    (by unfold sp_in_range; decide) hwf
  have hrun : execute_task N (fresh_task program) =
      some { fresh_task program with cpu_state := c, is_complete := true } := by
    rw [heq]
    show Option.map _ (run_instructions initialize_cpu (program.take (0 + d + 1))) = _
    rw [hc]; rfl
  exact ⟨c, hc, hrun, hpc _ hrun⟩

theorem halt_lookahead_witness :
    1 ≤ 5 ∧ 5 ≤ 2147483647 ∧ program1.get? 5 = some "HALT" ∧
    c_str "HALT" = "HALT".data ∧
    (∀ j text, 1 ≤ j → j < 5 → program1.get? j = some text → c_str text ≠ "HALT".data) ∧
    5 ≤ 7 ∧
    (execute_task 7 (fresh_task program1) =
      (run_instructions initialize_cpu (program1.take 5)).map
        (fun c => { fresh_task program1 with cpu_state := c, is_complete := true }) ∧
    ((∀ text ∈ program1.take 5, well_formed text = true) →
      ∃ c, run_instructions initialize_cpu (program1.take 5) = some c ∧
        execute_task 7 (fresh_task program1) =
          some { fresh_task program1 with cpu_state := c, is_complete := true } ∧
        c.pc = ((5 : Nat) : Int))) := by
  have hfirst : ∀ j text, 1 ≤ j → j < 5 → program1.get? j = some text →
      c_str text ≠ "HALT".data := by
    intro j text h1 h2 hg
    interval_cases j <;>
      (simp only [program1, List.get?, Option.some.injEq] at hg; subst hg; decide)
  exact ⟨by decide, by decide, rfl, by decide, hfirst, by decide,
    halt_lookahead program1 5 7 "HALT" (by decide) (by decide) rfl (by decide) hfirst
      (by decide)⟩

/-- C28: a task with an empty program is never completed.  For a task in the
registry whose program is the sentinel alone, with `pc = 0` and `is_complete = 0`:
every dispatch of `execute_task`, whatever the slice and the flag, returns the task
as it was (CPU state unchanged, `is_complete` still 0); every sweep of the registry
that returns has dispatched at least one task; and for every slice assignment and
every bound on the number of sweeps the scheduler has not reached its `break`. -/
theorem empty_program_never_completes (t : Task) (task_queue : List Task)
    (hmem : t ∈ task_queue) (hp : t.program = []) (hpc : t.cpu_state.pc = 0)
    (hic : t.is_complete = false) :
    (∀ (n : Nat) (flag : Bool),
      execute_task n { t with preempt_flag := flag } = some { t with preempt_flag := flag }) ∧
    (∀ (n : Nat), ∃ t1, dispatch n t = some t1 ∧ t1.cpu_state = t.cpu_state ∧
      t1.is_complete = false) ∧
    (∀ (slice : Nat → Nat) (k : Nat) (q1 : List Task) (log : List (Nat × Int)),
      sweep slice k 0 task_queue = some (q1, log) → log.length ≠ 0) ∧
    (∀ (slice : Nat → Nat) (fuel : Nat), (scheduler slice fuel task_queue).isDone = false) := by
  refine ⟨fun n flag => execute_task_empty n _ hp hpc, ?_, ?_, ?_⟩
  · intro n
    refine ⟨{ t with preempt_flag := true }, ?_, rfl, hic⟩
    unfold dispatch
    rw [if_neg (by rw [hic]; exact Bool.false_ne_true),
      execute_task_empty n { t with preempt_flag := false } hp hpc]
  · intro slice k q1 log hs h0
    exact (sweep_empty_program slice task_queue k 0 q1 log hs ⟨t, hmem, hp, hpc, hic⟩).1
      (List.length_eq_zero.mp h0)
  · intro slice fuel
    exact scheduler_loop_empty_program slice fuel 0 task_queue [] ⟨t, hmem, hp, hpc, hic⟩

theorem empty_program_never_completes_witness :
    ∃ t, t ∈ main_queue_with_empty ∧ t.program = [] ∧ t.cpu_state.pc = 0 ∧
      t.is_complete = false ∧
      ((∀ (n : Nat) (flag : Bool),
        execute_task n { t with preempt_flag := flag } = some { t with preempt_flag := flag }) ∧
      (∀ (n : Nat), ∃ t1, dispatch n t = some t1 ∧ t1.cpu_state = t.cpu_state ∧
        t1.is_complete = false) ∧
      (∀ (slice : Nat → Nat) (k : Nat) (q1 : List Task) (log : List (Nat × Int)),
        sweep slice k 0 main_queue_with_empty = some (q1, log) → log.length ≠ 0) ∧
      (∀ (slice : Nat → Nat) (fuel : Nat),
        (scheduler slice fuel main_queue_with_empty).isDone = false)) :=
  ⟨{ id := 3, priority := 1, is_complete := false, program := [], preempt_flag := false,
     cpu_state := initialize_cpu },
    by simp [main_queue_with_empty, main_queue, add_task, MAX_TASKS], rfl, rfl, rfl,
    empty_program_never_completes _ main_queue_with_empty
      (by simp [main_queue_with_empty, main_queue, add_task, MAX_TASKS]) rfl rfl rfl⟩

/-- C29: the third operand of an arithmetic instruction is ignored.  For every CPU
state and registers `d`, `a`, `b`, `b1`, the texts `ADD Rd, Ra, Rb` and
`ADD Rd, Ra, Rb1` give the same resulting state, in which register `d` holds the
old `Rd` plus the old `Ra` as a 32-bit integer and every other register, `sp`, the
stack and the heap are unchanged; likewise for `SUB` and `MUL`. -/
theorem third_operand_ignored (cpu : CPU) (d a b b1 : Fin NUM_REGISTERS) :
    (execute_instruction cpu (three_operand "ADD" d a b) =
        execute_instruction cpu (three_operand "ADD" d a b1) ∧
      execute_instruction cpu (three_operand "ADD" d a b) =
        some { cpu with
          registers := Function.update cpu.registers d
            (wrap_int (cpu.registers d + cpu.registers a)),
          pc := wrap_int (cpu.pc + 1) }) ∧
    (execute_instruction cpu (three_operand "SUB" d a b) =
        execute_instruction cpu (three_operand "SUB" d a b1) ∧
      execute_instruction cpu (three_operand "SUB" d a b) =
        some { cpu with
          registers := Function.update cpu.registers d
            (wrap_int (cpu.registers d - cpu.registers a)),
          pc := wrap_int (cpu.pc + 1) }) ∧
    (execute_instruction cpu (three_operand "MUL" d a b) =
        execute_instruction cpu (three_operand "MUL" d a b1) ∧
      execute_instruction cpu (three_operand "MUL" d a b) =
        some { cpu with
          registers := Function.update cpu.registers d
            (wrap_int (cpu.registers d * cpu.registers a)),
          pc := wrap_int (cpu.pc + 1) }) := by
  obtain ⟨ha, hs, hm⟩ := decode_three_operand d a b
  obtain ⟨ha1, hs1, hm1⟩ := decode_three_operand d a b1
  rw [execute_instruction_eq, execute_instruction_eq, execute_instruction_eq,
    execute_instruction_eq, execute_instruction_eq, execute_instruction_eq,
    ha, hs, hm, ha1, hs1, hm1]
  exact ⟨⟨rfl, rfl⟩, ⟨rfl, rfl⟩, ⟨rfl, rfl⟩⟩

/-- C30: a stack cell holds one byte.  For every CPU state with
`0 <= sp <= STACK_SIZE-1` and every value `v` of register `s`, `PUSH Rs` followed by
`POP Rd` executes and leaves register `d` equal to `((v + 128) mod 256) - 128`, with
`sp` as before the push; that value equals `v` exactly when `-128 <= v <= 127`. -/
theorem push_pop_low_byte (cpu : CPU) (s d : Fin NUM_REGISTERS)
    (h0 : 0 ≤ cpu.sp) (h1 : cpu.sp ≤ (STACK_SIZE : Int) - 1) :
    ∃ c, run_instructions cpu [one_operand "PUSH" s, one_operand "POP" d] = some c ∧
      c.registers d = (cpu.registers s + 128) % 256 - 128 ∧ c.sp = cpu.sp ∧
      (c.registers d = cpu.registers s ↔ -128 ≤ cpu.registers s ∧ cpu.registers s ≤ 127) := by
  have hS : (STACK_SIZE : Int) = 256 := rfl
  obtain ⟨j, hj⟩ := stack_index_eq_some cpu.sp h0 (by omega)
  have hw1 : wrap_int (cpu.sp - 1) = cpu.sp - 1 := wrap_int_eq _ (by omega) (by omega)
  have hw2 : wrap_int (cpu.sp - 1 + 1) = cpu.sp := by
    rw [wrap_int_eq _ (by omega) (by omega)]; omega
  have hpush : execute_instruction cpu (one_operand "PUSH" s) =
      some { cpu with
        stack := Function.update cpu.stack j (wrap_char (cpu.registers s)),
        sp := cpu.sp - 1, pc := wrap_int (cpu.pc + 1) } := by
    rw [execute_instruction_eq, (decode_one_operand s).1, Option.some_bind]
    simp only [Instr.effect, if_pos h0, hj, Option.map_some', hw1]
  have hpop : execute_instruction
      { cpu with
        stack := Function.update cpu.stack j (wrap_char (cpu.registers s)),
        sp := cpu.sp - 1, pc := wrap_int (cpu.pc + 1) } (one_operand "POP" d) =
      some { cpu with
        stack := Function.update cpu.stack j (wrap_char (cpu.registers s)),
        sp := cpu.sp,
        registers := Function.update cpu.registers d (wrap_char (cpu.registers s)),
        pc := wrap_int (wrap_int (cpu.pc + 1) + 1) } := by
    rw [execute_instruction_eq, (decode_one_operand d).2, Option.some_bind]
    simp only [Instr.effect]
    rw [if_pos (by show cpu.sp - 1 < (STACK_SIZE : Int) - 1; omega)]
    simp only [hw2, hj, Option.map_some', Function.update_same]
  have hrun : run_instructions cpu [one_operand "PUSH" s, one_operand "POP" d] =
      some { cpu with
        stack := Function.update cpu.stack j (wrap_char (cpu.registers s)),
        sp := cpu.sp,
        registers := Function.update cpu.registers d (wrap_char (cpu.registers s)),
        pc := wrap_int (wrap_int (cpu.pc + 1) + 1) } := by
    simp only [run_instructions, hpush, hpop]
  refine ⟨_, hrun, ?_, rfl, ?_⟩
  · show Function.update cpu.registers d (wrap_char (cpu.registers s)) d = _
    rw [Function.update_same]; rfl
  · show Function.update cpu.registers d (wrap_char (cpu.registers s)) d = _ ↔ _
    rw [Function.update_same]
    unfold wrap_char
    constructor <;> intro h <;> omega

theorem push_pop_low_byte_witness :
    (0 : Int) ≤ initialize_cpu.sp ∧ initialize_cpu.sp ≤ (STACK_SIZE : Int) - 1 ∧
    ∃ c, run_instructions initialize_cpu [one_operand "PUSH" 1, one_operand "POP" 6] = some c ∧
      c.registers 6 = (initialize_cpu.registers 1 + 128) % 256 - 128 ∧
      c.sp = initialize_cpu.sp ∧
      (c.registers 6 = initialize_cpu.registers 1 ↔
        -128 ≤ initialize_cpu.registers 1 ∧ initialize_cpu.registers 1 ≤ 127) :=
  ⟨by decide, by decide, push_pop_low_byte initialize_cpu 1 6 (by decide) (by decide)⟩

/-- C31: frame of `POP`.  For every CPU state with `-1 <= sp < STACK_SIZE-1` and
every register `d`, `POP Rd` executes, increases `sp` by exactly 1, sets register
`d` to the stack cell at the new `sp` (an index in `0..STACK_SIZE-1`), and leaves
every stack cell, every other register and the heap unchanged. -/
theorem pop_frame (cpu : CPU) (d : Fin NUM_REGISTERS)
    (h0 : -1 ≤ cpu.sp) (h1 : cpu.sp < (STACK_SIZE : Int) - 1) :
    ∃ (c : CPU) (i : Fin STACK_SIZE),
      execute_instruction cpu (one_operand "POP" d) = some c ∧
      c.sp = cpu.sp + 1 ∧ (i.val : Int) = c.sp ∧
      c.registers d = c.stack i ∧
      (∀ j, c.stack j = cpu.stack j) ∧
      (∀ r, r ≠ d → c.registers r = cpu.registers r) ∧
      c.heap = cpu.heap := by
  have hS : (STACK_SIZE : Int) = 256 := rfl
  have hw1 : wrap_int (cpu.sp + 1) = cpu.sp + 1 := wrap_int_eq _ (by omega) (by omega)
  obtain ⟨i, hi⟩ := stack_index_eq_some (cpu.sp + 1) (by omega) (by omega)
  have hrun : execute_instruction cpu (one_operand "POP" d) =
      some { cpu with
        sp := cpu.sp + 1,
        registers := Function.update cpu.registers d (cpu.stack i),
        pc := wrap_int (cpu.pc + 1) } := by
    rw [execute_instruction_eq, (decode_one_operand d).2, Option.some_bind]
    simp only [Instr.effect, if_pos h1, hw1, hi, Option.map_some']
  refine ⟨_, i, hrun, rfl, stack_index_val (cpu.sp + 1) i hi, ?_, fun _ => rfl, ?_, rfl⟩
  · show Function.update cpu.registers d (cpu.stack i) d = cpu.stack i
    rw [Function.update_same]
  · intro r hr
    show Function.update cpu.registers d (cpu.stack i) r = cpu.registers r
    rw [Function.update_noteq hr]

theorem pop_frame_witness :
    (-1 : Int) ≤ ({ initialize_cpu with sp := -1 } : CPU).sp ∧
    ({ initialize_cpu with sp := -1 } : CPU).sp < (STACK_SIZE : Int) - 1 ∧
    ∃ (c : CPU) (i : Fin STACK_SIZE),
      execute_instruction { initialize_cpu with sp := -1 } (one_operand "POP" 4) = some c ∧
      c.sp = ({ initialize_cpu with sp := -1 } : CPU).sp + 1 ∧ (i.val : Int) = c.sp ∧
      c.registers 4 = c.stack i ∧
      (∀ j, c.stack j = ({ initialize_cpu with sp := -1 } : CPU).stack j) ∧
      (∀ r, r ≠ 4 → c.registers r = ({ initialize_cpu with sp := -1 } : CPU).registers r) ∧
      c.heap = ({ initialize_cpu with sp := -1 } : CPU).heap :=
  ⟨by decide, by decide,
    pop_frame { initialize_cpu with sp := -1 } 4 (by decide) (by decide)⟩

/-- C32: the registry invariant.  After any sequence of `add_task` calls starting
from the empty registry, `task_count` is the smaller of the number of calls and
`MAX_TASKS` (so `0 <= task_count <= MAX_TASKS` and every store was to an index below
`MAX_TASKS`), the task at every index `i < task_count` has `id = i`, and no two
tasks have the same id. -/
theorem registry_invariant (calls : List (Int × List String)) :
    (add_tasks calls []).length ≤ MAX_TASKS ∧
    (add_tasks calls []).length = min calls.length MAX_TASKS ∧
    (∀ i t, (add_tasks calls []).get? i = some t → t.id = (i : Int)) ∧
    (∀ i j t u, (add_tasks calls []).get? i = some t → (add_tasks calls []).get? j = some u →
      t.id = u.id → i = j) ∧
    ∀ (priority : Int) (program : List String),
      add_task priority program (add_tasks calls []) = add_tasks calls [] ∨
      ((add_tasks calls []).length < MAX_TASKS ∧
        ∃ t, add_task priority program (add_tasks calls []) = add_tasks calls [] ++ [t]) := by
  obtain ⟨h1, h2, h3⟩ := add_tasks_invariant calls [] (Nat.zero_le _)
    (fun i t h => by cases h)
  refine ⟨h1, by rw [h2]; simp, h3, ?_, ?_⟩
  · intro i j t u hi hj hid
    have e1 := h3 i t hi
    have e2 := h3 j u hj
    omega
  · intro priority program
    unfold add_task
    by_cases hfull : (add_tasks calls []).length ≥ MAX_TASKS
    · rw [if_pos hfull]; exact Or.inl rfl
    · rw [if_neg hfull]; exact Or.inr ⟨by omega, _, rfl⟩

end CpuSimulator

namespace Adder

/-- More iterations than `number` never change the result of the conversion loop:
the bound used by `integerToBinary` does not cut the loop short. -/
theorem integerToBinary_loop_stable :
    ∀ (fuel : Nat) (number : Int) (binary : List Bool), number.toNat ≤ fuel →
      integerToBinary_loop (fuel + 1) number binary = integerToBinary_loop fuel number binary := by
  intro fuel
  induction fuel with
  | zero =>
    intro number binary h
    have : ¬ number > 0 := by omega
    simp only [integerToBinary_loop, if_neg this]
  | succ fuel ih =>
    intro number binary h
    by_cases hp : number > 0
    · have hd : (number.tdiv 2).toNat ≤ fuel := by
        rw [Int.tdiv_eq_ediv (by omega) (by omega)]
        omega
      have h1 : integerToBinary_loop (fuel + 1 + 1) number binary =
          integerToBinary_loop (fuel + 1) (number.tdiv 2)
            (binary ++ [decide (number.tmod 2 ≠ 0)]) := by
        simp only [integerToBinary_loop, if_pos hp]
      have h2 : integerToBinary_loop (fuel + 1) number binary =
          integerToBinary_loop fuel (number.tdiv 2)
            (binary ++ [decide (number.tmod 2 ≠ 0)]) := by
        simp only [integerToBinary_loop, if_pos hp]
      rw [h1, h2]
      exact ih _ _ hd
    · have h1 : integerToBinary_loop (fuel + 1 + 1) number binary = binary := by
        simp only [integerToBinary_loop, if_neg hp]
      have h2 : integerToBinary_loop (fuel + 1) number binary = binary := by
        simp only [integerToBinary_loop, if_neg hp]
      rw [h1, h2]

/-- C33 (evaluation at the failing input): for `A = [1, 1]` and `B = [1, 0]`, the
vectors of 3 and 2, `carryLookaheadAdder` returns `[1, 0, 0]`, which `binaryToInteger`
reads as 4, while the vector of the sum 5 is `[1, 0, 1]`; so no adder whose result
reads as the sum returns the same vector as `carryLookaheadAdder`. -/
theorem carryLookaheadAdder_three_plus_two :
    integerToBinary 3 = [true, true] ∧ integerToBinary 2 = [true, false] ∧
    integerToBinary 5 = [true, false, true] ∧
    carryLookaheadAdder [true, true] [true, false] = [true, false, false] ∧
    binaryToInteger (carryLookaheadAdder (integerToBinary 3) (integerToBinary 2)) = 4 ∧
    ∀ adder : List Bool → List Bool → List Bool,
      binaryToInteger (adder (integerToBinary 3) (integerToBinary 2)) = 3 + 2 →
        adder (integerToBinary 3) (integerToBinary 2) ≠
          carryLookaheadAdder (integerToBinary 3) (integerToBinary 2) := by
  have h4 : binaryToInteger (carryLookaheadAdder (integerToBinary 3) (integerToBinary 2)) = 4 := by
    decide!
  refine ⟨by decide!, by decide!, by decide!, by decide!, h4, ?_⟩
  intro adder hsum heq
  rw [heq, h4] at hsum
  exact absurd hsum (by decide)

end Adder

namespace BoothsAlgorithm

/-- C23 (evaluation at the failing input): with `bitWidth = 8`,
`boothsAlgorithm(3, 2, 8)` decodes to 20, not 6, and `boothsAlgorithm(1, 1, 8)`
decodes to 4, not 1. -/
theorem boothsAlgorithm_three_times_two :
    boothsAlgorithm 3 2 8 =
      [false, false, false, false, false, false, false, false,
       false, false, false, true, false, true, false, false] ∧
    binaryToInteger (boothsAlgorithm 3 2 8) = some 20 ∧
    binaryToInteger (boothsAlgorithm 1 1 8) = some 4 := by
  decide!

/-- C34 (evaluation at the failing input): `integerToBinary(-1, 8)` is `11111101`
and `integerToBinary(-2, 8)` is `11111100`, in `BoothsAlgorithm.cpp` and in
`NonRestoringDivision.cpp`; the two's complement encodings are `11111111` and
`11111110`. -/
theorem integerToBinary_minus_one :
    integerToBinary (-1) 8 = [true, true, true, true, true, true, false, true] ∧
    integerToBinary (-2) 8 = [true, true, true, true, true, true, false, false] ∧
    NonRestoringDivision.integerToBinary (-1) 8 =
      [true, true, true, true, true, true, false, true] ∧
    NonRestoringDivision.integerToBinary (-2) 8 =
      [true, true, true, true, true, true, false, false] := by
  decide!

/-- C35 (evaluation at the failing input): at `bitWidth = 8`,
`binaryToInteger(integerToBinary(-128, 8))` is 126 and
`binaryToInteger(integerToBinary(-127, 8))` is 127, in both files; for every other
`n` of the signed 8-bit range the round trip returns `n`. -/
theorem round_trip_at_minimum :
    (integerToBinary (-128) 8 = [false, true, true, true, true, true, true, false] ∧
      binaryToInteger (integerToBinary (-128) 8) = some 126 ∧
      binaryToInteger (integerToBinary (-127) 8) = some 127) ∧
    (NonRestoringDivision.binaryToInteger (NonRestoringDivision.integerToBinary (-128) 8) =
        some 126 ∧
      NonRestoringDivision.binaryToInteger (NonRestoringDivision.integerToBinary (-127) 8) =
        some 127) ∧
    ∀ k : Fin 254,
      binaryToInteger (integerToBinary ((k.val : Int) - 126) 8) = some ((k.val : Int) - 126) := by
  decide!

end BoothsAlgorithm

namespace NonRestoringDivision

/-- C24 (evaluation at the failing input): with `bitWidth = 8`,
`nonRestoringDivision(7, 2, 8)` returns a vector `A` of 16 elements that decodes to
-7108 and a vector `Q` that decodes to -6, not remainder 1 and quotient 3. -/
theorem nonRestoringDivision_seven_by_two :
    (nonRestoringDivision 7 2 8).1.length = 16 ∧
    binaryToInteger (nonRestoringDivision 7 2 8).1 = some (-7108) ∧
    binaryToInteger (nonRestoringDivision 7 2 8).2 = some (-6) := by
  decide!

end NonRestoringDivision

namespace OsSimulator

/-! ## The round-robin scheduler of `os_simulator.c` -/

theorem wrap_int_range (x : Int) :
    -2147483648 ≤ CpuSimulator.wrap_int x ∧ CpuSimulator.wrap_int x ≤ 2147483647 := by
  unfold CpuSimulator.wrap_int; omega

theorem wrap_int_id (x : Int) (h1 : -2147483648 ≤ x) (h2 : x ≤ 2147483647) :
    CpuSimulator.wrap_int x = x := by
  unfold CpuSimulator.wrap_int; omega

theorem slices_needed_pos (b : Int) : 1 ≤ slices_needed b := by
  unfold slices_needed
  by_cases h : 0 < b ∧ b ≤ 2147483647
  · rw [if_pos h]
    have : 1 ≤ (b + 1) / 2 := by omega
    omega
  · rw [if_neg h]
    by_cases h1 : CpuSimulator.wrap_int (b - TIME_SLICE) ≤ 0
    · rw [if_pos h1]
    · rw [if_neg h1]; omega

/-- One slice: the burst time after the subtraction is `<= 0` exactly when one slice
was needed, and otherwise one slice less is needed. -/
theorem slices_needed_step (b : Int) :
    (CpuSimulator.wrap_int (b - TIME_SLICE) ≤ 0 → slices_needed b = 1) ∧
    (¬ CpuSimulator.wrap_int (b - TIME_SLICE) ≤ 0 →
      slices_needed b = 1 + slices_needed (CpuSimulator.wrap_int (b - TIME_SLICE))) := by
  have hT : TIME_SLICE = 2 := rfl
  obtain ⟨hr1, hr2⟩ := wrap_int_range (b - TIME_SLICE)
  by_cases h : 0 < b ∧ b ≤ 2147483647
  · have hw : CpuSimulator.wrap_int (b - TIME_SLICE) = b - 2 := by
      rw [hT]; exact wrap_int_id _ (by omega) (by omega)
    rw [hw]
    constructor
    · intro h1
      unfold slices_needed
      rw [if_pos h]
      omega
    · intro h1
      have h2 : 0 < b - 2 ∧ b - 2 ≤ 2147483647 := by omega
      unfold slices_needed
      rw [if_pos h, if_pos h2]
      omega
  · constructor
    · intro h1
      unfold slices_needed
      rw [if_neg h, if_pos h1]
    · intro h1
      have h2 : 0 < CpuSimulator.wrap_int (b - TIME_SLICE) ∧
          CpuSimulator.wrap_int (b - TIME_SLICE) ≤ 2147483647 := by omega
      rw [slices_needed, if_neg h, if_neg h1]
      congr 1
      rw [slices_needed, if_pos h2]

theorem ceil_half (b : Int) : ⌈(b : ℚ) / ((TIME_SLICE : Int) : ℚ)⌉ = (b + 1) / 2 := by
  have h1 : 2 * ((b + 1) / 2) ≤ b + 1 := by omega
  have h2 : b ≤ 2 * ((b + 1) / 2) := by omega
  have q1 : (2 : ℚ) * (((b + 1) / 2 : Int) : ℚ) ≤ (b : ℚ) + 1 := by exact_mod_cast h1
  have q2 : (b : ℚ) ≤ 2 * (((b + 1) / 2 : Int) : ℚ) := by exact_mod_cast h2
  have hT : ((TIME_SLICE : Int) : ℚ) = 2 := by norm_num [TIME_SLICE]
  rw [hT, Int.ceil_eq_iff]
  constructor
  · rw [lt_div_iff₀ (by norm_num)]; linarith
  · rw [div_le_iff₀ (by norm_num)]; linarith

/-- Without overflow of the subtraction, the number of slices is
`max(1, ceil(b / TIME_SLICE))`. -/
theorem slices_needed_eq (b : Int) (h1 : -2147483646 ≤ b) (h2 : b ≤ 2147483647) :
    ((slices_needed b : Nat) : Int) = max 1 ⌈(b : ℚ) / ((TIME_SLICE : Int) : ℚ)⌉ := by
  rw [ceil_half]
  have hT : TIME_SLICE = 2 := rfl
  unfold slices_needed
  by_cases h : 0 < b ∧ b ≤ 2147483647
  · rw [if_pos h]
    omega
  · rw [if_neg h]
    have hw : CpuSimulator.wrap_int (b - TIME_SLICE) = b - 2 := by
      rw [hT]; exact wrap_int_id _ (by omega) (by omega)
    rw [hw, if_pos (by omega)]
    omega

theorem remaining_zero_iff (p : Process) :
    remaining p = 0 ↔ p.state = ProcessState.TERMINATED := by
  unfold remaining
  by_cases h : p.state = ProcessState.TERMINATED
  · rw [if_pos h]; exact ⟨fun _ => h, fun _ => rfl⟩
  · rw [if_neg h]
    have := slices_needed_pos p.burst_time
    exact ⟨fun h0 => by omega, fun h1 => absurd h1 h⟩

/-- A slice lowers by one the number of slices a process has in front of it. -/
theorem remaining_run_slice (p : Process) (h : p.state ≠ ProcessState.TERMINATED) :
    remaining (run_slice p) + 1 = remaining p := by
  obtain ⟨s1, s2⟩ := slices_needed_step p.burst_time
  have hr : remaining p = slices_needed p.burst_time := by
    unfold remaining; rw [if_neg h]
  rw [hr]
  by_cases hb : CpuSimulator.wrap_int (p.burst_time - TIME_SLICE) ≤ 0
  · have hs : (run_slice p).state = ProcessState.TERMINATED := by
      show (if CpuSimulator.wrap_int (p.burst_time - TIME_SLICE) ≤ 0 then
        ProcessState.TERMINATED else ProcessState.READY) = _
      rw [if_pos hb]
    rw [(remaining_zero_iff (run_slice p)).mpr hs, s1 hb]
  · have hs : (run_slice p).state = ProcessState.READY := by
      show (if CpuSimulator.wrap_int (p.burst_time - TIME_SLICE) ≤ 0 then
        ProcessState.TERMINATED else ProcessState.READY) = _
      rw [if_neg hb]
    have hrem : remaining (run_slice p) =
        slices_needed (CpuSimulator.wrap_int (p.burst_time - TIME_SLICE)) := by
      unfold remaining
      rw [if_neg (by rw [hs]; decide)]
      rfl
    rw [hrem, s2 hb]
    omega

theorem process_sweep_terminated (i : Nat) (p : Process) (rest : List Process)
    (h : p.state = ProcessState.TERMINATED) :
    sweep i (p :: rest) = (p :: (sweep (i + 1) rest).1, (sweep (i + 1) rest).2) := by
  rw [sweep, if_neg (by rw [h]; decide)]

theorem process_sweep_active (i : Nat) (p : Process) (rest : List Process)
    (h : p.state ≠ ProcessState.TERMINATED) :
    sweep i (p :: rest) =
      (run_slice p :: (sweep (i + 1) rest).1, i :: (sweep (i + 1) rest).2) := by
  rw [sweep, if_pos h]

theorem process_sweep_length :
    ∀ (table : List Process) (i : Nat), (sweep i table).1.length = table.length := by
  intro table
  induction table with
  | nil => intro i; rfl
  | cons p rest ih =>
    intro i
    by_cases h : p.state = ProcessState.TERMINATED
    · rw [process_sweep_terminated i p rest h]
      simp only [List.length_cons, ih (i + 1)]
    · rw [process_sweep_active i p rest h]
      simp only [List.length_cons, ih (i + 1)]

/-- The log of a sweep from index `i` holds exactly the indices of the processes that
are not terminated. -/
theorem process_sweep_mem :
    ∀ (table : List Process) (i n : Nat),
      n ∈ (sweep i table).2 ↔
        ∃ j p, n = i + j ∧ table.get? j = some p ∧ p.state ≠ ProcessState.TERMINATED := by
  intro table
  induction table with
  | nil =>
    intro i n
    constructor
    · intro h; cases h
    · rintro ⟨j, p, _, hg, _⟩; cases hg
  | cons p rest ih =>
    intro i n
    have hrest : n ∈ (sweep (i + 1) rest).2 ↔
        ∃ j q, n = i + (j + 1) ∧ (p :: rest).get? (j + 1) = some q ∧
          q.state ≠ ProcessState.TERMINATED := by
      rw [ih (i + 1) n]
      constructor
      · rintro ⟨j, q, hn, hg, hq⟩
        exact ⟨j, q, by omega, hg, hq⟩
      · rintro ⟨j, q, hn, hg, hq⟩
        exact ⟨j, q, by omega, hg, hq⟩
    by_cases h : p.state = ProcessState.TERMINATED
    · rw [process_sweep_terminated i p rest h]
      show n ∈ (sweep (i + 1) rest).2 ↔ _
      rw [hrest]
      constructor
      · rintro ⟨j, q, hn, hg, hq⟩
        exact ⟨j + 1, q, hn, hg, hq⟩
      · rintro ⟨j, q, hn, hg, hq⟩
        cases j with
        | zero =>
          simp only [List.get?, Option.some.injEq] at hg
          subst hg
          exact absurd h hq
        | succ j => exact ⟨j, q, hn, hg, hq⟩
    · rw [process_sweep_active i p rest h]
      show n ∈ i :: (sweep (i + 1) rest).2 ↔ _
      rw [List.mem_cons, hrest]
      constructor
      · rintro (hn | ⟨j, q, hn, hg, hq⟩)
        · exact ⟨0, p, by omega, rfl, h⟩
        · exact ⟨j + 1, q, hn, hg, hq⟩
      · rintro ⟨j, q, hn, hg, hq⟩
        cases j with
        | zero => exact Or.inl (by omega)
        | succ j => exact Or.inr ⟨j, q, hn, hg, hq⟩

/-- The log of a sweep is in table order. -/
theorem process_sweep_order :
    ∀ (table : List Process) (i : Nat),
      (sweep i table).2.Pairwise (fun a b => a < b) := by
  intro table
  induction table with
  | nil => intro i; exact List.Pairwise.nil
  | cons p rest ih =>
    intro i
    by_cases h : p.state = ProcessState.TERMINATED
    · rw [process_sweep_terminated i p rest h]
      exact ih (i + 1)
    · rw [process_sweep_active i p rest h]
      refine List.Pairwise.cons ?_ (ih (i + 1))
      intro n hn
      obtain ⟨j, _, hj, _, _⟩ := (process_sweep_mem rest (i + 1) n).mp hn
      omega

/-- What a sweep does to the process at index `j`. -/
theorem process_sweep_get :
    ∀ (table : List Process) (i j : Nat) (p : Process), table.get? j = some p →
      (sweep i table).1.get? j =
        some (if p.state = ProcessState.TERMINATED then p else run_slice p) := by
  intro table
  induction table with
  | nil => intro i j p hg; cases hg
  | cons q rest ih =>
    intro i j p hg
    by_cases h : q.state = ProcessState.TERMINATED
    · rw [process_sweep_terminated i q rest h]
      cases j with
      | zero =>
        simp only [List.get?, Option.some.injEq] at hg
        subst hg
        rw [if_pos h]; rfl
      | succ j => exact ih (i + 1) j p hg
    · rw [process_sweep_active i q rest h]
      cases j with
      | zero =>
        simp only [List.get?, Option.some.injEq] at hg
        subst hg
        rw [if_neg h]; rfl
      | succ j => exact ih (i + 1) j p hg

/-- How often a sweep from index 0 runs the process at index `j`: once if it is not
terminated, else not at all. -/
theorem process_sweep_count (table : List Process) (j : Nat) (p : Process)
    (hg : table.get? j = some p) :
    (sweep 0 table).2.count j = if p.state = ProcessState.TERMINATED then 0 else 1 := by
  have hnd : (sweep 0 table).2.Nodup :=
    (process_sweep_order table 0).imp (fun h => Nat.ne_of_lt h)
  by_cases h : p.state = ProcessState.TERMINATED
  · rw [if_pos h]
    apply List.count_eq_zero_of_not_mem
    intro hm
    obtain ⟨k, q, hk, hq, hqs⟩ := (process_sweep_mem table 0 j).mp hm
    have : k = j := by omega
    subst this
    rw [hg] at hq
    simp only [Option.some.injEq] at hq
    subst hq
    exact hqs h
  · rw [if_neg h]
    exact List.count_eq_one_of_mem hnd
      ((process_sweep_mem table 0 j).mpr ⟨j, p, by omega, hg, h⟩)

theorem process_sweep_all_active :
    ∀ (table : List Process) (i : Nat),
      (∀ p ∈ table, p.state ≠ ProcessState.TERMINATED) →
        (sweep i table).2 = List.range' i table.length := by
  intro table
  induction table with
  | nil => intro i _; rfl
  | cons p rest ih =>
    intro i h
    rw [process_sweep_active i p rest (h p (List.mem_cons_self _ _))]
    show i :: (sweep (i + 1) rest).2 = _
    rw [ih (i + 1) (fun q hq => h q (List.mem_cons_of_mem _ hq))]
    rfl

theorem slices_run_cons (j : Nat) (log : List Nat) (trace : List (List Nat)) :
    slices_run j (log :: trace) = log.count j + slices_run j trace := by
  unfold slices_run
  rw [List.map_cons, List.sum_cons]

/-- The loop of `schedule_processes` returns once the fuel exceeds the largest number
of slices a process has in front of it; then every process is terminated, every
sweep ran its processes in table order, and the process at index `j` was run in
exactly `remaining` slices. -/
theorem schedule_loop_spec :
    ∀ (M : Nat) (table : List Process) (trace0 : List (List Nat)),
      (∀ p ∈ table, remaining p ≤ M) →
        ∃ final trace,
          (∀ fuel, M + 1 ≤ fuel →
            schedule_loop fuel table trace0 = some (final, trace0 ++ trace)) ∧
          final.length = table.length ∧
          (∀ p ∈ final, p.state = ProcessState.TERMINATED) ∧
          (∀ log ∈ trace, log.Pairwise (fun a b => a < b)) ∧
          trace.head? = some (sweep 0 table).2 ∧
          (∀ j p, table.get? j = some p → slices_run j trace = remaining p) := by
  intro M
  induction M with
  | zero =>
    intro table trace0 hM
    have hterm : ∀ p ∈ table, p.state = ProcessState.TERMINATED :=
      fun p hp => (remaining_zero_iff p).mp (Nat.le_zero.mp (hM p hp))
    have hlog : (sweep 0 table).2 = [] := by
      cases hl : (sweep 0 table).2 with
      | nil => rfl
      | cons n rest =>
        have hm : n ∈ (sweep 0 table).2 := by rw [hl]; exact List.mem_cons_self _ _
        obtain ⟨j, p, _, hg, hp⟩ := (process_sweep_mem table 0 n).mp hm
        exact absurd (hterm p (List.get?_mem hg)) hp
    refine ⟨(sweep 0 table).1, [(sweep 0 table).2], ?_, process_sweep_length table 0, ?_, ?_,
      rfl, ?_⟩
    · intro fuel hf
      obtain ⟨f, rfl⟩ : ∃ f, fuel = f + 1 := ⟨fuel - 1, by omega⟩
      rw [schedule_loop, if_pos (by rw [hlog]; rfl)]
    · intro p hp
      obtain ⟨j, hj⟩ := List.get?_of_mem hp
      have hlt : j < table.length := by
        rw [← process_sweep_length table 0]
        rw [List.get?_eq_getElem?] at hj
        exact (List.getElem?_eq_some_iff.mp hj).1
      have hq := process_sweep_get table 0 j (table.get ⟨j, hlt⟩) (List.get?_eq_get hlt)
      have hqt := hterm _ (List.get_mem table j hlt)
      rw [if_pos hqt, hj] at hq
      simp only [Option.some.injEq] at hq
      rw [hq]; exact hqt
    · intro log hl
      rw [List.mem_singleton] at hl
      rw [hl]; exact process_sweep_order table 0
    · intro j p hg
      rw [slices_run_cons, process_sweep_count table j p hg,
        if_pos (hterm p (List.get?_mem hg))]
      rw [(remaining_zero_iff p).mpr (hterm p (List.get?_mem hg))]
      rfl
  | succ M ih =>
    intro table trace0 hM
    have hM1 : ∀ p ∈ (sweep 0 table).1, remaining p ≤ M := by
      intro p hp
      obtain ⟨j, hj⟩ := List.get?_of_mem hp
      have hlt : j < table.length := by
        rw [← process_sweep_length table 0]
        rw [List.get?_eq_getElem?] at hj
        exact (List.getElem?_eq_some_iff.mp hj).1
      have hq := process_sweep_get table 0 j (table.get ⟨j, hlt⟩) (List.get?_eq_get hlt)
      have hb := hM _ (List.get_mem table j hlt)
      rw [hj] at hq
      simp only [Option.some.injEq] at hq
      rw [hq]
      by_cases ht : (table.get ⟨j, hlt⟩).state = ProcessState.TERMINATED
      · rw [if_pos ht, (remaining_zero_iff _).mpr ht]; exact Nat.zero_le _
      · rw [if_neg ht]
        have := remaining_run_slice _ ht
        omega
    obtain ⟨final, trace, hrun, hlen, hterm, hord, _, hcount⟩ :=
      ih (sweep 0 table).1 (trace0 ++ [(sweep 0 table).2]) hM1
    have hcnt : ∀ j p, table.get? j = some p →
        (sweep 0 table).2.count j + remaining (if p.state = ProcessState.TERMINATED then p
          else run_slice p) = remaining p := by
      intro j p hg
      rw [process_sweep_count table j p hg]
      by_cases ht : p.state = ProcessState.TERMINATED
      · rw [if_pos ht, if_pos ht, (remaining_zero_iff p).mpr ht]
      · rw [if_neg ht, if_neg ht]
        have := remaining_run_slice p ht
        omega
    by_cases hl : (sweep 0 table).2.length = 0
    · have hall : ∀ p ∈ table, p.state = ProcessState.TERMINATED := by
        intro p hp
        by_contra hne
        obtain ⟨j, hj⟩ := List.get?_of_mem hp
        have hm := (process_sweep_mem table 0 j).mpr ⟨j, p, by omega, hj, hne⟩
        rw [List.length_eq_zero.mp hl] at hm
        cases hm
      refine ⟨(sweep 0 table).1, [(sweep 0 table).2], ?_, process_sweep_length table 0, ?_, ?_,
        rfl, ?_⟩
      · intro fuel hf
        obtain ⟨f, rfl⟩ : ∃ f, fuel = f + 1 := ⟨fuel - 1, by omega⟩
        rw [schedule_loop, if_pos hl]
      · intro p hp
        obtain ⟨j, hj⟩ := List.get?_of_mem hp
        have hlt : j < table.length := by
          rw [← process_sweep_length table 0]
          rw [List.get?_eq_getElem?] at hj
          exact (List.getElem?_eq_some_iff.mp hj).1
        have hq := process_sweep_get table 0 j (table.get ⟨j, hlt⟩) (List.get?_eq_get hlt)
        have hqt := hall _ (List.get_mem table j hlt)
        rw [if_pos hqt, hj] at hq
        simp only [Option.some.injEq] at hq
        rw [hq]; exact hqt
      · intro log hlog
        rw [List.mem_singleton] at hlog
        rw [hlog]; exact process_sweep_order table 0
      · intro j p hg
        rw [slices_run_cons, process_sweep_count table j p hg,
          if_pos (hall p (List.get?_mem hg))]
        rw [(remaining_zero_iff p).mpr (hall p (List.get?_mem hg))]
        rfl
    · refine ⟨final, (sweep 0 table).2 :: trace, ?_, ?_, hterm, ?_, rfl, ?_⟩
      · intro fuel hf
        obtain ⟨f, rfl⟩ : ∃ f, fuel = f + 1 := ⟨fuel - 1, by omega⟩
        rw [schedule_loop, if_neg hl, hrun f (by omega), List.append_assoc]
        rfl
      · rw [hlen, process_sweep_length table 0]
      · intro log hlog
        rcases List.mem_cons.mp hlog with h0 | h0
        · rw [h0]; exact process_sweep_order table 0
        · exact hord log h0
      · intro j p hg
        rw [slices_run_cons, hcount j _ (process_sweep_get table 0 j p hg)]
        exact hcnt j p hg

theorem remaining_bound (table : List Process) : ∃ M, ∀ p ∈ table, remaining p ≤ M := by
  induction table with
  | nil => exact ⟨0, fun p hp => absurd hp (List.not_mem_nil p)⟩
  | cons q rest ih =>
    obtain ⟨M, hM⟩ := ih
    refine ⟨max (remaining q) M, fun p hp => ?_⟩
    rcases List.mem_cons.mp hp with h | h
    · rw [h]; exact Nat.le_max_left _ _
    · exact Nat.le_trans (hM p h) (Nat.le_max_right _ _)

/-- The table built by a sequence of calls that all find room: one `NEW` process per
call, in call order, with the burst time of the call. -/
theorem create_processes_spec :
    ∀ (calls : List (String × Int × Int)) (t0 t : List Process),
      t0.length + calls.length ≤ MAX_PROCESSES → create_processes calls t0 = some t →
        t.map (fun p => (p.state, p.burst_time)) =
          t0.map (fun p => (p.state, p.burst_time)) ++
            calls.map (fun c => (ProcessState.NEW, c.2.2)) := by
  intro calls
  induction calls with
  | nil =>
    intro t0 t _ h
    simp only [create_processes, Option.some.injEq] at h
    subst h
    simp only [List.map_nil, List.append_nil]
  | cons c cs ih =>
    intro t0 t hlen h
    rw [List.length_cons] at hlen
    rw [create_processes] at h
    cases hc : create_process c.1 c.2.1 c.2.2 t0 with
    | none => rw [hc] at h; cases h
    | some t1 =>
      rw [hc] at h
      dsimp only at h
      unfold create_process at hc
      rw [if_neg (by omega)] at hc
      by_cases hname : CpuSimulator.byte_length (CpuSimulator.c_str c.1) < 50
      · rw [if_pos hname] at hc
        simp only [Option.some.injEq] at hc
        subst hc
        rw [ih _ t (by rw [List.length_append, List.length_singleton]; omega) h]
        simp only [List.map_append, List.map_cons, List.map_nil, List.append_assoc,
          List.singleton_append]
      · rw [if_neg hname] at hc; cases hc

/-- The run of `main`: three sweeps that run processes and a last one that finds
none; `Process1` and `Process3` are run in 3 slices, `Process2` in 2. -/
theorem main_schedule_trace :
    (schedule_processes 4 main_table).map
        (fun r => (r.1.map (fun p => p.burst_time), r.2)) =
      some ([0, 0, -1], [[0, 1, 2], [0, 1, 2], [0, 2], []]) := by
  decide!

/-- The scheduler on a table built by calls of `create_process` that all find room:
it returns with every process terminated, the first sweep runs every process in table
order, every sweep runs its processes in table order, and process `i` is run in
exactly `slices_needed b_i` slices. -/
theorem schedule_created_table (calls : List (String × Int × Int))
    (process_table : List Process)
    (hn : calls.length ≤ MAX_PROCESSES)
    (hc : create_processes calls [] = some process_table) :
    ∃ (final : List Process) (trace : List (List Nat)) (fuel0 : Nat),
      (∀ fuel, fuel0 ≤ fuel →
        schedule_processes fuel process_table = some (final, trace)) ∧
      final.length = calls.length ∧
      (∀ p ∈ final, p.state = ProcessState.TERMINATED) ∧
      trace.head? = some (List.range calls.length) ∧
      (∀ log ∈ trace, log.Pairwise (fun a b => a < b)) ∧
      (∀ i name priority b, calls.get? i = some (name, priority, b) →
        slices_run i trace = slices_needed b) := by
  obtain ⟨M, hM⟩ := remaining_bound process_table
  obtain ⟨final, trace, hrun, hlen, hterm, hord, hhead, hcount⟩ :=
    schedule_loop_spec M process_table [] hM
  have hmap := create_processes_spec calls [] process_table
    (by rw [List.length_nil]; omega) hc
  rw [List.map_nil, List.nil_append] at hmap
  have hlen2 : process_table.length = calls.length := by
    have := congrArg List.length hmap
    rw [List.length_map, List.length_map] at this
    exact this
  have hnew : ∀ p ∈ process_table, p.state ≠ ProcessState.TERMINATED := by
    intro p hp
    have hm : (p.state, p.burst_time) ∈
        process_table.map (fun p => (p.state, p.burst_time)) :=
      List.mem_map.mpr ⟨p, hp, rfl⟩
    rw [hmap] at hm
    obtain ⟨c, _, hcq⟩ := List.mem_map.mp hm
    have : p.state = ProcessState.NEW := (congrArg Prod.fst hcq).symm
    rw [this]; decide
  have hget : ∀ i name priority b, calls.get? i = some (name, priority, b) →
      ∃ p, process_table.get? i = some p ∧ p.state ≠ ProcessState.TERMINATED ∧
        p.burst_time = b := by
    intro i name priority b hcall
    have h1 := congrArg (fun l => l[i]?) hmap
    dsimp only at h1
    rw [List.getElem?_map, List.getElem?_map, ← List.get?_eq_getElem?,
      ← List.get?_eq_getElem?, hcall] at h1
    cases hp : process_table.get? i with
    | none => rw [hp] at h1; cases h1
    | some p =>
      rw [hp] at h1
      simp only [Option.map_some', Option.some.injEq, Prod.mk.injEq] at h1
      exact ⟨p, rfl, hnew p (List.get?_mem hp), h1.2⟩
  refine ⟨final, trace, M + 1, ?_, by rw [hlen, hlen2], hterm, ?_, hord, ?_⟩
  · intro fuel hf
    unfold schedule_processes
    rw [hrun fuel hf, List.nil_append]
  · rw [hhead, process_sweep_all_active process_table 0 hnew, hlen2, List.range_eq_range']
  · intro i name priority b hcall
    obtain ⟨p, hg, hp, hb⟩ := hget i name priority b hcall
    have hrem : remaining p = slices_needed b := by
      unfold remaining; rw [if_neg hp, hb]
    rw [hcount i p hg, hrem]

/-- C36 (counterexample): a table of one process with burst time `INT_MIN`, for
which `max(1, ceil(b / TIME_SLICE))` is 1.  The subtraction of its first slice
overflows: the process is left `READY` with burst time 2147483646, the second sweep
runs it again, the scheduler has not returned after two sweeps, and when it returns
the process has been run in 1073741824 slices. -/
theorem burst_time_overflow :
    (create_processes min_burst_calls [] = some min_burst_table ∧
      max 1 ⌈((-2147483648 : Int) : ℚ) / ((TIME_SLICE : Int) : ℚ)⌉ = 1) ∧
    ((sweep 0 min_burst_table).1.map (fun p => (p.state, p.burst_time)) =
        [(ProcessState.READY, 2147483646)] ∧
      (sweep 0 (sweep 0 min_burst_table).1).2 = [0] ∧
      schedule_processes 2 min_burst_table = none) ∧
    ∃ (final : List Process) (trace : List (List Nat)) (fuel0 : Nat),
      (∀ fuel, fuel0 ≤ fuel →
        schedule_processes fuel min_burst_table = some (final, trace)) ∧
      slices_run 0 trace = 1073741824 := by
  obtain ⟨final, trace, fuel0, hrun, _, _, _, _, hcount⟩ :=
    schedule_created_table min_burst_calls min_burst_table (by decide) (by decide!)
  refine ⟨⟨by decide!, ?_⟩, ⟨by decide!, by decide!, by decide!⟩, final, trace, fuel0, hrun, ?_⟩
  · rw [ceil_half]; decide
  · rw [hcount 0 "Process1" 1 (-2147483648) rfl]
    decide!

/-- C36 (amended): the round-robin scheduler of `os_simulator.c`.  For every process
table built by `n <= MAX_PROCESSES` calls of `create_process` with burst times
`b_1..b_n`, `schedule_processes` returns (for every bound on the number of sweeps
from some bound on) with every process `TERMINATED`; the first sweep runs all `n`
processes in table order, and every sweep runs exactly the processes that are not
terminated, in increasing index; process `i` is run in at least one slice, and in
exactly `max(1, ceil(b_i / TIME_SLICE))` slices when `b_i - TIME_SLICE` is an `int`
(`b_i` from `INT_MIN + 2` to `INT_MAX`). -/
theorem round_robin_schedule (calls : List (String × Int × Int))
    (process_table : List Process)
    (hn : calls.length ≤ MAX_PROCESSES)
    (hc : create_processes calls [] = some process_table) :
    ∃ (final : List Process) (trace : List (List Nat)) (fuel0 : Nat),
      (∀ fuel, fuel0 ≤ fuel →
        schedule_processes fuel process_table = some (final, trace)) ∧
      final.length = calls.length ∧
      (∀ p ∈ final, p.state = ProcessState.TERMINATED) ∧
      trace.head? = some (List.range calls.length) ∧
      (∀ log ∈ trace, log.Pairwise (fun a b => a < b)) ∧
      (∀ (t : List Process), (sweep 0 t).2.Pairwise (fun a b => a < b) ∧
        ∀ j, j ∈ (sweep 0 t).2 ↔
          ∃ p, t.get? j = some p ∧ p.state ≠ ProcessState.TERMINATED) ∧
      (∀ i name priority b, calls.get? i = some (name, priority, b) →
        1 ≤ slices_run i trace ∧
        (-2147483646 ≤ b → b ≤ 2147483647 →
          ((slices_run i trace : Nat) : Int) =
            max 1 ⌈(b : ℚ) / ((TIME_SLICE : Int) : ℚ)⌉)) := by
  obtain ⟨final, trace, fuel0, hrun, hlen, hterm, hhead, hord, hcount⟩ :=
    schedule_created_table calls process_table hn hc
  refine ⟨final, trace, fuel0, hrun, hlen, hterm, hhead, hord, ?_, ?_⟩
  · intro t
    refine ⟨process_sweep_order t 0, fun j => ?_⟩
    rw [process_sweep_mem t 0 j]
    constructor
    · rintro ⟨k, p, hk, hg, hp⟩
      have : k = j := by omega
      subst this
      exact ⟨p, hg, hp⟩
    · rintro ⟨p, hg, hp⟩
      exact ⟨j, p, by omega, hg, hp⟩
  · intro i name priority b hcall
    rw [hcount i name priority b hcall]
    exact ⟨slices_needed_pos b, fun h1 h2 => slices_needed_eq b h1 h2⟩

theorem round_robin_schedule_witness :
    main_calls.length ≤ MAX_PROCESSES ∧
    create_processes main_calls [] = some main_table ∧
    ∃ (final : List Process) (trace : List (List Nat)) (fuel0 : Nat),
      (∀ fuel, fuel0 ≤ fuel →
        schedule_processes fuel main_table = some (final, trace)) ∧
      final.length = main_calls.length ∧
      (∀ p ∈ final, p.state = ProcessState.TERMINATED) ∧
      trace.head? = some (List.range main_calls.length) ∧
      (∀ log ∈ trace, log.Pairwise (fun a b => a < b)) ∧
      (∀ (t : List Process), (sweep 0 t).2.Pairwise (fun a b => a < b) ∧
        ∀ j, j ∈ (sweep 0 t).2 ↔
          ∃ p, t.get? j = some p ∧ p.state ≠ ProcessState.TERMINATED) ∧
      (∀ i name priority b, main_calls.get? i = some (name, priority, b) →
        1 ≤ slices_run i trace ∧
        (-2147483646 ≤ b → b ≤ 2147483647 →
          ((slices_run i trace : Nat) : Int) =
            max 1 ⌈(b : ℚ) / ((TIME_SLICE : Int) : ℚ)⌉)) :=
  ⟨by decide, by decide!,
    round_robin_schedule main_calls main_table (by decide) (by decide!)⟩

end OsSimulator
